import Mathlib

/-!
SIGNAL translator: the recursive-descent syntax analyzer of `src/parser.cpp`.

A shallow embedding of `Parser` and a verification of its specification.

Modelling conventions.

* The syntax tree is a value of type `Node`; the node a `Builder` points at is
  given by its path from the root (the list of child indices), so that
  `builder.node = builder.node->addChild(..)` becomes "append a child at the
  path and extend the path by the index of the new child".
* `TokenIterator` holds the number of tokens already passed and the tokens
  from the cursor to `end`; `tokens.token == tokens.end` holds exactly when
  nothing remains.
* The tree, the iterator and the error vector, which the C++ code mutates
  through pointers and references, are threaded through as a `ParseState`.
* A production returns `Option (Bool × ParseState)`: `none` stands for
  undefined behaviour (`identidier` and `unsignedInteger` dereference
  `tokens.token` before `leaf` has compared it with `tokens.end`).
* A C++ string is a sequence of bytes; here it is a `String` whose characters
  below 256 stand for the bytes.
* `int` is `Int`; no arithmetic is done on codes, so no overflow can happen.
-/

namespace Signal

/-! ## Data model -/

/-- The enumeration `Tables::Range`, declared in a header that is not part of
the sources at hand. `zero` is `static_cast<Tables::Range>(0)`, the value the
parser uses for "no range". -/
inductive Range where
  | zero
  | keywordsBegin
  | constantsBegin
  | identifiersBegin
  deriving DecidableEq, Repr

/-- A token of the lexer: `code()`, `name()`, `y()` (line) and `x()` (column). -/
structure Token where
  code : Int
  name : String
  y : Int
  x : Int
  deriving DecidableEq, Repr

/-- The token table `Tables`. `getRange` answers `none` where the C++ method
throws `std::runtime_error`; `name` is the display name of a code; `tokens` is
the token sequence produced by the lexer. -/
structure Tables where
  getRange : Int → Option Range
  name : Int → String
  tokens : List Token

/-- The tags `Labels::Tags` used by the parser. -/
inductive Tags where
  | SignalProgram
  | Program
  | ProcedureIdentifier
  | Block
  | ParametersList
  | Declarations
  | DeclarationsList
  | StatementsList
  | LabelDeclarations
  | UnsignedInteger
  | LabelsList
  | Identifier
  | Empty
  deriving DecidableEq, Repr

/-- The label of a tree node: a grammar tag (`addChild(Labels::Tags::..)`) or
the code of a matched token (`addChild(token.code())`). -/
inductive Label where
  | tag (t : Tags)
  | code (c : Int)
  deriving DecidableEq, Repr

/-- A node of the syntax tree: a label and the ordered list of owned children. -/
inductive Node where
  | mk (label : Label) (children : List Node)

/-- The label of a node. -/
def Node.label : Node → Label
  | .mk l _ => l

/-- The children of a node, in order. -/
def Node.children : Node → List Node
  | .mk _ cs => cs

/-- The node reached from `n` by following the child indices of a path. -/
def Node.nodeAt : List Nat → Node → Option Node
  | [], n => some n
  | i :: p, .mk _ cs =>
    match cs[i]? with
    | some c => Node.nodeAt p c
    | none => none

/-- Replace the node at a path by its image under `f`; every other node is
kept. A path that leads nowhere changes nothing. -/
def Node.modifyAt (f : Node → Node) : List Nat → Node → Node
  | [], n => f n
  | i :: p, .mk l cs =>
    match cs[i]? with
    | some c => .mk l (cs.set i (Node.modifyAt f p c))
    | none => .mk l cs

/-- The method `Node::setLabel`. -/
def Node.setLabel (l : Label) (n : Node) : Node :=
  .mk l n.children

/-- Append a childless node labelled `l` as the last child. -/
def Node.pushChild (l : Label) (n : Node) : Node :=
  .mk n.label (n.children ++ [.mk l []])

/-- The call `node->addChild(l)` on the node at path `node` of `tree`: the tree
with the new last child, and the path of that child (the returned pointer). -/
def addChild (tree : Node) (node : List Nat) (l : Label) : Node × List Nat :=
  match tree.nodeAt node with
  | some n => (tree.modifyAt (Node.pushChild l) node, node ++ [n.children.length])
  | none => (tree, node)

/-- The class `Builder`: the current insertion point and the token table. -/
structure Builder where
  node : List Nat
  tables : Tables

/-- The class `TokenIterator`: `index` tokens have been passed, `rest` are the
tokens from `token` up to `end`. -/
structure TokenIterator where
  index : Nat
  rest : List Token
  deriving DecidableEq, Repr

/-- What the productions mutate: the tree, the token iterator, the error sink. -/
structure ParseState where
  tree : Node
  tokens : TokenIterator
  errors : List String

/-- The keyword codes `PROGRAM_CODE`, ..., macros of a header that is not part
of the sources at hand; they are parameters of the parser. -/
structure KeywordCodes where
  PROGRAM_CODE : Int
  PROCEDURE_CODE : Int
  BEGIN_CODE : Int
  END_CODE : Int
  LABEL_CODE : Int

/-- The keyword codes registered by `initializeTables` in `lab1/main.cpp`. -/
def lab1Codes : KeywordCodes :=
  ⟨301, 302, 303, 304, 305⟩

/-! ## Diagnostics -/

/-- The string pushed by `leaf` at the end of the stream (line 223). -/
def eofDiagnostic : String :=
  "\x1b[1;37Parser:\x1b[0m \x1b[1;31Error:\x1b[0m '.' expected but EOF found"

/-- The common frame of the two mismatch diagnostics (lines 256-258 and
266-269): `expected` is what stands before " expected but". -/
def mismatchDiagnostic (token : Token) (expected : String) : String :=
  "\x1b[1;37mParser:\x1b[0m \x1b[1;31mError (line: " ++ toString token.y
    ++ ", column: " ++ toString token.x ++ "):\x1b[0m "
    ++ expected ++ " expected but '" ++ token.name ++ "' found"

/-- The `switch (range)` of lines 241-251. -/
def rangeWord : Range → String
  | .keywordsBegin => "Keyword"
  | .constantsBegin => "Constant"
  | .identifiersBegin => "Identifier"
  | .zero => ""

/-- The value of `buff` at line 256. -/
def expectedBuff (tables : Tables) (code : Int) (range tokenRange : Range) : String :=
  if tokenRange ≠ .zero then rangeWord range ++ " '" ++ tables.name code ++ "'"
  else rangeWord range

/-- The conversion `char(code)` followed by the quotes of line 268. -/
def quotedChar (code : Int) : String :=
  "'" ++ String.singleton (Char.ofNat (code % 256).toNat) ++ "'"

/-- The `try`/`catch` of lines 230-234. -/
def tokenRangeOf (tables : Tables) (token : Token) : Range :=
  match tables.getRange token.code with
  | some r => r
  | none => .zero

/-! ## The productions -/

/-- The function `Parser::leaf` (lines 220-277). The defaults of its declaration
(`range = 0`, `required = true`) are passed explicitly by the callers below. -/
def leaf (builder : Builder) (st : ParseState) (code : Int) (range : Range)
    (required : Bool) : Bool × ParseState :=
  match st.tokens.rest with
  | [] => (false, { st with errors := st.errors ++ [eofDiagnostic] })
  | token :: rest =>
    let tokenRange := tokenRangeOf builder.tables token
    if range ≠ .zero ∧ (tokenRange ≠ range ∨ token.code ≠ code) then
      if !required then (false, st)
      else
        (false, { st with errors := st.errors ++
          [mismatchDiagnostic token (expectedBuff builder.tables code range tokenRange)] })
    else if code ≠ -1 ∧ token.code ≠ code then
      if !required then (false, st)
      else (false, { st with errors := st.errors ++ [mismatchDiagnostic token (quotedChar code)] })
    else
      (true, { st with
        tree := (addChild st.tree builder.node (.code token.code)).1
        tokens := ⟨st.tokens.index + 1, rest⟩ })

/-- The statement `builder.node = builder.node->addChild(tag)` at the head of a
production: the builder of the callee and the state with the grown tree. -/
def descend (builder : Builder) (st : ParseState) (t : Tags) : Builder × ParseState :=
  let r := addChild st.tree builder.node (.tag t)
  ({ builder with node := r.2 }, { st with tree := r.1 })

/-- The statement `builder.node->addChild(Labels::Tags::Empty)`. -/
def addEmpty (builder : Builder) (st : ParseState) : ParseState :=
  { st with tree := (addChild st.tree builder.node (.tag .Empty)).1 }

/-- The idiom `if (!p) return false;` followed by the rest `k` of the body. -/
def andThen (r : Option (Bool × ParseState))
    (k : ParseState → Option (Bool × ParseState)) : Option (Bool × ParseState) :=
  match r with
  | some (true, st) => k st
  | some (false, st) => some (false, st)
  | none => none

/-- The function `Parser::identidier` (lines 211-218). The argument
`tokens.token->get()->code()` is evaluated before `leaf` is entered. -/
def identidier (builder : Builder) (st : ParseState) : Option (Bool × ParseState) :=
  let d := descend builder st .Identifier
  match d.2.tokens.rest with
  | [] => none
  | token :: _ => some (leaf d.1 d.2 token.code .identifiersBegin true)

/-- The function `Parser::unsignedInteger` (lines 182-189). -/
def unsignedInteger (builder : Builder) (st : ParseState) : Option (Bool × ParseState) :=
  let d := descend builder st .UnsignedInteger
  match d.2.tokens.rest with
  | [] => none
  | token :: _ => some (leaf d.1 d.2 token.code .constantsBegin true)

/-- The function `Parser::procedureIdentifier` (lines 83-90). -/
def procedureIdentifier (builder : Builder) (st : ParseState) : Option (Bool × ParseState) :=
  let d := descend builder st .ProcedureIdentifier
  andThen (identidier d.1 d.2) fun st => some (true, st)

/-- The function `Parser::declarationsList` (lines 144-149). -/
def declarationsList (builder : Builder) (st : ParseState) : Option (Bool × ParseState) :=
  let d := descend builder st .DeclarationsList
  some (true, addEmpty d.1 d.2)

/-- The function `Parser::statementsList` (lines 151-156). -/
def statementsList (builder : Builder) (st : ParseState) : Option (Bool × ParseState) :=
  let d := descend builder st .StatementsList
  some (true, addEmpty d.1 d.2)

/-- The function `Parser::labelsList` (lines 191-209), with the depth of the
recursion bounded by `fuel`. -/
def labelsListAux : Nat → Builder → ParseState → Option (Bool × ParseState)
  | 0, _, _ => none
  | fuel + 1, builder, st =>
    let d := descend builder st .LabelsList
    match leaf d.1 d.2 44 .zero false with
    | (false, st) => some (true, addEmpty d.1 st)
    | (true, st) =>
      andThen (unsignedInteger d.1 st) fun st =>
      andThen (labelsListAux fuel d.1 st) fun st =>
      some (true, st)

/-- The function `Parser::labelsList`: every level of the recursion passes at
least one token, so one level more than the number of remaining tokens is
enough (`labelsList_unfold` below). -/
def labelsList (builder : Builder) (st : ParseState) : Option (Bool × ParseState) :=
  labelsListAux (st.tokens.rest.length + 1) builder st

/-- The function `Parser::labelDeclarations` (lines 158-180). -/
def labelDeclarations (kw : KeywordCodes) (builder : Builder) (st : ParseState) :
    Option (Bool × ParseState) :=
  let d := descend builder st .LabelDeclarations
  match leaf d.1 d.2 kw.LABEL_CODE .keywordsBegin false with
  | (false, st) => some (true, addEmpty d.1 st)
  | (true, st) =>
    andThen (unsignedInteger d.1 st) fun st =>
    andThen (labelsList d.1 st) fun st =>
    andThen (some (leaf d.1 st 59 .zero true)) fun st =>
    some (true, st)

/-- The function `Parser::declarations` (lines 135-142). -/
def declarations (kw : KeywordCodes) (builder : Builder) (st : ParseState) :
    Option (Bool × ParseState) :=
  let d := descend builder st .Declarations
  andThen (labelDeclarations kw d.1 d.2) fun st => some (true, st)

/-- The function `Parser::parametersList` (lines 115-133). -/
def parametersList (builder : Builder) (st : ParseState) : Option (Bool × ParseState) :=
  let d := descend builder st .ParametersList
  match leaf d.1 d.2 40 .zero false with
  | (false, st) => some (true, addEmpty d.1 st)
  | (true, st) =>
    andThen (declarationsList d.1 st) fun st =>
    andThen (some (leaf d.1 st 41 .zero true)) fun st =>
    some (true, st)

/-- The function `Parser::block` (lines 92-113). -/
def block (kw : KeywordCodes) (builder : Builder) (st : ParseState) :
    Option (Bool × ParseState) :=
  let d := descend builder st .Block
  andThen (declarations kw d.1 d.2) fun st =>
  andThen (some (leaf d.1 st kw.BEGIN_CODE .keywordsBegin true)) fun st =>
  andThen (statementsList d.1 st) fun st =>
  andThen (some (leaf d.1 st kw.END_CODE .keywordsBegin true)) fun st =>
  some (true, st)

/-- The function `Parser::program` (lines 32-81). -/
def program (kw : KeywordCodes) (builder : Builder) (st : ParseState) :
    Option (Bool × ParseState) :=
  let d := descend builder st .Program
  match leaf d.1 d.2 kw.PROGRAM_CODE .keywordsBegin false with
  | (true, st) =>
    andThen (procedureIdentifier d.1 st) fun st =>
    andThen (some (leaf d.1 st 59 .zero true)) fun st =>
    andThen (block kw d.1 st) fun st =>
    andThen (some (leaf d.1 st 46 .zero true)) fun st =>
    some (true, st)
  | (false, st) =>
    match leaf d.1 st kw.PROCEDURE_CODE .keywordsBegin true with
    | (true, st) =>
      andThen (procedureIdentifier d.1 st) fun st =>
      andThen (parametersList d.1 st) fun st =>
      andThen (some (leaf d.1 st 59 .zero true)) fun st =>
      andThen (block kw d.1 st) fun st =>
      andThen (some (leaf d.1 st 59 .zero true)) fun st =>
      some (true, st)
    | (false, st) => some (false, st)

/-- The function `Parser::signalProgram` (lines 23-30). -/
def signalProgram (kw : KeywordCodes) (builder : Builder) (st : ParseState) :
    Option (Bool × ParseState) :=
  let st := { st with tree := st.tree.modifyAt (Node.setLabel (.tag .SignalProgram)) builder.node }
  andThen (program kw builder st) fun st => some (true, st)

/-- Modelled from the spec: the tree made by `std::make_shared<SyntaxTree>()`.
The constructor of `SyntaxTree` is not part of the sources at hand; the
specification has `analyze` return "a Syntax Tree rooted at a
`SignalProgram`-labeled node (possibly with zero children if analysis aborted
early)" and, with a sink that is not empty, "an empty tree". -/
def freshTree : Node :=
  .mk (.tag .SignalProgram) []

/-- The state in which `analyze` calls `signalProgram`: the fresh tree, an
iterator at the first token of the table, and the caller's error sink. -/
def initialState (tables : Tables) (errors : List String) : ParseState :=
  ⟨freshTree, ⟨0, tables.tokens⟩, errors⟩

/-- The outcome of `analyze`: the returned tree, the error sink afterwards, and
the number of tokens the run has passed (none when no iterator was made). -/
structure Analysis where
  tree : Node
  errors : List String
  consumed : Nat

/-- The function `Parser::analyze` (lines 7-21). -/
def analyze (kw : KeywordCodes) (tables : Tables) (errors : List String) : Option Analysis :=
  if !errors.isEmpty then some ⟨freshTree, errors, 0⟩
  else
    match signalProgram kw ⟨[], tables⟩ (initialState tables errors) with
    | some (_, st) => some ⟨st.tree, st.errors, st.tokens.index⟩
    | none => none

/-- The two mismatch tests of `leaf` (the conditions of lines 236 and 262). -/
def Mismatch (tables : Tables) (token : Token) (code : Int) (range : Range) : Prop :=
  (range ≠ .zero ∧ (tokenRangeOf tables token ≠ range ∨ token.code ≠ code)) ∨
  (code ≠ -1 ∧ token.code ≠ code)

instance (tables : Tables) (token : Token) (code : Int) (range : Range) :
    Decidable (Mismatch tables token code range) := by
  unfold Mismatch; infer_instance

/-! ## Sample data for the concrete runs -/

/-- A sample table: the keywords of `lab1/main.cpp` (codes 301-305), constants
from 501 and identifiers from 1001; every other code is unknown to it. -/
def demoTables (tokens : List Token) : Tables where
  getRange := fun c =>
    if 301 ≤ c ∧ c ≤ 305 then some .keywordsBegin
    else if 501 ≤ c ∧ c ≤ 1000 then some .constantsBegin
    else if 1001 ≤ c then some .identifiersBegin
    else none
  name := fun c =>
    if c = 301 then "PROGRAM" else if c = 302 then "PROCEDURE" else if c = 303 then "BEGIN"
    else if c = 304 then "END" else if c = 305 then "LABEL" else ""
  tokens := tokens

/-- The keyword `PROGRAM` at line 1, column 1. -/
def tokPROGRAM : Token := ⟨301, "PROGRAM", 1, 1⟩
/-- The keyword `PROCEDURE` at line 1, column 1. -/
def tokPROCEDURE : Token := ⟨302, "PROCEDURE", 1, 1⟩
/-- The identifier `x` at line 1, column 9. -/
def tokX : Token := ⟨1001, "x", 1, 9⟩
/-- The character `;` at line 1, column 10. -/
def tokSemi : Token := ⟨59, ";", 1, 10⟩
/-- The keyword `LABEL` at line 2, column 1. -/
def tokLABEL : Token := ⟨305, "LABEL", 2, 1⟩
/-- The constant `10` at line 2, column 7. -/
def tok10 : Token := ⟨501, "10", 2, 7⟩
/-- The character `,` at line 2, column 9. -/
def tokComma : Token := ⟨44, ",", 2, 9⟩
/-- The constant `20` at line 2, column 11. -/
def tok20 : Token := ⟨502, "20", 2, 11⟩
/-- The character `;` at line 2, column 13. -/
def tokSemi2 : Token := ⟨59, ";", 2, 13⟩
/-- The keyword `BEGIN` at line 3, column 1. -/
def tokBEGIN : Token := ⟨303, "BEGIN", 3, 1⟩
/-- The keyword `END` at line 3, column 7. -/
def tokEND : Token := ⟨304, "END", 3, 7⟩
/-- The character `.` at line 3, column 10. -/
def tokDot : Token := ⟨46, ".", 3, 10⟩

/-- The state `st`, whose tree is seen as the subtree at path `p` of `T`, put
back into `T`. -/
def graftState (T : Node) (p : List Nat) (st : ParseState) : ParseState :=
  { st with tree := T.modifyAt (fun _ => st.tree) p }

/-- The outcome of a production run on a subtree, put back into the whole tree. -/
def graftResult (T : Node) (p : List Nat) (r : Option (Bool × ParseState)) :
    Option (Bool × ParseState) :=
  r.map fun x => (x.1, graftState T p x.2)

/-- The tree the parser builds for `PROGRAM x ; BEGIN END .`. -/
def programTree (kw : KeywordCodes) (x : Token) : Node :=
  .mk (.tag .SignalProgram) [
    .mk (.tag .Program) [
      .mk (.code kw.PROGRAM_CODE) [],
      .mk (.tag .ProcedureIdentifier) [.mk (.tag .Identifier) [.mk (.code x.code) []]],
      .mk (.code 59) [],
      .mk (.tag .Block) [
        .mk (.tag .Declarations) [.mk (.tag .LabelDeclarations) [.mk (.tag .Empty) []]],
        .mk (.code kw.BEGIN_CODE) [],
        .mk (.tag .StatementsList) [.mk (.tag .Empty) []],
        .mk (.code kw.END_CODE) []],
      .mk (.code 46) []]]

/-- The tree of `PROGRAM x ; BEGIN END .` as the scenario of the specification
draws it, with `decls` for the children of `Declarations`, which it leaves open. -/
def scenarioTree (kw : KeywordCodes) (x : Token) (decls : List Node) : Node :=
  .mk (.tag .SignalProgram) [
    .mk (.tag .Program) [
      .mk (.tag .ProcedureIdentifier) [.mk (.tag .Identifier) [.mk (.code x.code) []]],
      .mk (.code 59) [],
      .mk (.tag .Block) [
        .mk (.tag .Declarations) decls,
        .mk (.code kw.BEGIN_CODE) [],
        .mk (.tag .StatementsList) [.mk (.tag .Empty) []],
        .mk (.code kw.END_CODE) []],
      .mk (.code 46) []]]

/-- The `LabelDeclarations` node the parser builds for `LABEL c1 , c2 ;`. -/
def labelDeclarationsNode (kw : KeywordCodes) (c1 c2 : Token) : Node :=
  .mk (.tag .LabelDeclarations) [
    .mk (.code kw.LABEL_CODE) [],
    .mk (.tag .UnsignedInteger) [.mk (.code c1.code) []],
    .mk (.tag .LabelsList) [
      .mk (.code 44) [],
      .mk (.tag .UnsignedInteger) [.mk (.code c2.code) []],
      .mk (.tag .LabelsList) [.mk (.tag .Empty) []]],
    .mk (.code 59) []]

/-- The `LabelDeclarations` node of `LABEL c1 , c2 ;` as the scenario of the
specification draws it. -/
def scenarioLabelDeclarations (c1 c2 : Token) : Node :=
  .mk (.tag .LabelDeclarations) [
    .mk (.tag .UnsignedInteger) [.mk (.code c1.code) []],
    .mk (.tag .LabelsList) [
      .mk (.tag .UnsignedInteger) [.mk (.code c2.code) []],
      .mk (.tag .LabelsList) [.mk (.tag .Empty) []]],
    .mk (.code 59) []]

/-- The sink and the cursor after a failure of a run that started with the sink
`errors`: one mismatch diagnostic about the token under the cursor, or, at the
end of the stream, one or two EOF diagnostics. -/
def Failed (errors : List String) (st : ParseState) : Prop :=
  (∃ t rest expected, st.tokens.rest = t :: rest ∧
    st.errors = errors ++ [mismatchDiagnostic t expected]) ∨
  (st.tokens.rest = [] ∧
    (st.errors = errors ++ [eofDiagnostic] ∨
     st.errors = errors ++ [eofDiagnostic, eofDiagnostic]))

/-- The sink after a step that did not fail: untouched, or, when a `leaf` that
was not required met the end of the stream, longer by one EOF diagnostic. -/
def Passed (errors : List String) (st : ParseState) : Prop :=
  st.errors = errors ∨ (st.tokens.rest = [] ∧ st.errors = errors ++ [eofDiagnostic])

/-- Outcome `r` of a run started with the sink `errors`: success leaves the
sink untouched, failure is as in `Failed`. -/
def EndsClean (errors : List String) (r : Option (Bool × ParseState)) : Prop :=
  ∀ ok st, r = some (ok, st) →
    (ok = true → st.errors = errors) ∧ (ok = false → Failed errors st)

/-- Outcome `r` of a run started with the sink `errors`: success is as in
`Passed`, failure is as in `Failed`. -/
def EndsPassed (errors : List String) (r : Option (Bool × ParseState)) : Prop :=
  ∀ ok st, r = some (ok, st) →
    (ok = true → Passed errors st) ∧ (ok = false → Failed errors st)

/-! ## The grammar, as the specification words it -/

/-- A keyword token: the table puts it in the keyword range and its code is `code`. -/
def IsKeyword (tables : Tables) (code : Int) (t : Token) : Prop :=
  tokenRangeOf tables t = .keywordsBegin ∧ t.code = code

/-- An identifier-range token. -/
def IsIdentifier (tables : Tables) (t : Token) : Prop :=
  tokenRangeOf tables t = .identifiersBegin

/-- A constant-range token. -/
def IsConstant (tables : Tables) (t : Token) : Prop :=
  tokenRangeOf tables t = .constantsBegin

/-- Zero or more times: `,` followed by a constant-range token. -/
def LabelsTail (tables : Tables) : List Token → Prop
  | [] => True
  | [_] => False
  | c :: n :: w => c.code = 44 ∧ IsConstant tables n ∧ LabelsTail tables w

/-- The label part of a block: keyword `LABEL`, a constant-range token, zero or
more (`,` constant-range token), `;`. -/
def LabelPart (kw : KeywordCodes) (tables : Tables) (w : List Token) : Prop :=
  ∃ l c tail s, w = l :: c :: (tail ++ [s]) ∧ IsKeyword tables kw.LABEL_CODE l ∧
    IsConstant tables c ∧ LabelsTail tables tail ∧ s.code = 59

/-- Block: optionally the label part, then keyword `BEGIN`, keyword `END`. -/
def BlockSentence (kw : KeywordCodes) (tables : Tables) (w : List Token) : Prop :=
  ∃ decl b e, w = decl ++ [b, e] ∧ (decl = [] ∨ LabelPart kw tables decl) ∧
    IsKeyword tables kw.BEGIN_CODE b ∧ IsKeyword tables kw.END_CODE e

/-- The optional parameter part of a procedure: nothing, or `(` `)`. -/
def ParametersPart (w : List Token) : Prop :=
  w = [] ∨ ∃ o c, w = [o, c] ∧ o.code = 40 ∧ c.code = 41

/-- A sentence of the grammar: keyword `PROGRAM`, identifier-range token, `;`,
Block, `.`; or keyword `PROCEDURE`, identifier-range token, optionally `(` `)`,
`;`, Block, `;`. -/
def Sentence (kw : KeywordCodes) (tables : Tables) (w : List Token) : Prop :=
  (∃ p x s blk d, w = p :: x :: s :: (blk ++ [d]) ∧ IsKeyword tables kw.PROGRAM_CODE p ∧
    IsIdentifier tables x ∧ s.code = 59 ∧ BlockSentence kw tables blk ∧ d.code = 46) ∨
  (∃ p x par s blk s2, w = p :: x :: (par ++ s :: (blk ++ [s2])) ∧
    IsKeyword tables kw.PROCEDURE_CODE p ∧ IsIdentifier tables x ∧ ParametersPart par ∧
    s.code = 59 ∧ BlockSentence kw tables blk ∧ s2.code = 59)

/-- What a run may do to the cursor and the sink: the cursor passes a list
`consumed` of tokens and the sink grows by a list `more` of diagnostics. -/
def Steps (st st' : ParseState) : Prop :=
  ∃ consumed more, st.tokens.rest = consumed ++ st'.tokens.rest ∧
    st'.tokens.index = st.tokens.index + consumed.length ∧
    st'.errors = st.errors ++ more

/-- Every outcome of `r` is reached from `st` as in `Steps`. -/
def Advances (st : ParseState) (r : Option (Bool × ParseState)) : Prop :=
  ∀ ok st', r = some (ok, st') → Steps st st'

/-- What makes a node the node it is, apart from what hangs below it: its label
and the number of its children. -/
def Node.shape (n : Node) : Label × Nat :=
  (n.label, n.children.length)

mutual
/-- The codes of the terminal nodes at and below a node, in depth-first order
from left to right; nodes labelled with a tag (among them the placeholders
`Empty`) carry no code. -/
def Node.terminals : Node → List Int
  | .mk l cs =>
    (match l with
      | .code c => [c]
      | .tag _ => []) ++ terminalsOfList cs
/-- The codes of the terminal nodes of a list of trees, from left to right. -/
def terminalsOfList : List Node → List Int
  | [] => []
  | n :: ns => n.terminals ++ terminalsOfList ns
end

/-- The node at path `p` has got the new last children `new`, nothing else in
the tree has changed, and the cursor has passed the tokens `consumed`. -/
def GrownBy (p : List Nat) (new : List Node) (consumed : List Token)
    (st st' : ParseState) : Prop :=
  ∃ n, st.tree.nodeAt p = some n ∧
    st'.tree = st.tree.modifyAt (fun _ => .mk n.label (n.children ++ new)) p ∧
    st.tokens.rest = consumed ++ st'.tokens.rest ∧
    st'.tokens.index = st.tokens.index + consumed.length

/-- The node at `p` has got new last children whose terminals are, in order,
the codes of the tokens passed. -/
def Grown (p : List Nat) (st st' : ParseState) : Prop :=
  ∃ new consumed, GrownBy p new consumed st st' ∧
    terminalsOfList new = consumed.map Token.code

/-- The node at `p` has got one new last child, labelled with the tag `t`, whose
terminals are, in order, the codes of the tokens passed. -/
def GrownNode (p : List Nat) (t : Tags) (st st' : ParseState) : Prop :=
  ∃ cs consumed, GrownBy p [.mk (.tag t) cs] consumed st st' ∧
    terminalsOfList cs = consumed.map Token.code

/-- Every outcome of `r`, run with the builder at a node of the tree (path `p`),
is as in `Grown`. -/
def Grows (p : List Nat) (st : ParseState) (r : Option (Bool × ParseState)) : Prop :=
  (st.tree.nodeAt p).isSome = true → ∀ ok st', r = some (ok, st') → Grown p st st'

/-- Every outcome of `r`, run with the builder at a node of the tree (path `p`),
is as in `GrownNode`. -/
def GrowsNode (p : List Nat) (t : Tags) (st : ParseState)
    (r : Option (Bool × ParseState)) : Prop :=
  (st.tree.nodeAt p).isSome = true → ∀ ok st', r = some (ok, st') → GrownNode p t st st'

/-- The state `st` over a token sequence that goes on with the tokens `s`. -/
def extend (s : List Token) (st : ParseState) : ParseState :=
  { st with tokens := ⟨st.tokens.index, st.tokens.rest ++ s⟩ }

/-- An outcome of `r` that has left the sink `errors` untouched is also the
outcome of `r'`, over the token sequence that goes on with `s`. -/
def Extends (s : List Token) (errors : List String) (r r' : Option (Bool × ParseState)) :
    Prop :=
  ∀ ok st', r = some (ok, st') → st'.errors = errors → r' = some (ok, extend s st')

/-- Two builders at the same node whose tables classify and name the codes
alike. -/
def SameTables (b b' : Builder) : Prop :=
  b.node = b'.node ∧ b.tables.getRange = b'.tables.getRange ∧ b.tables.name = b'.tables.name

/-! ## The primitive `leaf` -/

theorem leaf_at_end (builder : Builder) (st : ParseState) (code : Int) (range : Range)
    (required : Bool) (h : st.tokens.rest = []) :
    leaf builder st code range required
      = (false, { st with errors := st.errors ++ [eofDiagnostic] }) := by
  simp [leaf, h]

theorem leaf_match (builder : Builder) (st : ParseState) (code : Int) (range : Range)
    (required : Bool) (token : Token) (rest : List Token) (h : st.tokens.rest = token :: rest)
    (hm : ¬ Mismatch builder.tables token code range) :
    leaf builder st code range required
      = (true, { st with
          tree := (addChild st.tree builder.node (.code token.code)).1
          tokens := ⟨st.tokens.index + 1, rest⟩ }) := by
  unfold Mismatch at hm
  simp only [not_or] at hm
  simp only [leaf, h]
  rw [if_neg hm.1, if_neg hm.2]

theorem leaf_mismatch_optional (builder : Builder) (st : ParseState) (code : Int) (range : Range)
    (token : Token) (rest : List Token) (h : st.tokens.rest = token :: rest)
    (hm : Mismatch builder.tables token code range) :
    leaf builder st code range false = (false, st) := by
  simp only [leaf, h]
  by_cases h1 : range ≠ .zero ∧
      (tokenRangeOf builder.tables token ≠ range ∨ token.code ≠ code)
  · rw [if_pos h1]; rfl
  · rw [if_neg h1]
    have h2 : code ≠ -1 ∧ token.code ≠ code := hm.resolve_left h1
    rw [if_pos h2]; rfl

theorem leaf_mismatch_required (builder : Builder) (st : ParseState) (code : Int) (range : Range)
    (token : Token) (rest : List Token) (h : st.tokens.rest = token :: rest)
    (hm : Mismatch builder.tables token code range) :
    leaf builder st code range true = (false, { st with errors := st.errors ++
      [mismatchDiagnostic token (if range = .zero then quotedChar code
        else expectedBuff builder.tables code range (tokenRangeOf builder.tables token))] }) := by
  simp only [leaf, h]
  by_cases h1 : range ≠ .zero ∧
      (tokenRangeOf builder.tables token ≠ range ∨ token.code ≠ code)
  · rw [if_pos h1, if_neg h1.1]; rfl
  · rw [if_neg h1]
    have h2 : code ≠ -1 ∧ token.code ≠ code := hm.resolve_left h1
    have h3 : range = .zero := by
      by_contra hr
      rcases hm with hm | hm
      · exact h1 hm
      · apply h1
        exact ⟨hr, Or.inr hm.2⟩
    rw [if_pos h2, if_pos h3]; rfl

theorem mismatch_iff (tables : Tables) (token : Token) (code : Int) (range : Range) :
    ¬ Mismatch tables token code range ↔
      ((range ≠ .zero → tokenRangeOf tables token = range ∧ token.code = code) ∧
       (range = .zero → code = -1 ∨ token.code = code)) := by
  unfold Mismatch
  by_cases hr : range = .zero
  · subst hr
    simp only [ne_eq, not_true_eq_false, false_and, false_or, not_and, not_not,
      false_implies, true_and, forall_const]
    constructor
    · intro h
      by_cases hc : code = -1
      · exact Or.inl hc
      · exact Or.inr (h hc)
    · rintro (h | h) hc
      · exact absurd h hc
      · exact h
  · simp only [ne_eq, hr, not_false_eq_true, true_and, not_or, not_not, not_and,
      forall_const, false_implies, and_true]
    constructor
    · rintro ⟨h1, _⟩
      exact h1
    · rintro ⟨h1, h2⟩
      exact ⟨⟨h1, h2⟩, fun _ => h2⟩

/-! ## Claims about `analyze` with a sink that is not empty -/

/-- C2: when the error sink passed to `analyze` is not empty, the returned tree
is a root without children, the sink is exactly what it was, and no token has
been passed. -/
theorem analyze_nonempty_sink (kw : KeywordCodes) (tables : Tables) (errors : List String)
    (h : errors ≠ []) :
    ∃ a, analyze kw tables errors = some a ∧ a.tree.children = [] ∧ a.errors = errors ∧
      a.consumed = 0 := by
  refine ⟨⟨freshTree, errors, 0⟩, ?_, rfl, rfl, rfl⟩
  cases errors with
  | nil => exact absurd rfl h
  | cons e es => rfl

theorem analyze_nonempty_sink_witness :
    ∃ a, analyze lab1Codes (demoTables [tokPROGRAM, tokX]) ["lexer: bad character"] = some a ∧
      a.tree.children = [] ∧ a.errors = ["lexer: bad character"] ∧ a.consumed = 0 :=
  analyze_nonempty_sink lab1Codes (demoTables [tokPROGRAM, tokX]) ["lexer: bad character"]
    (by decide)

/-! ## Claims about `leaf` -/

/-- C7: `leaf` succeeds exactly when the stream is not at its end and the
current token meets the expectation: with a range constraint, the token's table
range is that range and its code is the expected code; without one, the
expected code is the wildcard -1 or it is the token's code. The required flag
plays no part. -/
theorem leaf_succeeds_iff (builder : Builder) (st : ParseState) (code : Int) (range : Range)
    (required : Bool) :
    (leaf builder st code range required).1 = true ↔
      ∃ token rest, st.tokens.rest = token :: rest ∧
        (range ≠ .zero → tokenRangeOf builder.tables token = range ∧ token.code = code) ∧
        (range = .zero → code = -1 ∨ token.code = code) := by
  cases hrest : st.tokens.rest with
  | nil =>
    rw [leaf_at_end builder st code range required hrest]
    simp
  | cons token rest =>
    by_cases hm : Mismatch builder.tables token code range
    · have hfalse : (leaf builder st code range required).1 = false := by
        cases required with
        | false => rw [leaf_mismatch_optional builder st code range token rest hrest hm]
        | true => rw [leaf_mismatch_required builder st code range token rest hrest hm]
      rw [hfalse]
      constructor
      · intro h; exact absurd h (by decide)
      · rintro ⟨t, r, ht, hc⟩
        have hmm := (mismatch_iff builder.tables token code range).mpr
          (by cases ht; exact hc)
        exact absurd hm hmm
    · rw [leaf_match builder st code range required token rest hrest hm]
      constructor
      · intro _
        exact ⟨token, rest, rfl, (mismatch_iff builder.tables token code range).mp hm⟩
      · intro _; rfl

/-- C8: a `leaf` that is not required, on a stream that is not at its end,
fails on a mismatching token without any effect: the error sink, the cursor and
the tree are what they were. -/
theorem leaf_optional_mismatch_unchanged (builder : Builder) (st : ParseState) (code : Int)
    (range : Range) (token : Token) (rest : List Token)
    (h : st.tokens.rest = token :: rest)
    (hm : Mismatch builder.tables token code range) :
    leaf builder st code range false = (false, st) :=
  leaf_mismatch_optional builder st code range token rest h hm

theorem leaf_optional_mismatch_unchanged_witness :
    leaf ⟨[], demoTables []⟩ ⟨freshTree, ⟨2, [tokSemi, tokBEGIN]⟩, []⟩ 305 .keywordsBegin false
      = (false, ⟨freshTree, ⟨2, [tokSemi, tokBEGIN]⟩, []⟩) :=
  leaf_optional_mismatch_unchanged ⟨[], demoTables []⟩
    ⟨freshTree, ⟨2, [tokSemi, tokBEGIN]⟩, []⟩ 305 .keywordsBegin tokSemi [tokBEGIN] rfl
    (by decide)

/-- C10, as the code has it: a required `leaf` that mismatches at a token
appends exactly one diagnostic, "Parser: Error (line: L, column: C): E expected
but 'N' found" with the terminal control sequences of lines 256-258, where L, C
and N are the line, the column and the name of the found token. With a range
constraint E is the word Keyword, Constant or Identifier of the expected range,
followed, when the found token has a table range, by a blank and the table name
of the expected code in single quotes; with only a raw code E is the character
`char(code)` in single quotes. -/
theorem leaf_required_mismatch_diagnostic (builder : Builder) (st : ParseState) (code : Int)
    (range : Range) (token : Token) (rest : List Token)
    (h : st.tokens.rest = token :: rest)
    (hm : Mismatch builder.tables token code range) :
    leaf builder st code range true = (false, ⟨st.tree, st.tokens, st.errors ++
      ["\x1b[1;37mParser:\x1b[0m \x1b[1;31mError (line: " ++ toString token.y
        ++ ", column: " ++ toString token.x ++ "):\x1b[0m "
        ++ (if range = .zero then
              "'" ++ String.singleton (Char.ofNat (code % 256).toNat) ++ "'"
            else if tokenRangeOf builder.tables token = .zero then rangeWord range
            else rangeWord range ++ " '" ++ builder.tables.name code ++ "'")
        ++ " expected but '" ++ token.name ++ "' found"]⟩) := by
  rw [leaf_mismatch_required builder st code range token rest h hm]
  by_cases hr : range = .zero
  · simp [hr, mismatchDiagnostic, quotedChar]
  · by_cases ht : tokenRangeOf builder.tables token = .zero
    · simp [hr, ht, mismatchDiagnostic, expectedBuff]
    · simp [hr, ht, mismatchDiagnostic, expectedBuff]

theorem leaf_required_mismatch_diagnostic_witness :
    leaf ⟨[], demoTables []⟩ ⟨freshTree, ⟨3, [tokEND]⟩, []⟩ 303 .keywordsBegin true
      = (false, ⟨freshTree, ⟨3, [tokEND]⟩, [] ++
      ["\x1b[1;37mParser:\x1b[0m \x1b[1;31mError (line: " ++ toString tokEND.y
        ++ ", column: " ++ toString tokEND.x ++ "):\x1b[0m "
        ++ (if Range.keywordsBegin = .zero then
              "'" ++ String.singleton (Char.ofNat ((303 : Int) % 256).toNat) ++ "'"
            else if tokenRangeOf (demoTables []) tokEND = .zero then
              rangeWord .keywordsBegin
            else rangeWord .keywordsBegin ++ " '" ++ (demoTables []).name 303 ++ "'")
        ++ " expected but '" ++ tokEND.name ++ "' found"]⟩) :=
  leaf_required_mismatch_diagnostic ⟨[], demoTables []⟩ ⟨freshTree, ⟨3, [tokEND]⟩, []⟩ 303
    .keywordsBegin tokEND [] rfl (by decide)

set_option maxRecDepth 100000 in
/-- C10, as stated, fails: where the keyword `BEGIN` is required and the keyword
`END` is found, the diagnostic reads "Keyword 'BEGIN' expected but 'END'
found"; the words "Keyword expected but" do not occur in it. -/
theorem leaf_keyword_diagnostic_names_expected :
    (leaf ⟨[], demoTables []⟩ ⟨freshTree, ⟨3, [tokEND]⟩, []⟩ 303 .keywordsBegin true).2.errors
      = ["\x1b[1;37mParser:\x1b[0m \x1b[1;31mError (line: 3, column: 7):\x1b[0m Keyword 'BEGIN' expected but 'END' found"]
    ∧ (leaf ⟨[], demoTables []⟩ ⟨freshTree, ⟨3, [tokEND]⟩, []⟩ 303 .keywordsBegin true).2.errors
      ≠ ["\x1b[1;37mParser:\x1b[0m \x1b[1;31mError (line: 3, column: 7):\x1b[0m Keyword expected but 'END' found"]
    ∧ ∀ d ∈ (leaf ⟨[], demoTables []⟩ ⟨freshTree, ⟨3, [tokEND]⟩, []⟩ 303 .keywordsBegin
        true).2.errors, ¬ "Keyword expected but".toList <:+: d.toList := by
  decide

theorem leaf_nil (builder : Builder) (tree : Node) (i : Nat) (errors : List String) (code : Int)
    (range : Range) (required : Bool) :
    leaf builder ⟨tree, ⟨i, []⟩, errors⟩ code range required
      = (false, ⟨tree, ⟨i, []⟩, errors ++ [eofDiagnostic]⟩) :=
  leaf_at_end builder _ code range required rfl

theorem leaf_cons (builder : Builder) (tree : Node) (i : Nat) (token : Token)
    (rest : List Token) (errors : List String) (code : Int) (range : Range) (required : Bool) :
    leaf builder ⟨tree, ⟨i, token :: rest⟩, errors⟩ code range required
      = if Mismatch builder.tables token code range then
          (if required then
            (false, ⟨tree, ⟨i, token :: rest⟩, errors ++
              [mismatchDiagnostic token (if range = .zero then quotedChar code
                else expectedBuff builder.tables code range
                  (tokenRangeOf builder.tables token))]⟩)
          else (false, ⟨tree, ⟨i, token :: rest⟩, errors⟩))
        else
          (true, ⟨(addChild tree builder.node (.code token.code)).1, ⟨i + 1, rest⟩, errors⟩) := by
  by_cases hm : Mismatch builder.tables token code range
  · rw [if_pos hm]
    cases required with
    | false => exact leaf_mismatch_optional builder _ code range token rest rfl hm
    | true => exact leaf_mismatch_required builder _ code range token rest rfl hm
  · rw [if_neg hm]
    exact leaf_match builder _ code range required token rest rfl hm

theorem labelsListAux_fuel (n : Nat) :
    ∀ (f1 f2 : Nat) (builder : Builder) (st : ParseState),
      st.tokens.rest.length ≤ n → st.tokens.rest.length < f1 → st.tokens.rest.length < f2 →
      labelsListAux f1 builder st = labelsListAux f2 builder st := by
  induction n using Nat.strong_induction_on with
  | _ n ih =>
    intro f1 f2 builder st hn h1 h2
    obtain ⟨tree, ⟨i, rest⟩, errors⟩ := st
    cases f1 with
    | zero => exact absurd h1 (Nat.not_lt_zero _)
    | succ f1 =>
      cases f2 with
      | zero => exact absurd h2 (Nat.not_lt_zero _)
      | succ f2 =>
        cases rest with
        | nil => simp [labelsListAux, descend, leaf_nil]
        | cons t rest =>
          simp only [labelsListAux, descend, leaf_cons]
          by_cases hm : Mismatch builder.tables t 44 .zero
          · simp [hm]
          · simp only [hm, if_false]
            cases rest with
            | nil => simp [unsignedInteger, descend, andThen]
            | cons t2 rest =>
              simp only [unsignedInteger, descend, leaf_cons]
              by_cases hm2 : Mismatch builder.tables t2 t2.code .constantsBegin
              · simp [hm2, andThen]
              · simp only [hm2, if_false, andThen]
                simp only [List.length_cons] at hn h1 h2
                rw [ih (n - 2) (by omega) f1 f2 _ _ (by simp; omega) (by simp; omega)
                  (by simp; omega)]

/-- The body of `Parser::labelsList` (lines 191-209): the definition by fuel
satisfies the recursion equation of the source. -/
theorem labelsList_unfold (builder : Builder) (st : ParseState) :
    labelsList builder st =
      (let d := descend builder st .LabelsList
       match leaf d.1 d.2 44 .zero false with
       | (false, st) => some (true, addEmpty d.1 st)
       | (true, st) =>
         andThen (unsignedInteger d.1 st) fun st =>
         andThen (labelsList d.1 st) fun st =>
         some (true, st)) := by
  obtain ⟨tree, ⟨i, rest⟩, errors⟩ := st
  rw [labelsList, labelsListAux]
  cases rest with
  | nil => simp [descend, leaf_nil]
  | cons t rest =>
    simp only [descend, leaf_cons]
    by_cases hm : Mismatch builder.tables t 44 .zero
    · simp [hm]
    · simp only [hm, if_false]
      cases rest with
      | nil => simp [unsignedInteger, descend, andThen]
      | cons t2 rest =>
        simp only [unsignedInteger, descend, leaf_cons]
        by_cases hm2 : Mismatch builder.tables t2 t2.code .constantsBegin
        · simp [hm2, andThen]
        · simp only [hm2, if_false, andThen, labelsList]
          rw [labelsListAux_fuel rest.length _ (rest.length + 1) _ _ (by simp)
            (by simp only [List.length_cons]; omega) (by simp)]

theorem set_same {α : Type} : ∀ (cs : List α) (i : Nat) (c : α), cs[i]? = some c → cs.set i c = cs := by
  intro cs
  induction cs with
  | nil => intro i c h; simp at h
  | cons a cs ih =>
    intro i c h
    cases i with
    | zero =>
      simp only [List.getElem?_cons_zero, Option.some.injEq] at h
      simp [h]
    | succ i =>
      simp only [List.getElem?_cons_succ] at h
      simp [List.set, ih i c h]

theorem nodeAt_append_modifyAt (f : Node → Node) (q : List Nat) :
    ∀ (p : List Nat) (T n : Node), T.nodeAt p = some n →
      (T.modifyAt f p).nodeAt (p ++ q) = (f n).nodeAt q := by
  intro p
  induction p with
  | nil =>
    intro T n h
    simp only [Node.nodeAt, Option.some.injEq] at h
    simp [Node.modifyAt, h]
  | cons i p ih =>
    intro T n h
    obtain ⟨l, cs⟩ := T
    simp only [Node.nodeAt] at h
    cases hc : cs[i]? with
    | none => simp [hc] at h
    | some c =>
      simp only [hc] at h
      have hi : i < cs.length := by
        by_contra hlt
        rw [List.getElem?_eq_none (by omega)] at hc
        exact absurd hc (by simp)
      simp only [Node.modifyAt, hc, List.cons_append, Node.nodeAt]
      rw [List.getElem?_set_self hi]
      exact ih c n h

theorem modifyAt_append_modifyAt (g : Node → Node) (q : List Nat) (N : Node) :
    ∀ (p : List Nat) (T : Node),
      (T.modifyAt (fun _ => N) p).modifyAt g (p ++ q) = T.modifyAt (fun _ => N.modifyAt g q) p := by
  intro p
  induction p with
  | nil => intro T; simp [Node.modifyAt]
  | cons i p ih =>
    intro T
    obtain ⟨l, cs⟩ := T
    cases hc : cs[i]? with
    | none => simp [Node.modifyAt, hc]
    | some c =>
      have hi : i < cs.length := by
        by_contra hlt
        rw [List.getElem?_eq_none (by omega)] at hc
        exact absurd hc (by simp)
      simp only [Node.modifyAt, hc, List.cons_append]
      rw [List.getElem?_set_self hi]
      simp only [List.set_set, ih]

theorem modifyAt_congr_at (f : Node → Node) :
    ∀ (p : List Nat) (T n : Node), T.nodeAt p = some n →
      T.modifyAt f p = T.modifyAt (fun _ => f n) p := by
  intro p
  induction p with
  | nil =>
    intro T n h
    simp only [Node.nodeAt, Option.some.injEq] at h
    simp [Node.modifyAt, h]
  | cons i p ih =>
    intro T n h
    obtain ⟨l, cs⟩ := T
    simp only [Node.nodeAt] at h
    cases hc : cs[i]? with
    | none => simp [hc] at h
    | some c =>
      simp only [hc] at h
      simp only [Node.modifyAt, hc]
      rw [ih c n h]

theorem modifyAt_self :
    ∀ (p : List Nat) (T n : Node), T.nodeAt p = some n → T.modifyAt (fun _ => n) p = T := by
  intro p
  induction p with
  | nil =>
    intro T n h
    simp only [Node.nodeAt, Option.some.injEq] at h
    simp [Node.modifyAt, h]
  | cons i p ih =>
    intro T n h
    obtain ⟨l, cs⟩ := T
    simp only [Node.nodeAt] at h
    cases hc : cs[i]? with
    | none => simp [hc] at h
    | some c =>
      simp only [hc] at h
      simp only [Node.modifyAt, hc]
      rw [ih c n h]
      congr 1
      exact set_same cs i c hc

theorem addChild_graft (T N : Node) (p q : List Nat) (l : Label)
    (h : (T.nodeAt p).isSome = true) :
    addChild (T.modifyAt (fun _ => N) p) (p ++ q) l
      = (T.modifyAt (fun _ => (addChild N q l).1) p, p ++ (addChild N q l).2) := by
  obtain ⟨n, hn⟩ := Option.isSome_iff_exists.mp h
  unfold addChild
  rw [nodeAt_append_modifyAt (fun _ => N) q p T n hn]
  cases hq : N.nodeAt q with
  | none => rfl
  | some m =>
    simp only [modifyAt_append_modifyAt, List.append_assoc]

theorem descend_tables (builder : Builder) (st : ParseState) (t : Tags) :
    (descend builder st t).1.tables = builder.tables := rfl

theorem descend_tokens (builder : Builder) (st : ParseState) (t : Tags) :
    (descend builder st t).2.tokens = st.tokens := rfl

theorem descend_errors (builder : Builder) (st : ParseState) (t : Tags) :
    (descend builder st t).2.errors = st.errors := rfl

theorem descend_graft_node (T : Node) (p : List Nat) (b b' : Builder) (st : ParseState) (t : Tags)
    (hb : b.node = p ++ b'.node) (h : (T.nodeAt p).isSome = true) :
    (descend b (graftState T p st) t).1.node = p ++ (descend b' st t).1.node := by
  simp [descend, graftState, hb, addChild_graft, h]

theorem descend_graft_state (T : Node) (p : List Nat) (b b' : Builder) (st : ParseState) (t : Tags)
    (hb : b.node = p ++ b'.node) (h : (T.nodeAt p).isSome = true) :
    (descend b (graftState T p st) t).2 = graftState T p (descend b' st t).2 := by
  simp [descend, graftState, hb, addChild_graft, h]

theorem addEmpty_graft (T : Node) (p : List Nat) (b b' : Builder) (st : ParseState)
    (hb : b.node = p ++ b'.node) (h : (T.nodeAt p).isSome = true) :
    addEmpty b (graftState T p st) = graftState T p (addEmpty b' st) := by
  simp [addEmpty, graftState, hb, addChild_graft, h]

theorem leaf_graft (T : Node) (p : List Nat) (b b' : Builder) (st : ParseState) (code : Int)
    (range : Range) (required : Bool) (hb : b.node = p ++ b'.node) (ht : b.tables = b'.tables)
    (h : (T.nodeAt p).isSome = true) :
    leaf b (graftState T p st) code range required
      = ((leaf b' st code range required).1,
         graftState T p (leaf b' st code range required).2) := by
  obtain ⟨tree, ⟨i, rest⟩, errors⟩ := st
  cases rest with
  | nil => simp [graftState, leaf_nil]
  | cons t rest =>
    simp only [graftState, leaf_cons, ht]
    by_cases hm : Mismatch b'.tables t code range
    · cases required <;> simp [hm]
    · simp [hm, hb, addChild_graft, h]

theorem some_leaf_graft (T : Node) (p : List Nat) (b b' : Builder) (st : ParseState) (code : Int)
    (range : Range) (required : Bool) (hb : b.node = p ++ b'.node) (ht : b.tables = b'.tables)
    (h : (T.nodeAt p).isSome = true) :
    some (leaf b (graftState T p st) code range required)
      = graftResult T p (some (leaf b' st code range required)) := by
  rw [leaf_graft T p b b' st code range required hb ht h]; rfl

theorem andThen_graft (T : Node) (p : List Nat) (r r2 : Option (Bool × ParseState))
    (k k2 : ParseState → Option (Bool × ParseState))
    (hr : r2 = graftResult T p r)
    (hk : ∀ st, k2 (graftState T p st) = graftResult T p (k st)) :
    andThen r2 k2 = graftResult T p (andThen r k) := by
  subst hr
  cases r with
  | none => rfl
  | some x =>
    obtain ⟨ok, st⟩ := x
    cases ok with
    | false => rfl
    | true => simp [graftResult, andThen, hk st]

theorem identidier_graft (T : Node) (p : List Nat) (b b' : Builder) (st : ParseState)
    (hb : b.node = p ++ b'.node) (ht : b.tables = b'.tables) (h : (T.nodeAt p).isSome = true) :
    identidier b (graftState T p st) = graftResult T p (identidier b' st) := by
  unfold identidier
  simp only [descend_graft_state T p b b' st _ hb h]
  have hn := descend_graft_node T p b b' st .Identifier hb h
  cases hrest : st.tokens.rest with
  | nil => simp [graftState, descend_tokens, hrest, graftResult]
  | cons t rest =>
    simp only [graftState, descend_tokens, hrest]
    exact some_leaf_graft T p _ _ _ _ _ _ hn ht h

theorem unsignedInteger_graft (T : Node) (p : List Nat) (b b' : Builder) (st : ParseState)
    (hb : b.node = p ++ b'.node) (ht : b.tables = b'.tables) (h : (T.nodeAt p).isSome = true) :
    unsignedInteger b (graftState T p st) = graftResult T p (unsignedInteger b' st) := by
  unfold unsignedInteger
  simp only [descend_graft_state T p b b' st _ hb h]
  have hn := descend_graft_node T p b b' st .UnsignedInteger hb h
  cases hrest : st.tokens.rest with
  | nil => simp [graftState, descend_tokens, hrest, graftResult]
  | cons t rest =>
    simp only [graftState, descend_tokens, hrest]
    exact some_leaf_graft T p _ _ _ _ _ _ hn ht h

theorem procedureIdentifier_graft (T : Node) (p : List Nat) (b b' : Builder) (st : ParseState)
    (hb : b.node = p ++ b'.node) (ht : b.tables = b'.tables) (h : (T.nodeAt p).isSome = true) :
    procedureIdentifier b (graftState T p st) = graftResult T p (procedureIdentifier b' st) := by
  unfold procedureIdentifier
  simp only [descend_graft_state T p b b' st _ hb h]
  have hn := descend_graft_node T p b b' st .ProcedureIdentifier hb h
  exact andThen_graft T p _ _ _ _ (identidier_graft T p _ _ _ hn ht h) (fun _ => rfl)

theorem declarationsList_graft (T : Node) (p : List Nat) (b b' : Builder) (st : ParseState)
    (hb : b.node = p ++ b'.node) (h : (T.nodeAt p).isSome = true) :
    declarationsList b (graftState T p st) = graftResult T p (declarationsList b' st) := by
  unfold declarationsList
  simp only [descend_graft_state T p b b' st _ hb h]
  have hn := descend_graft_node T p b b' st .DeclarationsList hb h
  rw [addEmpty_graft T p _ _ _ hn h]; rfl

theorem statementsList_graft (T : Node) (p : List Nat) (b b' : Builder) (st : ParseState)
    (hb : b.node = p ++ b'.node) (h : (T.nodeAt p).isSome = true) :
    statementsList b (graftState T p st) = graftResult T p (statementsList b' st) := by
  unfold statementsList
  simp only [descend_graft_state T p b b' st _ hb h]
  have hn := descend_graft_node T p b b' st .StatementsList hb h
  rw [addEmpty_graft T p _ _ _ hn h]; rfl

theorem labelsListAux_graft (T : Node) (p : List Nat) (h : (T.nodeAt p).isSome = true) :
    ∀ (fuel : Nat) (b b' : Builder) (st : ParseState),
      b.node = p ++ b'.node → b.tables = b'.tables →
      labelsListAux fuel b (graftState T p st) = graftResult T p (labelsListAux fuel b' st) := by
  intro fuel
  induction fuel with
  | zero => intro b b' st _ _; rfl
  | succ fuel ih =>
    intro b b' st hb ht
    simp only [labelsListAux]
    simp only [descend_graft_state T p b b' st _ hb h]
    have hn := descend_graft_node T p b b' st .LabelsList hb h
    have ht2 : (descend b (graftState T p st) .LabelsList).1.tables
        = (descend b' st .LabelsList).1.tables := ht
    rw [leaf_graft T p _ _ _ _ _ _ hn ht2 h]
    rcases hl : leaf (descend b' st .LabelsList).1 (descend b' st .LabelsList).2 44 .zero false
      with ⟨ok, st1⟩
    cases ok with
    | false =>
      simp only []
      rw [addEmpty_graft T p _ _ _ hn h]; rfl
    | true =>
      simp only []
      refine andThen_graft T p _ _ _ _ (unsignedInteger_graft T p _ _ _ hn ht2 h) ?_
      intro st2
      exact andThen_graft T p _ _ _ _ (ih _ _ _ hn ht2) (fun _ => rfl)

theorem labelsList_graft (T : Node) (p : List Nat) (b b' : Builder) (st : ParseState)
    (hb : b.node = p ++ b'.node) (ht : b.tables = b'.tables) (h : (T.nodeAt p).isSome = true) :
    labelsList b (graftState T p st) = graftResult T p (labelsList b' st) :=
  labelsListAux_graft T p h _ b b' st hb ht

theorem labelDeclarations_graft (kw : KeywordCodes) (T : Node) (p : List Nat) (b b' : Builder)
    (st : ParseState) (hb : b.node = p ++ b'.node) (ht : b.tables = b'.tables)
    (h : (T.nodeAt p).isSome = true) :
    labelDeclarations kw b (graftState T p st) = graftResult T p (labelDeclarations kw b' st) := by
  unfold labelDeclarations
  simp only [descend_graft_state T p b b' st _ hb h]
  have hn := descend_graft_node T p b b' st .LabelDeclarations hb h
  have ht2 : (descend b (graftState T p st) .LabelDeclarations).1.tables
      = (descend b' st .LabelDeclarations).1.tables := ht
  rw [leaf_graft T p _ _ _ _ _ _ hn ht2 h]
  rcases hl : leaf (descend b' st .LabelDeclarations).1 (descend b' st .LabelDeclarations).2
    kw.LABEL_CODE .keywordsBegin false with ⟨ok, st1⟩
  cases ok with
  | false =>
    simp only []
    rw [addEmpty_graft T p _ _ _ hn h]; rfl
  | true =>
    simp only []
    refine andThen_graft T p _ _ _ _ (unsignedInteger_graft T p _ _ _ hn ht2 h) ?_
    intro st2
    refine andThen_graft T p _ _ _ _ (labelsList_graft T p _ _ _ hn ht2 h) ?_
    intro st3
    exact andThen_graft T p _ _ _ _ (some_leaf_graft T p _ _ _ _ _ _ hn ht2 h) (fun _ => rfl)

theorem declarations_graft (kw : KeywordCodes) (T : Node) (p : List Nat) (b b' : Builder)
    (st : ParseState) (hb : b.node = p ++ b'.node) (ht : b.tables = b'.tables)
    (h : (T.nodeAt p).isSome = true) :
    declarations kw b (graftState T p st) = graftResult T p (declarations kw b' st) := by
  unfold declarations
  simp only [descend_graft_state T p b b' st _ hb h]
  have hn := descend_graft_node T p b b' st .Declarations hb h
  exact andThen_graft T p _ _ _ _ (labelDeclarations_graft kw T p _ _ _ hn ht h) (fun _ => rfl)

theorem parametersList_graft (T : Node) (p : List Nat) (b b' : Builder)
    (st : ParseState) (hb : b.node = p ++ b'.node) (ht : b.tables = b'.tables)
    (h : (T.nodeAt p).isSome = true) :
    parametersList b (graftState T p st) = graftResult T p (parametersList b' st) := by
  unfold parametersList
  simp only [descend_graft_state T p b b' st _ hb h]
  have hn := descend_graft_node T p b b' st .ParametersList hb h
  have ht2 : (descend b (graftState T p st) .ParametersList).1.tables
      = (descend b' st .ParametersList).1.tables := ht
  rw [leaf_graft T p _ _ _ _ _ _ hn ht2 h]
  rcases hl : leaf (descend b' st .ParametersList).1 (descend b' st .ParametersList).2
    40 .zero false with ⟨ok, st1⟩
  cases ok with
  | false =>
    simp only []
    rw [addEmpty_graft T p _ _ _ hn h]; rfl
  | true =>
    simp only []
    refine andThen_graft T p _ _ _ _ (declarationsList_graft T p _ _ _ hn h) ?_
    intro st2
    exact andThen_graft T p _ _ _ _ (some_leaf_graft T p _ _ _ _ _ _ hn ht2 h) (fun _ => rfl)

theorem block_graft (kw : KeywordCodes) (T : Node) (p : List Nat) (b b' : Builder)
    (st : ParseState) (hb : b.node = p ++ b'.node) (ht : b.tables = b'.tables)
    (h : (T.nodeAt p).isSome = true) :
    block kw b (graftState T p st) = graftResult T p (block kw b' st) := by
  unfold block
  simp only [descend_graft_state T p b b' st _ hb h]
  have hn := descend_graft_node T p b b' st .Block hb h
  have ht2 : (descend b (graftState T p st) .Block).1.tables
      = (descend b' st .Block).1.tables := ht
  refine andThen_graft T p _ _ _ _ (declarations_graft kw T p _ _ _ hn ht2 h) ?_
  intro st1
  refine andThen_graft T p _ _ _ _ (some_leaf_graft T p _ _ _ _ _ _ hn ht2 h) ?_
  intro st2
  refine andThen_graft T p _ _ _ _ (statementsList_graft T p _ _ _ hn h) ?_
  intro st3
  exact andThen_graft T p _ _ _ _ (some_leaf_graft T p _ _ _ _ _ _ hn ht2 h) (fun _ => rfl)

theorem program_graft (kw : KeywordCodes) (T : Node) (p : List Nat) (b b' : Builder)
    (st : ParseState) (hb : b.node = p ++ b'.node) (ht : b.tables = b'.tables)
    (h : (T.nodeAt p).isSome = true) :
    program kw b (graftState T p st) = graftResult T p (program kw b' st) := by
  unfold program
  simp only [descend_graft_state T p b b' st _ hb h]
  have hn := descend_graft_node T p b b' st .Program hb h
  have ht2 : (descend b (graftState T p st) .Program).1.tables
      = (descend b' st .Program).1.tables := ht
  rw [leaf_graft T p _ _ _ _ _ _ hn ht2 h]
  rcases hl : leaf (descend b' st .Program).1 (descend b' st .Program).2
    kw.PROGRAM_CODE .keywordsBegin false with ⟨ok, st1⟩
  cases ok with
  | true =>
    simp only []
    refine andThen_graft T p _ _ _ _ (procedureIdentifier_graft T p _ _ _ hn ht2 h) ?_
    intro st2
    refine andThen_graft T p _ _ _ _ (some_leaf_graft T p _ _ _ _ _ _ hn ht2 h) ?_
    intro st3
    refine andThen_graft T p _ _ _ _ (block_graft kw T p _ _ _ hn ht2 h) ?_
    intro st4
    exact andThen_graft T p _ _ _ _ (some_leaf_graft T p _ _ _ _ _ _ hn ht2 h) (fun _ => rfl)
  | false =>
    simp only []
    rw [leaf_graft T p _ _ _ _ _ _ hn ht2 h]
    rcases hl2 : leaf (descend b' st .Program).1 st1 kw.PROCEDURE_CODE .keywordsBegin true
      with ⟨ok2, st2⟩
    cases ok2 with
    | false => rfl
    | true =>
      simp only []
      refine andThen_graft T p _ _ _ _ (procedureIdentifier_graft T p _ _ _ hn ht2 h) ?_
      intro st2
      refine andThen_graft T p _ _ _ _ (parametersList_graft T p _ _ _ hn ht2 h) ?_
      intro st3
      refine andThen_graft T p _ _ _ _ (some_leaf_graft T p _ _ _ _ _ _ hn ht2 h) ?_
      intro st4
      refine andThen_graft T p _ _ _ _ (block_graft kw T p _ _ _ hn ht2 h) ?_
      intro st5
      exact andThen_graft T p _ _ _ _ (some_leaf_graft T p _ _ _ _ _ _ hn ht2 h) (fun _ => rfl)

/-- Locality of a production run: with the builder at a node `n` of the tree
`T` (path `p`), the run is the run on `n` alone, put back into `T`. -/
theorem graftState_self (T n : Node) (p : List Nat) (tokens : TokenIterator)
    (errors : List String) (hn : T.nodeAt p = some n) :
    graftState T p ⟨n, tokens, errors⟩ = ⟨T, tokens, errors⟩ := by
  simp [graftState, modifyAt_self p T n hn]

theorem getElem?_concat_length' {α : Type} (cs : List α) (x : α) :
    (cs ++ [x])[cs.length]? = some x := by
  simp

theorem set_concat_length {α : Type} (cs : List α) (x y : α) :
    (cs ++ [x]).set cs.length y = cs ++ [y] := by
  induction cs with
  | nil => rfl
  | cons a cs ih => simp [List.set, ih]

theorem labelDeclarations_root (kw : KeywordCodes) (tables : Tables) (n : Node) (i : Nat)
    (errors : List String) (l c1 cm c2 s : Token) (rest : List Token)
    (hl : tokenRangeOf tables l = .keywordsBegin ∧ l.code = kw.LABEL_CODE)
    (hc1 : tokenRangeOf tables c1 = .constantsBegin)
    (hcm : cm.code = 44)
    (hc2 : tokenRangeOf tables c2 = .constantsBegin)
    (hs : s.code = 59) :
    labelDeclarations kw ⟨[], tables⟩ ⟨n, ⟨i, l :: c1 :: cm :: c2 :: s :: rest⟩, errors⟩
      = some (true, ⟨.mk n.label (n.children ++ [labelDeclarationsNode kw c1 c2]),
          ⟨i + 5, rest⟩, errors⟩) := by
  obtain ⟨lbl, cs⟩ := n
  obtain ⟨hl1, hl2⟩ := hl
  simp [labelDeclarations, descend, leaf_cons, Mismatch, hl1, hl2, andThen, unsignedInteger, hc1,
    addEmpty, addChild, Node.nodeAt, Node.modifyAt, Node.pushChild, Node.children, Node.label,
    set_concat_length]
  rw [labelsList_unfold]
  simp [descend, leaf_cons, Mismatch, andThen, unsignedInteger, hcm, hc2,
    addEmpty, addChild, Node.nodeAt, Node.modifyAt, Node.pushChild, Node.children, Node.label,
    set_concat_length]
  rw [labelsList_unfold]
  simp [descend, leaf_cons, Mismatch, andThen, hs,
    addEmpty, addChild, Node.nodeAt, Node.modifyAt, Node.pushChild, Node.children, Node.label,
    labelDeclarationsNode, set_concat_length]

theorem analyze_program_eq (kw : KeywordCodes) (tables : Tables) (p x s b e d : Token)
    (hkw : kw.LABEL_CODE ≠ kw.BEGIN_CODE)
    (htokens : tables.tokens = [p, x, s, b, e, d])
    (hp : tokenRangeOf tables p = .keywordsBegin ∧ p.code = kw.PROGRAM_CODE)
    (hx : tokenRangeOf tables x = .identifiersBegin)
    (hs : s.code = 59)
    (hb : tokenRangeOf tables b = .keywordsBegin ∧ b.code = kw.BEGIN_CODE)
    (he : tokenRangeOf tables e = .keywordsBegin ∧ e.code = kw.END_CODE)
    (hd : d.code = 46) :
    analyze kw tables [] = some ⟨programTree kw x, [], 6⟩ := by
  obtain ⟨hp1, hp2⟩ := hp
  obtain ⟨hb1, hb2⟩ := hb
  obtain ⟨he1, he2⟩ := he
  simp [analyze, signalProgram, program, initialState, htokens, descend, leaf_cons, Mismatch,
    hp1, hp2, andThen, procedureIdentifier, identidier, hx, hs, hb1, hb2, he1, he2, hd, block,
    declarations, labelDeclarations, statementsList, addEmpty, hkw, Ne.symm hkw, freshTree,
    addChild, Node.nodeAt, Node.modifyAt, Node.pushChild, Node.setLabel, Node.children,
    Node.label, programTree]

/-- C3, as the code has it: for the six tokens `PROGRAM x ; BEGIN END .` and
an empty sink, `analyze` leaves the sink empty, passes all six tokens and
returns SignalProgram -> Program, where the children of Program are the
terminal `PROGRAM`, ProcedureIdentifier -> Identifier -> terminal x, the
terminal `;`, Block and the terminal `.`, and the children of Block are
Declarations -> LabelDeclarations -> Empty, the terminal `BEGIN`,
StatementsList -> Empty and the terminal `END`. -/
theorem program_scenario_tree (kw : KeywordCodes) (tables : Tables) (p x s b e d : Token)
    (hkw : kw.LABEL_CODE ≠ kw.BEGIN_CODE)
    (htokens : tables.tokens = [p, x, s, b, e, d])
    (hp : tokenRangeOf tables p = .keywordsBegin ∧ p.code = kw.PROGRAM_CODE)
    (hx : tokenRangeOf tables x = .identifiersBegin)
    (hs : s.code = 59)
    (hb : tokenRangeOf tables b = .keywordsBegin ∧ b.code = kw.BEGIN_CODE)
    (he : tokenRangeOf tables e = .keywordsBegin ∧ e.code = kw.END_CODE)
    (hd : d.code = 46) :
    analyze kw tables [] = some ⟨
      .mk (.tag .SignalProgram) [
        .mk (.tag .Program) [
          .mk (.code kw.PROGRAM_CODE) [],
          .mk (.tag .ProcedureIdentifier) [.mk (.tag .Identifier) [.mk (.code x.code) []]],
          .mk (.code 59) [],
          .mk (.tag .Block) [
            .mk (.tag .Declarations) [.mk (.tag .LabelDeclarations) [.mk (.tag .Empty) []]],
            .mk (.code kw.BEGIN_CODE) [],
            .mk (.tag .StatementsList) [.mk (.tag .Empty) []],
            .mk (.code kw.END_CODE) []],
          .mk (.code 46) []]],
      [], 6⟩ :=
  analyze_program_eq kw tables p x s b e d hkw htokens hp hx hs hb he hd

theorem program_scenario_tree_witness :
    analyze lab1Codes (demoTables [tokPROGRAM, tokX, tokSemi, tokBEGIN, tokEND, tokDot]) []
      = some ⟨
      .mk (.tag .SignalProgram) [
        .mk (.tag .Program) [
          .mk (.code lab1Codes.PROGRAM_CODE) [],
          .mk (.tag .ProcedureIdentifier) [.mk (.tag .Identifier) [.mk (.code tokX.code) []]],
          .mk (.code 59) [],
          .mk (.tag .Block) [
            .mk (.tag .Declarations) [.mk (.tag .LabelDeclarations) [.mk (.tag .Empty) []]],
            .mk (.code lab1Codes.BEGIN_CODE) [],
            .mk (.tag .StatementsList) [.mk (.tag .Empty) []],
            .mk (.code lab1Codes.END_CODE) []],
          .mk (.code 46) []]],
      [], 6⟩ :=
  program_scenario_tree lab1Codes
    (demoTables [tokPROGRAM, tokX, tokSemi, tokBEGIN, tokEND, tokDot])
    tokPROGRAM tokX tokSemi tokBEGIN tokEND tokDot (by decide) rfl (by decide) (by decide)
    (by decide) (by decide) (by decide) (by decide)

/-- C3, as stated, fails: for `PROGRAM x ; BEGIN END .` the returned tree is not
the one whose Program node has exactly the four children ProcedureIdentifier,
`;`, Block, `.`, whatever stands below Declarations; the Program node has five
children and the first is the terminal `PROGRAM`. -/
theorem program_scenario_not_four_children :
    (¬ ∃ a decls,
      analyze lab1Codes (demoTables [tokPROGRAM, tokX, tokSemi, tokBEGIN, tokEND, tokDot]) []
        = some a ∧ a.tree = scenarioTree lab1Codes tokX decls) ∧
    ∃ a program, 
      analyze lab1Codes (demoTables [tokPROGRAM, tokX, tokSemi, tokBEGIN, tokEND, tokDot]) []
        = some a ∧ a.tree.nodeAt [0] = some program ∧ program.label = .tag .Program ∧
        program.children.length = 5 ∧ program.children.head? = some (.mk (.code 301) []) := by
  have h := analyze_program_eq lab1Codes
    (demoTables [tokPROGRAM, tokX, tokSemi, tokBEGIN, tokEND, tokDot])
    tokPROGRAM tokX tokSemi tokBEGIN tokEND tokDot (by decide) rfl (by decide) (by decide)
    (by decide) (by decide) (by decide) (by decide)
  constructor
  · rintro ⟨a, decls, ha, htree⟩
    rw [h] at ha
    cases ha
    simp [programTree, scenarioTree] at htree
  · exact ⟨_, _, h, rfl, rfl, rfl, rfl⟩

/-- C5, as the code has it: run on the tokens `LABEL c1 , c2 ;` with the
builder at a node `n` of the tree, `labelDeclarations` succeeds, passes the five
tokens, and gives `n` one new last child and changes nothing else: the node
LabelDeclarations whose children are the terminal `LABEL`, UnsignedInteger ->
terminal c1, LabelsList -> [terminal `,`, UnsignedInteger -> terminal c2,
LabelsList -> Empty] and the terminal `;`. -/
theorem labelDeclarations_scenario_node (kw : KeywordCodes) (tables : Tables) (path : List Nat)
    (tree n : Node) (i : Nat) (errors : List String) (l c1 cm c2 s : Token) (rest : List Token)
    (hn : tree.nodeAt path = some n)
    (hl : tokenRangeOf tables l = .keywordsBegin ∧ l.code = kw.LABEL_CODE)
    (hc1 : tokenRangeOf tables c1 = .constantsBegin)
    (hcm : cm.code = 44)
    (hc2 : tokenRangeOf tables c2 = .constantsBegin)
    (hs : s.code = 59) :
    ∃ st, labelDeclarations kw ⟨path, tables⟩
        ⟨tree, ⟨i, l :: c1 :: cm :: c2 :: s :: rest⟩, errors⟩ = some (true, st) ∧
      st.tokens = ⟨i + 5, rest⟩ ∧ st.errors = errors ∧
      st.tree = tree.modifyAt (fun _ => .mk n.label (n.children ++ [
        .mk (.tag .LabelDeclarations) [
          .mk (.code kw.LABEL_CODE) [],
          .mk (.tag .UnsignedInteger) [.mk (.code c1.code) []],
          .mk (.tag .LabelsList) [
            .mk (.code 44) [],
            .mk (.tag .UnsignedInteger) [.mk (.code c2.code) []],
            .mk (.tag .LabelsList) [.mk (.tag .Empty) []]],
          .mk (.code 59) []]])) path ∧
      st.tree.nodeAt (path ++ [n.children.length]) = some (
        .mk (.tag .LabelDeclarations) [
          .mk (.code kw.LABEL_CODE) [],
          .mk (.tag .UnsignedInteger) [.mk (.code c1.code) []],
          .mk (.tag .LabelsList) [
            .mk (.code 44) [],
            .mk (.tag .UnsignedInteger) [.mk (.code c2.code) []],
            .mk (.tag .LabelsList) [.mk (.tag .Empty) []]],
          .mk (.code 59) []]) := by
  have hsome : (tree.nodeAt path).isSome = true := by rw [hn]; rfl
  have hloc := labelDeclarations_graft kw tree path ⟨path, tables⟩ ⟨[], tables⟩
    ⟨n, ⟨i, l :: c1 :: cm :: c2 :: s :: rest⟩, errors⟩ (by simp) rfl hsome
  rw [graftState_self tree n path _ _ hn,
    labelDeclarations_root kw tables n i errors l c1 cm c2 s rest hl hc1 hcm hc2 hs] at hloc
  refine ⟨_, hloc, rfl, rfl, rfl, ?_⟩
  simp only [graftState]
  rw [nodeAt_append_modifyAt _ _ path tree n hn]
  simp [Node.nodeAt, labelDeclarationsNode]

theorem labelDeclarations_scenario_node_witness :
    ∃ st, labelDeclarations lab1Codes ⟨[], demoTables []⟩
        ⟨.mk (.tag .Declarations) [],
          ⟨3, tokLABEL :: tok10 :: tokComma :: tok20 :: tokSemi2 :: [tokBEGIN, tokEND]⟩, []⟩
        = some (true, st) ∧
      st.tokens = ⟨3 + 5, [tokBEGIN, tokEND]⟩ ∧ st.errors = [] ∧
      st.tree = (Node.mk (.tag .Declarations) []).modifyAt
        (fun _ => .mk (Node.mk (.tag .Declarations) []).label
          ((Node.mk (.tag .Declarations) []).children ++ [
        .mk (.tag .LabelDeclarations) [
          .mk (.code lab1Codes.LABEL_CODE) [],
          .mk (.tag .UnsignedInteger) [.mk (.code tok10.code) []],
          .mk (.tag .LabelsList) [
            .mk (.code 44) [],
            .mk (.tag .UnsignedInteger) [.mk (.code tok20.code) []],
            .mk (.tag .LabelsList) [.mk (.tag .Empty) []]],
          .mk (.code 59) []]])) [] ∧
      st.tree.nodeAt ([] ++ [(Node.mk (.tag .Declarations) []).children.length]) = some (
        .mk (.tag .LabelDeclarations) [
          .mk (.code lab1Codes.LABEL_CODE) [],
          .mk (.tag .UnsignedInteger) [.mk (.code tok10.code) []],
          .mk (.tag .LabelsList) [
            .mk (.code 44) [],
            .mk (.tag .UnsignedInteger) [.mk (.code tok20.code) []],
            .mk (.tag .LabelsList) [.mk (.tag .Empty) []]],
          .mk (.code 59) []]) :=
  labelDeclarations_scenario_node lab1Codes (demoTables []) [] (.mk (.tag .Declarations) [])
    (.mk (.tag .Declarations) []) 3 [] tokLABEL tok10 tokComma tok20 tokSemi2 [tokBEGIN, tokEND]
    rfl (by decide) (by decide) (by decide) (by decide) (by decide)

/-- C5, as stated, fails: for `LABEL 10 , 20 ; BEGIN END` the LabelDeclarations
node built is not the one with exactly the three children UnsignedInteger(10),
LabelsList -> [UnsignedInteger(20), LabelsList -> Empty], `;`: it has four
children, the first being the terminal `LABEL`, and its LabelsList child starts
with the terminal `,`. -/
theorem labelDeclarations_scenario_not_three_children :
    (¬ ∃ st, labelDeclarations lab1Codes ⟨[], demoTables []⟩
        ⟨.mk (.tag .Declarations) [],
          ⟨3, [tokLABEL, tok10, tokComma, tok20, tokSemi2, tokBEGIN, tokEND]⟩, []⟩
        = some (true, st) ∧
      st.tree.nodeAt [0] = some (scenarioLabelDeclarations tok10 tok20)) ∧
    ∃ st node list, labelDeclarations lab1Codes ⟨[], demoTables []⟩
        ⟨.mk (.tag .Declarations) [],
          ⟨3, [tokLABEL, tok10, tokComma, tok20, tokSemi2, tokBEGIN, tokEND]⟩, []⟩
        = some (true, st) ∧
      st.tree.nodeAt [0] = some node ∧ node.children.length = 4 ∧
      node.children.head? = some (.mk (.code 305) []) ∧
      st.tree.nodeAt [0, 2] = some list ∧ list.children.head? = some (.mk (.code 44) []) := by
  have h := labelDeclarations_root lab1Codes (demoTables []) (.mk (.tag .Declarations) []) 3 []
    tokLABEL tok10 tokComma tok20 tokSemi2 [tokBEGIN, tokEND]
    (by decide) (by decide) (by decide) (by decide) (by decide)
  constructor
  · rintro ⟨st, hst, htree⟩
    rw [h] at hst
    cases hst
    simp [Node.nodeAt, Node.children, labelDeclarationsNode, scenarioLabelDeclarations] at htree
  · exact ⟨_, _, _, h, rfl, rfl, rfl, rfl, rfl⟩

/-- C4: when the tokens start `PROGRAM x t`, with x in the identifier range and
the code of t not that of `;`, analysis started with an empty sink fails
(`signalProgram` returns false) and the sink then holds exactly one diagnostic:
the one of lines 266-269, which names `';'` as expected and gives the line, the
column and the name of t. -/
theorem missing_semicolon_diagnostic (kw : KeywordCodes) (tables : Tables) (p x t : Token)
    (rest : List Token) (htokens : tables.tokens = p :: x :: t :: rest)
    (hp : tokenRangeOf tables p = .keywordsBegin ∧ p.code = kw.PROGRAM_CODE)
    (hx : tokenRangeOf tables x = .identifiersBegin)
    (ht : t.code ≠ 59) :
    (∃ st, signalProgram kw ⟨[], tables⟩ (initialState tables []) = some (false, st) ∧
      st.errors = ["\x1b[1;37mParser:\x1b[0m \x1b[1;31mError (line: " ++ toString t.y
        ++ ", column: " ++ toString t.x ++ "):\x1b[0m "
        ++ "';'" ++ " expected but '" ++ t.name ++ "' found"]) ∧
    (∃ a, analyze kw tables [] = some a ∧
      a.errors = ["\x1b[1;37mParser:\x1b[0m \x1b[1;31mError (line: " ++ toString t.y
        ++ ", column: " ++ toString t.x ++ "):\x1b[0m "
        ++ "';'" ++ " expected but '" ++ t.name ++ "' found"]) := by
  obtain ⟨hp1, hp2⟩ := hp
  have hq : quotedChar 59 = "';'" := by decide
  constructor <;>
  simp [analyze, signalProgram, program, initialState, htokens, descend, leaf_cons, Mismatch,
    hp1, hp2, andThen, procedureIdentifier, identidier, hx, ht, hq, mismatchDiagnostic]

theorem missing_semicolon_diagnostic_witness :
    (∃ st, signalProgram lab1Codes ⟨[], demoTables [tokPROGRAM, tokX, tokBEGIN, tokEND, tokDot]⟩
        (initialState (demoTables [tokPROGRAM, tokX, tokBEGIN, tokEND, tokDot]) [])
        = some (false, st) ∧
      st.errors = ["\x1b[1;37mParser:\x1b[0m \x1b[1;31mError (line: " ++ toString tokBEGIN.y
        ++ ", column: " ++ toString tokBEGIN.x ++ "):\x1b[0m "
        ++ "';'" ++ " expected but '" ++ tokBEGIN.name ++ "' found"]) ∧
    (∃ a, analyze lab1Codes (demoTables [tokPROGRAM, tokX, tokBEGIN, tokEND, tokDot]) [] = some a ∧
      a.errors = ["\x1b[1;37mParser:\x1b[0m \x1b[1;31mError (line: " ++ toString tokBEGIN.y
        ++ ", column: " ++ toString tokBEGIN.x ++ "):\x1b[0m "
        ++ "';'" ++ " expected but '" ++ tokBEGIN.name ++ "' found"]) :=
  missing_semicolon_diagnostic lab1Codes (demoTables [tokPROGRAM, tokX, tokBEGIN, tokEND, tokDot])
    tokPROGRAM tokX tokBEGIN [tokEND, tokDot] rfl (by decide) (by decide) (by decide)

/-! ## The error sink along a run -/

theorem andThen_eq_some (r : Option (Bool × ParseState))
    (k : ParseState → Option (Bool × ParseState)) (ok : Bool) (st : ParseState)
    (h : andThen r k = some (ok, st)) :
    (r = some (false, st) ∧ ok = false) ∨ ∃ st1, r = some (true, st1) ∧ k st1 = some (ok, st) := by
  cases r with
  | none => simp [andThen] at h
  | some x =>
    obtain ⟨ok1, st1⟩ := x
    cases ok1 with
    | false =>
      simp only [andThen, Option.some.injEq, Prod.mk.injEq] at h
      exact Or.inl ⟨by rw [h.2], h.1.symm⟩
    | true => exact Or.inr ⟨st1, rfl, h⟩

theorem andThen_eq_some_true (r : Option (Bool × ParseState))
    (k : ParseState → Option (Bool × ParseState)) (st : ParseState) :
    andThen r k = some (true, st) ↔ ∃ st1, r = some (true, st1) ∧ k st1 = some (true, st) := by
  constructor
  · intro h
    rcases andThen_eq_some r k true st h with ⟨_, h2⟩ | h2
    · exact absurd h2 (by decide)
    · exact h2
  · rintro ⟨st1, h1, h2⟩
    rw [h1]; exact h2

theorem EndsClean.toPassed {errors : List String} {r : Option (Bool × ParseState)}
    (h : EndsClean errors r) : EndsPassed errors r := by
  intro ok st hr
  exact ⟨fun hok => Or.inl ((h ok st hr).1 hok), (h ok st hr).2⟩

theorem endsClean_andThen {errors : List String} {r : Option (Bool × ParseState)}
    {k : ParseState → Option (Bool × ParseState)} (hr : EndsClean errors r)
    (hk : ∀ st, st.errors = errors → EndsClean errors (k st)) :
    EndsClean errors (andThen r k) := by
  intro ok st h
  rcases andThen_eq_some r k ok st h with ⟨h1, h2⟩ | ⟨st1, h1, h2⟩
  · subst h2
    exact ⟨fun hc => absurd hc (by decide), fun _ => (hr false st h1).2 rfl⟩
  · exact hk st1 ((hr true st1 h1).1 rfl) ok st h2

theorem endsPassed_andThen {errors : List String} {r : Option (Bool × ParseState)}
    {k : ParseState → Option (Bool × ParseState)} (hr : EndsClean errors r)
    (hk : ∀ st, st.errors = errors → EndsPassed errors (k st)) :
    EndsPassed errors (andThen r k) := by
  intro ok st h
  rcases andThen_eq_some r k ok st h with ⟨h1, h2⟩ | ⟨st1, h1, h2⟩
  · subst h2
    exact ⟨fun hc => absurd hc (by decide), fun _ => (hr false st h1).2 rfl⟩
  · exact hk st1 ((hr true st1 h1).1 rfl) ok st h2

theorem endsClean_andThen_passed {errors : List String} {r : Option (Bool × ParseState)}
    {k : ParseState → Option (Bool × ParseState)} (hr : EndsPassed errors r)
    (hk : ∀ st, Passed errors st → EndsClean errors (k st)) :
    EndsClean errors (andThen r k) := by
  intro ok st h
  rcases andThen_eq_some r k ok st h with ⟨h1, h2⟩ | ⟨st1, h1, h2⟩
  · subst h2
    exact ⟨fun hc => absurd hc (by decide), fun _ => (hr false st h1).2 rfl⟩
  · exact hk st1 ((hr true st1 h1).1 rfl) ok st h2

theorem endsClean_done {errors : List String} {st : ParseState} (h : st.errors = errors) :
    EndsClean errors (some (true, st)) := by
  intro ok st' hr
  simp only [Option.some.injEq, Prod.mk.injEq] at hr
  obtain ⟨h1, h2⟩ := hr
  subst h1 h2
  exact ⟨fun _ => h, fun hc => absurd hc (by decide)⟩

theorem endsPassed_done {errors : List String} {st : ParseState} (h : Passed errors st) :
    EndsPassed errors (some (true, st)) := by
  intro ok st' hr
  simp only [Option.some.injEq, Prod.mk.injEq] at hr
  obtain ⟨h1, h2⟩ := hr
  subst h1 h2
  exact ⟨fun _ => h, fun hc => absurd hc (by decide)⟩

/-- A required `leaf` after a step that passed: it succeeds with the sink
untouched or fails as in `Failed`. -/
theorem leaf_required_endsClean (builder : Builder) (st : ParseState) (code : Int)
    (range : Range) (errors : List String) (h : Passed errors st) :
    EndsClean errors (some (leaf builder st code range true)) := by
  intro ok st' hr
  simp only [Option.some.injEq] at hr
  obtain ⟨tree, ⟨i, rest⟩, errs⟩ := st
  cases rest with
  | nil =>
    rw [leaf_nil] at hr
    simp only [Prod.mk.injEq] at hr
    obtain ⟨h1, h2⟩ := hr
    subst h1 h2
    refine ⟨fun hc => absurd hc (by decide), fun _ => Or.inr ⟨rfl, ?_⟩⟩
    rcases h with h | ⟨_, h⟩
    · simp only at h; subst h; exact Or.inl rfl
    · simp only at h; subst h; exact Or.inr (by simp)
  | cons t rest =>
    have hE : errs = errors := by
      rcases h with h | ⟨h, _⟩
      · exact h
      · simp at h
    subst hE
    rw [leaf_cons] at hr
    by_cases hm : Mismatch builder.tables t code range
    · simp only [hm, if_true, Prod.mk.injEq] at hr
      obtain ⟨h1, h2⟩ := hr
      subst h1 h2
      exact ⟨fun hc => absurd hc (by decide), fun _ => Or.inl ⟨t, rest, _, rfl, rfl⟩⟩
    · simp only [hm, if_false, Prod.mk.injEq] at hr
      obtain ⟨h1, h2⟩ := hr
      subst h1 h2
      exact ⟨fun _ => rfl, fun hc => absurd hc (by decide)⟩

/-- A `leaf` that is not required, in a state with the sink `errors`: on
success the sink is untouched, on failure the state has passed. -/
theorem leaf_optional_result (builder : Builder) (st : ParseState) (code : Int)
    (range : Range) (ok : Bool) (st' : ParseState)
    (h : leaf builder st code range false = (ok, st')) :
    (ok = true → st'.errors = st.errors) ∧ (ok = false → Passed st.errors st') := by
  obtain ⟨tree, ⟨i, rest⟩, errs⟩ := st
  cases rest with
  | nil =>
    rw [leaf_nil] at h
    simp only [Prod.mk.injEq] at h
    obtain ⟨h1, h2⟩ := h
    subst h1 h2
    exact ⟨fun hc => absurd hc (by decide), fun _ => Or.inr ⟨rfl, rfl⟩⟩
  | cons t rest =>
    rw [leaf_cons] at h
    by_cases hm : Mismatch builder.tables t code range
    · simp only [hm, if_true, Bool.false_eq_true, if_false, Prod.mk.injEq] at h
      obtain ⟨h1, h2⟩ := h
      subst h1 h2
      exact ⟨fun hc => absurd hc (by decide), fun _ => Or.inl rfl⟩
    · simp only [hm, if_false, Prod.mk.injEq] at h
      obtain ⟨h1, h2⟩ := h
      subst h1 h2
      exact ⟨fun _ => rfl, fun hc => absurd hc (by decide)⟩

theorem andThen_done (r : Option (Bool × ParseState)) :
    andThen r (fun st => some (true, st)) = r := by
  cases r with
  | none => rfl
  | some x =>
    obtain ⟨ok, st⟩ := x
    cases ok <;> rfl

theorem addEmpty_tokens (builder : Builder) (st : ParseState) :
    (addEmpty builder st).tokens = st.tokens := rfl

theorem addEmpty_errors (builder : Builder) (st : ParseState) :
    (addEmpty builder st).errors = st.errors := rfl

theorem passed_addEmpty {errors : List String} {st : ParseState} (builder : Builder)
    (h : Passed errors st) : Passed errors (addEmpty builder st) := h

theorem identidier_endsClean (builder : Builder) (st : ParseState) (errors : List String)
    (he : st.errors = errors) : EndsClean errors (identidier builder st) := by
  simp only [identidier, descend_tokens]
  cases hrest : st.tokens.rest with
  | nil => intro ok st' h; simp at h
  | cons t rest => exact leaf_required_endsClean _ _ _ _ _ (Or.inl he)

theorem unsignedInteger_endsClean (builder : Builder) (st : ParseState) (errors : List String)
    (he : st.errors = errors) : EndsClean errors (unsignedInteger builder st) := by
  simp only [unsignedInteger, descend_tokens]
  cases hrest : st.tokens.rest with
  | nil => intro ok st' h; simp at h
  | cons t rest => exact leaf_required_endsClean _ _ _ _ _ (Or.inl he)

theorem procedureIdentifier_endsClean (builder : Builder) (st : ParseState)
    (errors : List String) (he : st.errors = errors) :
    EndsClean errors (procedureIdentifier builder st) := by
  simp only [procedureIdentifier, andThen_done]
  exact identidier_endsClean _ _ _ he

theorem declarationsList_endsClean (builder : Builder) (st : ParseState)
    (errors : List String) (he : st.errors = errors) :
    EndsClean errors (declarationsList builder st) :=
  endsClean_done he

theorem statementsList_endsClean (builder : Builder) (st : ParseState)
    (errors : List String) (he : st.errors = errors) :
    EndsClean errors (statementsList builder st) :=
  endsClean_done he

theorem labelsListAux_endsPassed (errors : List String) :
    ∀ (fuel : Nat) (builder : Builder) (st : ParseState), st.errors = errors →
      EndsPassed errors (labelsListAux fuel builder st) := by
  intro fuel
  induction fuel with
  | zero => intro builder st _ ok st' h; simp [labelsListAux] at h
  | succ fuel ih =>
    intro builder st he
    simp only [labelsListAux]
    rcases hl : leaf (descend builder st .LabelsList).1 (descend builder st .LabelsList).2
      44 .zero false with ⟨ok, st1⟩
    have hres := leaf_optional_result _ _ _ _ _ _ hl
    rw [descend_errors, he] at hres
    cases ok with
    | false => exact endsPassed_done (passed_addEmpty _ (hres.2 rfl))
    | true =>
      simp only [andThen_done]
      exact endsPassed_andThen (unsignedInteger_endsClean _ _ _ (hres.1 rfl))
        (fun st2 h2 => ih _ _ h2)

theorem labelsList_endsPassed (builder : Builder) (st : ParseState) (errors : List String)
    (he : st.errors = errors) : EndsPassed errors (labelsList builder st) :=
  labelsListAux_endsPassed errors _ builder st he

theorem labelDeclarations_endsPassed (kw : KeywordCodes) (builder : Builder) (st : ParseState)
    (errors : List String) (he : st.errors = errors) :
    EndsPassed errors (labelDeclarations kw builder st) := by
  simp only [labelDeclarations]
  rcases hl : leaf (descend builder st .LabelDeclarations).1
    (descend builder st .LabelDeclarations).2 kw.LABEL_CODE .keywordsBegin false with ⟨ok, st1⟩
  have hres := leaf_optional_result _ _ _ _ _ _ hl
  rw [descend_errors, he] at hres
  cases ok with
  | false => exact endsPassed_done (passed_addEmpty _ (hres.2 rfl))
  | true =>
    simp only [andThen_done]
    apply EndsClean.toPassed
    refine endsClean_andThen (unsignedInteger_endsClean _ _ _ (hres.1 rfl)) ?_
    intro st2 h2
    refine endsClean_andThen_passed (labelsList_endsPassed _ _ _ h2) ?_
    intro st3 h3
    exact leaf_required_endsClean _ _ _ _ _ h3

theorem declarations_endsPassed (kw : KeywordCodes) (builder : Builder) (st : ParseState)
    (errors : List String) (he : st.errors = errors) :
    EndsPassed errors (declarations kw builder st) := by
  simp only [declarations, andThen_done]
  exact labelDeclarations_endsPassed kw _ _ _ he

theorem parametersList_endsPassed (builder : Builder) (st : ParseState)
    (errors : List String) (he : st.errors = errors) :
    EndsPassed errors (parametersList builder st) := by
  simp only [parametersList]
  rcases hl : leaf (descend builder st .ParametersList).1
    (descend builder st .ParametersList).2 40 .zero false with ⟨ok, st1⟩
  have hres := leaf_optional_result _ _ _ _ _ _ hl
  rw [descend_errors, he] at hres
  cases ok with
  | false => exact endsPassed_done (passed_addEmpty _ (hres.2 rfl))
  | true =>
    simp only [andThen_done]
    apply EndsClean.toPassed
    refine endsClean_andThen (declarationsList_endsClean _ _ _ (hres.1 rfl)) ?_
    intro st2 h2
    exact leaf_required_endsClean _ _ _ _ _ (Or.inl h2)

theorem block_endsClean (kw : KeywordCodes) (builder : Builder) (st : ParseState)
    (errors : List String) (he : st.errors = errors) :
    EndsClean errors (block kw builder st) := by
  simp only [block, andThen_done]
  refine endsClean_andThen_passed (declarations_endsPassed kw _ _ _ he) ?_
  intro st1 h1
  refine endsClean_andThen (leaf_required_endsClean _ _ _ _ _ h1) ?_
  intro st2 h2
  refine endsClean_andThen (statementsList_endsClean _ _ _ h2) ?_
  intro st3 h3
  exact leaf_required_endsClean _ _ _ _ _ (Or.inl h3)

theorem program_endsClean (kw : KeywordCodes) (builder : Builder) (st : ParseState)
    (errors : List String) (he : st.errors = errors) :
    EndsClean errors (program kw builder st) := by
  simp only [program]
  rcases hl : leaf (descend builder st .Program).1
    (descend builder st .Program).2 kw.PROGRAM_CODE .keywordsBegin false with ⟨ok, st1⟩
  have hres := leaf_optional_result _ _ _ _ _ _ hl
  rw [descend_errors, he] at hres
  cases ok with
  | true =>
    simp only [andThen_done]
    refine endsClean_andThen (procedureIdentifier_endsClean _ _ _ (hres.1 rfl)) ?_
    intro st2 h2
    refine endsClean_andThen (leaf_required_endsClean _ _ _ _ _ (Or.inl h2)) ?_
    intro st3 h3
    refine endsClean_andThen (block_endsClean kw _ _ _ h3) ?_
    intro st4 h4
    exact leaf_required_endsClean _ _ _ _ _ (Or.inl h4)
  | false =>
    have h1 : Passed errors st1 := hres.2 rfl
    simp only []
    have hsecond := leaf_required_endsClean (descend builder st .Program).1 st1
      kw.PROCEDURE_CODE .keywordsBegin errors h1
    rcases hl2 : leaf (descend builder st .Program).1 st1 kw.PROCEDURE_CODE .keywordsBegin true
      with ⟨ok2, st2⟩
    have h2 := hsecond ok2 st2 (by rw [hl2])
    cases ok2 with
    | false =>
      intro ok st' h
      simp only [Option.some.injEq, Prod.mk.injEq] at h
      obtain ⟨ha, hb⟩ := h
      subst ha hb
      exact ⟨fun hc => absurd hc (by decide), h2.2⟩
    | true =>
      simp only [andThen_done]
      refine endsClean_andThen (procedureIdentifier_endsClean _ _ _ (h2.1 rfl)) ?_
      intro st3 h3
      refine endsClean_andThen_passed (parametersList_endsPassed _ _ _ h3) ?_
      intro st4 h4
      refine endsClean_andThen (leaf_required_endsClean _ _ _ _ _ h4) ?_
      intro st5 h5
      refine endsClean_andThen (block_endsClean kw _ _ _ h5) ?_
      intro st6 h6
      exact leaf_required_endsClean _ _ _ _ _ (Or.inl h6)

theorem signalProgram_endsClean (kw : KeywordCodes) (builder : Builder) (st : ParseState)
    (errors : List String) (he : st.errors = errors) :
    EndsClean errors (signalProgram kw builder st) := by
  simp only [signalProgram, andThen_done]
  exact program_endsClean kw builder _ _ he

/-- C6, as the code has it: when analysis started with an empty sink fails, the
sink holds one mismatch diagnostic about the token under the cursor, or, with
the cursor at the end of the stream, one EOF diagnostic or two of them (the
first written by a `leaf` that was not required, the second by the required
`leaf` that follows it); nothing else is in the sink. For the empty token
sequence the sink holds two EOF diagnostics. -/
theorem analysis_failure_sink (kw : KeywordCodes) (tables : Tables) (st : ParseState)
    (h : signalProgram kw ⟨[], tables⟩ (initialState tables []) = some (false, st)) :
    ((∃ t rest expected, st.tokens.rest = t :: rest ∧
        st.errors = [mismatchDiagnostic t expected]) ∨
     (st.tokens.rest = [] ∧
        (st.errors = [eofDiagnostic] ∨ st.errors = [eofDiagnostic, eofDiagnostic]))) ∧
    (tables.tokens = [] → st.errors = [eofDiagnostic, eofDiagnostic]) := by
  constructor
  · have hf := (signalProgram_endsClean kw ⟨[], tables⟩ (initialState tables []) [] rfl
      false st h).2 rfl
    simpa [Failed] using hf
  · intro hempty
    simp [signalProgram, program, initialState, hempty, descend, leaf_nil, andThen] at h
    rw [← h]

theorem analysis_failure_sink_witness :
    ∃ st, signalProgram lab1Codes ⟨[], demoTables []⟩ (initialState (demoTables []) [])
        = some (false, st) ∧
      st.errors = [eofDiagnostic, eofDiagnostic] := by
  refine ⟨⟨.mk (.tag .SignalProgram) [.mk (.tag .Program) []], ⟨0, []⟩,
    [eofDiagnostic, eofDiagnostic]⟩, rfl, ?_⟩
  exact (analysis_failure_sink lab1Codes (demoTables []) _ rfl).2 rfl

/-- C6, as stated, fails: on the empty token sequence analysis fails and the
sink then holds two diagnostics, not one. -/
theorem empty_stream_two_diagnostics :
    (∃ st, signalProgram lab1Codes ⟨[], demoTables []⟩ (initialState (demoTables []) [])
        = some (false, st) ∧ st.errors.length = 2) ∧
    ∃ a, analyze lab1Codes (demoTables []) [] = some a ∧
      a.errors = [eofDiagnostic, eofDiagnostic] ∧ a.errors.length ≠ 1 :=
  ⟨⟨⟨.mk (.tag .SignalProgram) [.mk (.tag .Program) []], ⟨0, []⟩,
      [eofDiagnostic, eofDiagnostic]⟩, rfl, rfl⟩,
   ⟨.mk (.tag .SignalProgram) [.mk (.tag .Program) []], [eofDiagnostic, eofDiagnostic], 0⟩,
    rfl, rfl, by decide⟩

/-! ## The language accepted by the productions -/

theorem not_mismatch_keyword (tables : Tables) (t : Token) (code : Int) :
    ¬ Mismatch tables t code .keywordsBegin ↔ IsKeyword tables code t := by
  rw [mismatch_iff]
  simp [IsKeyword]

theorem not_mismatch_identifier (tables : Tables) (t : Token) :
    ¬ Mismatch tables t t.code .identifiersBegin ↔ IsIdentifier tables t := by
  rw [mismatch_iff]
  simp [IsIdentifier]

theorem not_mismatch_constant (tables : Tables) (t : Token) :
    ¬ Mismatch tables t t.code .constantsBegin ↔ IsConstant tables t := by
  rw [mismatch_iff]
  simp [IsConstant]

theorem not_mismatch_char (tables : Tables) (t : Token) (code : Int) (hc : code ≠ -1) :
    ¬ Mismatch tables t code .zero ↔ t.code = code := by
  rw [mismatch_iff]
  simp [hc]

theorem leaf_true_inv (builder : Builder) (st : ParseState) (code : Int) (range : Range)
    (required : Bool) (st' : ParseState)
    (h : leaf builder st code range required = (true, st')) :
    ∃ t, st.tokens.rest = t :: st'.tokens.rest ∧ ¬ Mismatch builder.tables t code range ∧
      st'.tokens.index = st.tokens.index + 1 ∧ st'.errors = st.errors := by
  obtain ⟨tree, ⟨i, rest⟩, errs⟩ := st
  cases rest with
  | nil => rw [leaf_nil] at h; simp at h
  | cons t rest =>
    rw [leaf_cons] at h
    by_cases hm : Mismatch builder.tables t code range
    · cases required <;> simp [hm] at h
    · simp only [hm, if_false, Prod.mk.injEq, true_and] at h
      subst h
      exact ⟨t, rfl, hm, rfl, rfl⟩

theorem leaf_optional_false_inv (builder : Builder) (st : ParseState) (code : Int)
    (range : Range) (st' : ParseState)
    (h : leaf builder st code range false = (false, st')) :
    st'.tokens = st.tokens ∧
      ∀ t rest, st.tokens.rest = t :: rest → Mismatch builder.tables t code range := by
  obtain ⟨tree, ⟨i, rest⟩, errs⟩ := st
  cases rest with
  | nil =>
    rw [leaf_nil] at h
    simp only [Prod.mk.injEq, true_and] at h
    subst h
    exact ⟨rfl, fun t rest hr => by simp at hr⟩
  | cons t rest =>
    rw [leaf_cons] at h
    by_cases hm : Mismatch builder.tables t code range
    · simp only [hm, if_true, Bool.false_eq_true, if_false, Prod.mk.injEq, true_and] at h
      subst h
      refine ⟨rfl, fun t' rest' hr => ?_⟩
      simp only [List.cons.injEq] at hr
      rw [← hr.1]; exact hm
    · simp [hm] at h

theorem identidier_sound (builder : Builder) (st st' : ParseState)
    (h : identidier builder st = some (true, st')) :
    ∃ t, st.tokens.rest = t :: st'.tokens.rest ∧ IsIdentifier builder.tables t := by
  simp only [identidier, descend_tokens] at h
  cases hrest : st.tokens.rest with
  | nil => simp [hrest] at h
  | cons t rest =>
    simp only [hrest, Option.some.injEq] at h
    obtain ⟨t', h1, h2, _⟩ := leaf_true_inv _ _ _ _ _ _ h
    rw [descend_tokens, hrest] at h1
    simp only [List.cons.injEq] at h1
    obtain ⟨h1a, h1b⟩ := h1
    subst h1a
    exact ⟨t, by rw [h1b], (not_mismatch_identifier _ _).mp h2⟩

theorem unsignedInteger_sound (builder : Builder) (st st' : ParseState)
    (h : unsignedInteger builder st = some (true, st')) :
    ∃ t, st.tokens.rest = t :: st'.tokens.rest ∧ IsConstant builder.tables t := by
  simp only [unsignedInteger, descend_tokens] at h
  cases hrest : st.tokens.rest with
  | nil => simp [hrest] at h
  | cons t rest =>
    simp only [hrest, Option.some.injEq] at h
    obtain ⟨t', h1, h2, _⟩ := leaf_true_inv _ _ _ _ _ _ h
    rw [descend_tokens, hrest] at h1
    simp only [List.cons.injEq] at h1
    obtain ⟨h1a, h1b⟩ := h1
    subst h1a
    exact ⟨t, by rw [h1b], (not_mismatch_constant _ _).mp h2⟩

theorem procedureIdentifier_sound (builder : Builder) (st st' : ParseState)
    (h : procedureIdentifier builder st = some (true, st')) :
    ∃ t, st.tokens.rest = t :: st'.tokens.rest ∧ IsIdentifier builder.tables t := by
  simp only [procedureIdentifier, andThen_done] at h
  have hs := identidier_sound _ _ _ h
  exact hs

theorem labelsListAux_sound :
    ∀ (fuel : Nat) (builder : Builder) (st st' : ParseState),
      labelsListAux fuel builder st = some (true, st') →
      ∃ w, LabelsTail builder.tables w ∧ st.tokens.rest = w ++ st'.tokens.rest := by
  intro fuel
  induction fuel with
  | zero => intro builder st st' h; simp [labelsListAux] at h
  | succ fuel ih =>
    intro builder st st' h
    simp only [labelsListAux] at h
    rcases hl : leaf (descend builder st .LabelsList).1 (descend builder st .LabelsList).2
      44 .zero false with ⟨ok, st1⟩
    rw [hl] at h
    cases ok with
    | false =>
      simp only [Option.some.injEq, Prod.mk.injEq, true_and] at h
      subst h
      have := (leaf_optional_false_inv _ _ _ _ _ hl).1
      exact ⟨[], trivial, by rw [addEmpty_tokens, this]; rfl⟩
    | true =>
      simp only [andThen_done] at h
      obtain ⟨st2, h2, h3⟩ := (andThen_eq_some_true _ _ _).mp h
      obtain ⟨t, ht, hm, _⟩ := leaf_true_inv _ _ _ _ _ _ hl
      obtain ⟨n, hn, hc⟩ := unsignedInteger_sound _ _ _ h2
      obtain ⟨w, hw, hrest⟩ := ih _ _ _ h3
      refine ⟨t :: n :: w, ⟨(not_mismatch_char _ _ _ (by decide)).mp hm, hc, hw⟩, ?_⟩
      rw [descend_tokens] at ht
      rw [ht, hn, hrest]; rfl

theorem labelsList_sound (builder : Builder) (st st' : ParseState)
    (h : labelsList builder st = some (true, st')) :
    ∃ w, LabelsTail builder.tables w ∧ st.tokens.rest = w ++ st'.tokens.rest :=
  labelsListAux_sound _ builder st st' h

theorem labelDeclarations_sound (kw : KeywordCodes) (builder : Builder) (st st' : ParseState)
    (h : labelDeclarations kw builder st = some (true, st')) :
    st.tokens.rest = st'.tokens.rest ∨
      ∃ w, LabelPart kw builder.tables w ∧ st.tokens.rest = w ++ st'.tokens.rest := by
  simp only [labelDeclarations] at h
  rcases hl : leaf (descend builder st .LabelDeclarations).1
    (descend builder st .LabelDeclarations).2 kw.LABEL_CODE .keywordsBegin false with ⟨ok, st1⟩
  rw [hl] at h
  cases ok with
  | false =>
    simp only [Option.some.injEq, Prod.mk.injEq, true_and] at h
    subst h
    have := (leaf_optional_false_inv _ _ _ _ _ hl).1
    exact Or.inl (by rw [addEmpty_tokens, this]; rfl)
  | true =>
    simp only [andThen_done] at h
    obtain ⟨st2, h2, h3⟩ := (andThen_eq_some_true _ _ _).mp h
    obtain ⟨st3, h4, h5⟩ := (andThen_eq_some_true _ _ _).mp h3
    simp only [Option.some.injEq] at h5
    obtain ⟨l, hl1, hl2, _⟩ := leaf_true_inv _ _ _ _ _ _ hl
    obtain ⟨c, hc1, hc2⟩ := unsignedInteger_sound _ _ _ h2
    obtain ⟨tail, ht1, ht2⟩ := labelsList_sound _ _ _ h4
    obtain ⟨s, hs1, hs2, _⟩ := leaf_true_inv _ _ _ _ _ _ h5
    refine Or.inr ⟨l :: c :: (tail ++ [s]),
      ⟨l, c, tail, s, rfl, (not_mismatch_keyword _ _ _).mp hl2, hc2, ht1,
        (not_mismatch_char _ _ _ (by decide)).mp hs2⟩, ?_⟩
    rw [descend_tokens] at hl1
    rw [hl1, hc1, ht2, hs1]; simp

theorem declarations_sound (kw : KeywordCodes) (builder : Builder) (st st' : ParseState)
    (h : declarations kw builder st = some (true, st')) :
    st.tokens.rest = st'.tokens.rest ∨
      ∃ w, LabelPart kw builder.tables w ∧ st.tokens.rest = w ++ st'.tokens.rest := by
  simp only [declarations, andThen_done] at h
  have hs := labelDeclarations_sound kw _ _ _ h
  exact hs

theorem parametersList_sound (builder : Builder) (st st' : ParseState)
    (h : parametersList builder st = some (true, st')) :
    ∃ w, ParametersPart w ∧ st.tokens.rest = w ++ st'.tokens.rest := by
  simp only [parametersList] at h
  rcases hl : leaf (descend builder st .ParametersList).1
    (descend builder st .ParametersList).2 40 .zero false with ⟨ok, st1⟩
  rw [hl] at h
  cases ok with
  | false =>
    simp only [Option.some.injEq, Prod.mk.injEq, true_and] at h
    subst h
    have := (leaf_optional_false_inv _ _ _ _ _ hl).1
    exact ⟨[], Or.inl rfl, by rw [addEmpty_tokens, this]; rfl⟩
  | true =>
    simp only [andThen_done] at h
    obtain ⟨st2, h2, h3⟩ := (andThen_eq_some_true _ _ _).mp h
    simp only [Option.some.injEq] at h3
    simp only [declarationsList, Option.some.injEq, Prod.mk.injEq, true_and] at h2
    obtain ⟨o, ho1, ho2, _⟩ := leaf_true_inv _ _ _ _ _ _ hl
    obtain ⟨c, hc1, hc2, _⟩ := leaf_true_inv _ _ _ _ _ _ h3
    refine ⟨[o, c], Or.inr ⟨o, c, rfl, (not_mismatch_char _ _ _ (by decide)).mp ho2,
      (not_mismatch_char _ _ _ (by decide)).mp hc2⟩, ?_⟩
    rw [descend_tokens] at ho1
    rw [← h2] at hc1
    rw [addEmpty_tokens, descend_tokens] at hc1
    rw [ho1, hc1]; rfl

theorem block_sound (kw : KeywordCodes) (builder : Builder) (st st' : ParseState)
    (h : block kw builder st = some (true, st')) :
    ∃ w, BlockSentence kw builder.tables w ∧ st.tokens.rest = w ++ st'.tokens.rest := by
  simp only [block, andThen_done] at h
  obtain ⟨st1, h1, h⟩ := (andThen_eq_some_true _ _ _).mp h
  obtain ⟨st2, h2, h⟩ := (andThen_eq_some_true _ _ _).mp h
  obtain ⟨st3, h3, h4⟩ := (andThen_eq_some_true _ _ _).mp h
  simp only [Option.some.injEq] at h2 h4
  simp only [statementsList, Option.some.injEq, Prod.mk.injEq, true_and] at h3
  obtain ⟨b, hb1, hb2, _⟩ := leaf_true_inv _ _ _ _ _ _ h2
  obtain ⟨e, he1, he2, _⟩ := leaf_true_inv _ _ _ _ _ _ h4
  rw [← h3] at he1
  rw [addEmpty_tokens, descend_tokens] at he1
  have hb := (not_mismatch_keyword _ _ _).mp hb2
  have he := (not_mismatch_keyword _ _ _).mp he2
  rcases declarations_sound kw _ _ _ h1 with hd | ⟨w, hw, hd⟩
  · refine ⟨[] ++ [b, e], ⟨[], b, e, rfl, Or.inl rfl, hb, he⟩, ?_⟩
    rw [descend_tokens] at hd
    rw [hd, hb1, he1]; rfl
  · refine ⟨w ++ [b, e], ⟨w, b, e, rfl, Or.inr hw, hb, he⟩, ?_⟩
    rw [descend_tokens] at hd
    rw [hd, hb1, he1]; simp

theorem program_sound (kw : KeywordCodes) (builder : Builder) (st st' : ParseState)
    (h : program kw builder st = some (true, st')) :
    ∃ w, Sentence kw builder.tables w ∧ st.tokens.rest = w ++ st'.tokens.rest := by
  simp only [program] at h
  rcases hl : leaf (descend builder st .Program).1
    (descend builder st .Program).2 kw.PROGRAM_CODE .keywordsBegin false with ⟨ok, st1⟩
  rw [hl] at h
  cases ok with
  | true =>
    simp only [andThen_done] at h
    obtain ⟨st2, h2, h⟩ := (andThen_eq_some_true _ _ _).mp h
    obtain ⟨st3, h3, h⟩ := (andThen_eq_some_true _ _ _).mp h
    obtain ⟨st4, h4, h5⟩ := (andThen_eq_some_true _ _ _).mp h
    simp only [Option.some.injEq] at h3 h5
    obtain ⟨p, hp1, hp2, _⟩ := leaf_true_inv _ _ _ _ _ _ hl
    obtain ⟨x, hx1, hx2⟩ := procedureIdentifier_sound _ _ _ h2
    obtain ⟨s, hs1, hs2, _⟩ := leaf_true_inv _ _ _ _ _ _ h3
    obtain ⟨blk, hb1, hb2⟩ := block_sound kw _ _ _ h4
    obtain ⟨d, hd1, hd2, _⟩ := leaf_true_inv _ _ _ _ _ _ h5
    refine ⟨p :: x :: s :: (blk ++ [d]), Or.inl ⟨p, x, s, blk, d, rfl,
      (not_mismatch_keyword _ _ _).mp hp2, hx2, (not_mismatch_char _ _ _ (by decide)).mp hs2,
      hb1, (not_mismatch_char _ _ _ (by decide)).mp hd2⟩, ?_⟩
    rw [descend_tokens] at hp1
    rw [hp1, hx1, hs1, hb2, hd1]; simp
  | false =>
    simp only [] at h
    rcases hl2 : leaf (descend builder st .Program).1 st1 kw.PROCEDURE_CODE .keywordsBegin true
      with ⟨ok2, st2⟩
    rw [hl2] at h
    cases ok2 with
    | false => simp at h
    | true =>
      simp only [andThen_done] at h
      obtain ⟨st3, h3, h⟩ := (andThen_eq_some_true _ _ _).mp h
      obtain ⟨st4, h4, h⟩ := (andThen_eq_some_true _ _ _).mp h
      obtain ⟨st5, h5, h⟩ := (andThen_eq_some_true _ _ _).mp h
      obtain ⟨st6, h6, h7⟩ := (andThen_eq_some_true _ _ _).mp h
      simp only [Option.some.injEq] at h5 h7
      have hst1 := (leaf_optional_false_inv _ _ _ _ _ hl).1
      obtain ⟨p, hp1, hp2, _⟩ := leaf_true_inv _ _ _ _ _ _ hl2
      obtain ⟨x, hx1, hx2⟩ := procedureIdentifier_sound _ _ _ h3
      obtain ⟨par, hpar1, hpar2⟩ := parametersList_sound _ _ _ h4
      obtain ⟨s, hs1, hs2, _⟩ := leaf_true_inv _ _ _ _ _ _ h5
      obtain ⟨blk, hb1, hb2⟩ := block_sound kw _ _ _ h6
      obtain ⟨s2, hd1, hd2, _⟩ := leaf_true_inv _ _ _ _ _ _ h7
      refine ⟨p :: x :: (par ++ s :: (blk ++ [s2])), Or.inr ⟨p, x, par, s, blk, s2, rfl,
        (not_mismatch_keyword _ _ _).mp hp2, hx2, hpar1,
        (not_mismatch_char _ _ _ (by decide)).mp hs2, hb1,
        (not_mismatch_char _ _ _ (by decide)).mp hd2⟩, ?_⟩
      rw [hst1, descend_tokens] at hp1
      rw [hp1, hx1, hpar2, hs1, hb2, hd1]; simp

theorem leaf_accept (builder : Builder) (st : ParseState) (code : Int) (range : Range)
    (required : Bool) (t : Token) (r : List Token) (h : st.tokens.rest = t :: r)
    (hm : ¬ Mismatch builder.tables t code range) :
    ∃ st', leaf builder st code range required = (true, st') ∧ st'.tokens.rest = r :=
  ⟨_, leaf_match builder st code range required t r h hm, rfl⟩

theorem identidier_complete (builder : Builder) (st : ParseState) (t : Token) (r : List Token)
    (h : st.tokens.rest = t :: r) (ht : IsIdentifier builder.tables t) :
    ∃ st', identidier builder st = some (true, st') ∧ st'.tokens.rest = r := by
  simp only [identidier, descend_tokens, h]
  obtain ⟨st', h1, h2⟩ := leaf_accept (descend builder st .Identifier).1
    (descend builder st .Identifier).2 t.code .identifiersBegin true t r h
    ((not_mismatch_identifier _ _).mpr ht)
  exact ⟨st', by rw [h1], h2⟩

theorem unsignedInteger_complete (builder : Builder) (st : ParseState) (t : Token)
    (r : List Token) (h : st.tokens.rest = t :: r) (ht : IsConstant builder.tables t) :
    ∃ st', unsignedInteger builder st = some (true, st') ∧ st'.tokens.rest = r := by
  simp only [unsignedInteger, descend_tokens, h]
  obtain ⟨st', h1, h2⟩ := leaf_accept (descend builder st .UnsignedInteger).1
    (descend builder st .UnsignedInteger).2 t.code .constantsBegin true t r h
    ((not_mismatch_constant _ _).mpr ht)
  exact ⟨st', by rw [h1], h2⟩

theorem procedureIdentifier_complete (builder : Builder) (st : ParseState) (t : Token)
    (r : List Token) (h : st.tokens.rest = t :: r) (ht : IsIdentifier builder.tables t) :
    ∃ st', procedureIdentifier builder st = some (true, st') ∧ st'.tokens.rest = r := by
  simp only [procedureIdentifier, andThen_done]
  exact identidier_complete (descend builder st .ProcedureIdentifier).1
    (descend builder st .ProcedureIdentifier).2 t r h ht

theorem labelsList_complete (tables : Tables) :
    ∀ (w : List Token), LabelsTail tables w →
      ∀ (builder : Builder) (st : ParseState) (s : Token) (r : List Token),
        builder.tables = tables → st.tokens.rest = w ++ s :: r → s.code = 59 →
        ∃ st', labelsList builder st = some (true, st') ∧ st'.tokens.rest = s :: r
  | [], _, builder, st, s, r, _, hrest, hs => by
    rw [labelsList_unfold]
    have hm : Mismatch (descend builder st .LabelsList).1.tables s 44 .zero := by
      by_contra hc
      have := (not_mismatch_char _ _ _ (by decide)).mp hc
      rw [hs] at this
      exact absurd this (by decide)
    have hl := leaf_mismatch_optional (descend builder st .LabelsList).1
      (descend builder st .LabelsList).2 44 .zero s r hrest hm
    simp only [hl]
    exact ⟨_, rfl, hrest⟩
  | [_], h, _, _, _, _, _, _, _ => absurd h (by simp [LabelsTail])
  | c :: n :: w, h, builder, st, s, r, htb, hrest, hs => by
    obtain ⟨hc, hn, hw⟩ := h
    rw [labelsList_unfold]
    obtain ⟨st1, h1, hr1⟩ := leaf_accept (descend builder st .LabelsList).1
      (descend builder st .LabelsList).2 44 .zero false c (n :: (w ++ s :: r)) hrest
      ((not_mismatch_char _ _ _ (by decide)).mpr hc)
    simp only [h1, andThen_done]
    obtain ⟨st2, h2, hr2⟩ := unsignedInteger_complete (descend builder st .LabelsList).1 st1 n
      (w ++ s :: r) hr1 (by rw [descend_tables, htb]; exact hn)
    simp only [h2, andThen]
    exact labelsList_complete tables w hw (descend builder st .LabelsList).1 st2 s r htb hr2 hs

theorem labelDeclarations_complete_empty (kw : KeywordCodes) (builder : Builder)
    (st : ParseState) (g : Token) (r : List Token) (hkw : kw.LABEL_CODE ≠ kw.BEGIN_CODE)
    (h : st.tokens.rest = g :: r) (hg : IsKeyword builder.tables kw.BEGIN_CODE g) :
    ∃ st', labelDeclarations kw builder st = some (true, st') ∧ st'.tokens.rest = g :: r := by
  simp only [labelDeclarations]
  have hm : Mismatch (descend builder st .LabelDeclarations).1.tables g kw.LABEL_CODE
      .keywordsBegin := by
    by_contra hc
    have := ((not_mismatch_keyword _ _ _).mp hc).2
    rw [hg.2] at this
    exact hkw this.symm
  have hl := leaf_mismatch_optional (descend builder st .LabelDeclarations).1
    (descend builder st .LabelDeclarations).2 kw.LABEL_CODE .keywordsBegin g r h hm
  simp only [hl]
  exact ⟨_, rfl, h⟩

theorem labelDeclarations_complete_labels (kw : KeywordCodes) (builder : Builder)
    (st : ParseState) (w r : List Token) (hw : LabelPart kw builder.tables w)
    (h : st.tokens.rest = w ++ r) :
    ∃ st', labelDeclarations kw builder st = some (true, st') ∧ st'.tokens.rest = r := by
  obtain ⟨l, c, tail, s, hweq, hl, hc, htail, hs⟩ := hw
  subst hweq
  simp only [labelDeclarations]
  have h' : st.tokens.rest = l :: c :: (tail ++ s :: r) := by rw [h]; simp
  obtain ⟨st1, h1, hr1⟩ := leaf_accept (descend builder st .LabelDeclarations).1
    (descend builder st .LabelDeclarations).2 kw.LABEL_CODE .keywordsBegin false l
    (c :: (tail ++ s :: r)) h' ((not_mismatch_keyword _ _ _).mpr hl)
  simp only [h1, andThen_done]
  obtain ⟨st2, h2, hr2⟩ := unsignedInteger_complete (descend builder st .LabelDeclarations).1
    st1 c (tail ++ s :: r) hr1 hc
  simp only [h2, andThen]
  obtain ⟨st3, h3, hr3⟩ := labelsList_complete builder.tables tail htail
    (descend builder st .LabelDeclarations).1 st2 s r rfl hr2 hs
  simp only [h3]
  obtain ⟨st4, h4, hr4⟩ := leaf_accept (descend builder st .LabelDeclarations).1 st3 59 .zero
    true s r hr3 ((not_mismatch_char _ _ _ (by decide)).mpr hs)
  exact ⟨st4, by rw [h4], hr4⟩

theorem parametersList_complete (builder : Builder) (st : ParseState) (w : List Token)
    (s : Token) (r : List Token) (hw : ParametersPart w) (h : st.tokens.rest = w ++ s :: r)
    (hs : s.code = 59) :
    ∃ st', parametersList builder st = some (true, st') ∧ st'.tokens.rest = s :: r := by
  simp only [parametersList]
  rcases hw with hw | ⟨o, c, hw, ho, hc⟩
  · subst hw
    have hm : Mismatch (descend builder st .ParametersList).1.tables s 40 .zero := by
      by_contra hcon
      have := (not_mismatch_char _ _ _ (by decide)).mp hcon
      rw [hs] at this
      exact absurd this (by decide)
    have hl := leaf_mismatch_optional (descend builder st .ParametersList).1
      (descend builder st .ParametersList).2 40 .zero s r h hm
    simp only [hl]
    exact ⟨_, rfl, h⟩
  · subst hw
    obtain ⟨st1, h1, hr1⟩ := leaf_accept (descend builder st .ParametersList).1
      (descend builder st .ParametersList).2 40 .zero false o (c :: s :: r) h
      ((not_mismatch_char _ _ _ (by decide)).mpr ho)
    simp only [h1, andThen_done, declarationsList, andThen]
    obtain ⟨st2, h2, hr2⟩ := leaf_accept (descend builder st .ParametersList).1
      (addEmpty (descend (descend builder st .ParametersList).1 st1 .DeclarationsList).1
        (descend (descend builder st .ParametersList).1 st1 .DeclarationsList).2) 41 .zero
      true c (s :: r) hr1 ((not_mismatch_char _ _ _ (by decide)).mpr hc)
    exact ⟨st2, by rw [h2], hr2⟩

theorem declarations_complete (kw : KeywordCodes) (builder : Builder) (st : ParseState)
    (decl : List Token) (b : Token) (r : List Token) (hkw : kw.LABEL_CODE ≠ kw.BEGIN_CODE)
    (hd : decl = [] ∨ LabelPart kw builder.tables decl)
    (h : st.tokens.rest = decl ++ b :: r) (hb : IsKeyword builder.tables kw.BEGIN_CODE b) :
    ∃ st', declarations kw builder st = some (true, st') ∧ st'.tokens.rest = b :: r := by
  simp only [declarations, andThen_done]
  rcases hd with hd | hd
  · subst hd
    exact labelDeclarations_complete_empty kw (descend builder st .Declarations).1
      (descend builder st .Declarations).2 b r hkw h hb
  · exact labelDeclarations_complete_labels kw (descend builder st .Declarations).1
      (descend builder st .Declarations).2 decl (b :: r) hd h

theorem block_complete (kw : KeywordCodes) (builder : Builder) (st : ParseState)
    (w r : List Token) (hkw : kw.LABEL_CODE ≠ kw.BEGIN_CODE)
    (hw : BlockSentence kw builder.tables w) (h : st.tokens.rest = w ++ r) :
    ∃ st', block kw builder st = some (true, st') ∧ st'.tokens.rest = r := by
  obtain ⟨decl, b, e, hweq, hd, hb, he⟩ := hw
  subst hweq
  simp only [block, andThen_done]
  have h' : st.tokens.rest = decl ++ b :: e :: r := by rw [h]; simp
  obtain ⟨st1, h1, hr1⟩ := declarations_complete kw (descend builder st .Block).1
    (descend builder st .Block).2 decl b (e :: r) hkw hd h' hb
  simp only [h1, andThen]
  obtain ⟨st2, h2, hr2⟩ := leaf_accept (descend builder st .Block).1 st1 kw.BEGIN_CODE
    .keywordsBegin true b (e :: r) hr1 ((not_mismatch_keyword _ _ _).mpr hb)
  simp only [h2, statementsList]
  obtain ⟨st3, h3, hr3⟩ := leaf_accept (descend builder st .Block).1
    (addEmpty (descend (descend builder st .Block).1 st2 .StatementsList).1
      (descend (descend builder st .Block).1 st2 .StatementsList).2) kw.END_CODE
    .keywordsBegin true e r hr2 ((not_mismatch_keyword _ _ _).mpr he)
  exact ⟨st3, by rw [h3], hr3⟩

theorem program_complete (kw : KeywordCodes) (builder : Builder) (st : ParseState)
    (w r : List Token) (hpp : kw.PROGRAM_CODE ≠ kw.PROCEDURE_CODE)
    (hkw : kw.LABEL_CODE ≠ kw.BEGIN_CODE)
    (hw : Sentence kw builder.tables w) (h : st.tokens.rest = w ++ r) :
    ∃ st', program kw builder st = some (true, st') ∧ st'.tokens.rest = r := by
  simp only [program]
  rcases hw with ⟨p, x, s, blk, d, hweq, hp, hx, hs, hblk, hd⟩ |
    ⟨p, x, par, s, blk, s2, hweq, hp, hx, hpar, hs, hblk, hs2⟩
  · subst hweq
    have h' : st.tokens.rest = p :: x :: s :: (blk ++ d :: r) := by rw [h]; simp
    obtain ⟨st1, h1, hr1⟩ := leaf_accept (descend builder st .Program).1
      (descend builder st .Program).2 kw.PROGRAM_CODE .keywordsBegin false p
      (x :: s :: (blk ++ d :: r)) h' ((not_mismatch_keyword _ _ _).mpr hp)
    simp only [h1, andThen_done]
    obtain ⟨st2, h2, hr2⟩ := procedureIdentifier_complete (descend builder st .Program).1 st1 x
      (s :: (blk ++ d :: r)) hr1 hx
    simp only [h2, andThen]
    obtain ⟨st3, h3, hr3⟩ := leaf_accept (descend builder st .Program).1 st2 59 .zero true s
      (blk ++ d :: r) hr2 ((not_mismatch_char _ _ _ (by decide)).mpr hs)
    simp only [h3]
    obtain ⟨st4, h4, hr4⟩ := block_complete kw (descend builder st .Program).1 st3 blk (d :: r)
      hkw hblk hr3
    simp only [h4]
    obtain ⟨st5, h5, hr5⟩ := leaf_accept (descend builder st .Program).1 st4 46 .zero true d r
      hr4 ((not_mismatch_char _ _ _ (by decide)).mpr hd)
    exact ⟨st5, by rw [h5], hr5⟩
  · subst hweq
    have h' : st.tokens.rest = p :: x :: (par ++ s :: (blk ++ s2 :: r)) := by rw [h]; simp
    have hm : Mismatch (descend builder st .Program).1.tables p kw.PROGRAM_CODE
        .keywordsBegin := by
      by_contra hc
      have := ((not_mismatch_keyword _ _ _).mp hc).2
      rw [hp.2] at this
      exact hpp this.symm
    have hl := leaf_mismatch_optional (descend builder st .Program).1
      (descend builder st .Program).2 kw.PROGRAM_CODE .keywordsBegin p _ h' hm
    simp only [hl]
    obtain ⟨st1, h1, hr1⟩ := leaf_accept (descend builder st .Program).1
      (descend builder st .Program).2 kw.PROCEDURE_CODE .keywordsBegin true p
      (x :: (par ++ s :: (blk ++ s2 :: r))) h' ((not_mismatch_keyword _ _ _).mpr hp)
    simp only [h1, andThen_done]
    obtain ⟨st2, h2, hr2⟩ := procedureIdentifier_complete (descend builder st .Program).1 st1 x
      (par ++ s :: (blk ++ s2 :: r)) hr1 hx
    simp only [h2, andThen]
    obtain ⟨st3, h3, hr3⟩ := parametersList_complete (descend builder st .Program).1 st2 par s
      (blk ++ s2 :: r) hpar hr2 hs
    simp only [h3]
    obtain ⟨st4, h4, hr4⟩ := leaf_accept (descend builder st .Program).1 st3 59 .zero true s
      (blk ++ s2 :: r) hr3 ((not_mismatch_char _ _ _ (by decide)).mpr hs)
    simp only [h4]
    obtain ⟨st5, h5, hr5⟩ := block_complete kw (descend builder st .Program).1 st4 blk (s2 :: r)
      hkw hblk hr4
    simp only [h5]
    obtain ⟨st6, h6, hr6⟩ := leaf_accept (descend builder st .Program).1 st5 59 .zero true s2 r
      hr5 ((not_mismatch_char _ _ _ (by decide)).mpr hs2)
    exact ⟨st6, by rw [h6], hr6⟩

/-- C1: started with an empty error sink, `signalProgram` succeeds exactly when
some prefix of the token sequence is a sentence of the grammar: keyword
`PROGRAM`, identifier-range token, `;`, Block, `.`, or keyword `PROCEDURE`,
identifier-range token, optionally `(` `)`, `;`, Block, `;`, where Block is
optionally (keyword `LABEL`, constant-range token, zero or more (`,`
constant-range token), `;`), keyword `BEGIN`, keyword `END`. The keyword codes,
whose definitions are not at hand, are taken to tell `PROGRAM` from
`PROCEDURE` and `LABEL` from `BEGIN`. -/
theorem signalProgram_succeeds_iff (kw : KeywordCodes) (tables : Tables)
    (hpp : kw.PROGRAM_CODE ≠ kw.PROCEDURE_CODE) (hkw : kw.LABEL_CODE ≠ kw.BEGIN_CODE) :
    (∃ st, signalProgram kw ⟨[], tables⟩ (initialState tables []) = some (true, st)) ↔
      ∃ w, w <+: tables.tokens ∧ Sentence kw tables w := by
  constructor
  · rintro ⟨st, h⟩
    simp only [signalProgram, andThen_done] at h
    obtain ⟨w, hw, hrest⟩ := program_sound kw _ _ _ h
    exact ⟨w, ⟨st.tokens.rest, hrest.symm⟩, hw⟩
  · rintro ⟨w, ⟨r, hr⟩, hw⟩
    simp only [signalProgram, andThen_done]
    obtain ⟨st, h, _⟩ := program_complete kw ⟨[], tables⟩
      { initialState tables [] with
        tree := (initialState tables []).tree.modifyAt (Node.setLabel (.tag .SignalProgram)) [] }
      w r hpp hkw hw hr.symm
    exact ⟨st, h⟩

theorem signalProgram_succeeds_iff_witness :
    ∃ st, signalProgram lab1Codes
        ⟨[], demoTables [tokPROGRAM, tokX, tokSemi, tokBEGIN, tokEND, tokDot, tokX]⟩
        (initialState (demoTables [tokPROGRAM, tokX, tokSemi, tokBEGIN, tokEND, tokDot, tokX]) [])
        = some (true, st) :=
  (signalProgram_succeeds_iff lab1Codes
    (demoTables [tokPROGRAM, tokX, tokSemi, tokBEGIN, tokEND, tokDot, tokX])
    (by decide) (by decide)).mpr
    ⟨[tokPROGRAM, tokX, tokSemi, tokBEGIN, tokEND, tokDot], ⟨[tokX], rfl⟩,
      Or.inl ⟨tokPROGRAM, tokX, tokSemi, [tokBEGIN, tokEND], tokDot, rfl,
        ⟨by decide, by decide⟩, by unfold IsIdentifier; decide, by decide,
        ⟨[], tokBEGIN, tokEND, rfl, Or.inl rfl, ⟨by decide, by decide⟩,
          ⟨by decide, by decide⟩⟩,
        by decide⟩⟩

/-! ## The cursor only moves forward -/

theorem Steps.refl (st : ParseState) : Steps st st :=
  ⟨[], [], rfl, rfl, by simp⟩

theorem Steps.of_eq {st st' : ParseState} (ht : st'.tokens = st.tokens)
    (he : st'.errors = st.errors) : Steps st st' :=
  ⟨[], [], by rw [ht]; rfl, by rw [ht]; rfl, by simp [he]⟩

theorem Steps.trans {a b c : ParseState} (h1 : Steps a b) (h2 : Steps b c) : Steps a c := by
  obtain ⟨c1, m1, hr1, hi1, he1⟩ := h1
  obtain ⟨c2, m2, hr2, hi2, he2⟩ := h2
  refine ⟨c1 ++ c2, m1 ++ m2, ?_, ?_, ?_⟩
  · rw [hr1, hr2, List.append_assoc]
  · rw [hi2, hi1, List.length_append, Nat.add_assoc]
  · rw [he2, he1, List.append_assoc]

theorem Steps.index_le {a b : ParseState} (h : Steps a b) : a.tokens.index ≤ b.tokens.index := by
  obtain ⟨c, m, _, hi, _⟩ := h
  omega

theorem Steps.errors_eq {a b c : ParseState} (h1 : Steps a b) (h2 : Steps b c)
    (h : c.errors = a.errors) : b.errors = a.errors := by
  obtain ⟨c1, m1, _, _, he1⟩ := h1
  obtain ⟨c2, m2, _, _, he2⟩ := h2
  rw [he2, he1, List.append_assoc] at h
  have hnil : m1 ++ m2 = [] := by
    have := congrArg List.length h
    simp only [List.length_append] at this
    apply List.eq_nil_of_length_eq_zero
    simp only [List.length_append]
    omega
  have hm1 : m1 = [] := (List.append_eq_nil.mp hnil).1
  rw [he1, hm1, List.append_nil]

theorem advances_of_eq {st st1 : ParseState} {r : Option (Bool × ParseState)}
    (ht : st1.tokens = st.tokens) (he : st1.errors = st.errors) (h : Advances st1 r) :
    Advances st r :=
  fun ok st' hr => (Steps.of_eq ht he).trans (h ok st' hr)

theorem advances_descend (builder : Builder) (st : ParseState) (t : Tags)
    (r : Option (Bool × ParseState)) (h : Advances (descend builder st t).2 r) :
    Advances st r :=
  advances_of_eq rfl rfl h

theorem advances_andThen {st : ParseState} {r : Option (Bool × ParseState)}
    {k : ParseState → Option (Bool × ParseState)} (hr : Advances st r)
    (hk : ∀ st1, Advances st1 (k st1)) : Advances st (andThen r k) := by
  intro ok st' h
  rcases andThen_eq_some r k ok st' h with ⟨h1, _⟩ | ⟨st1, h1, h2⟩
  · exact hr false st' h1
  · exact (hr true st1 h1).trans (hk st1 ok st' h2)

theorem advances_done {st st1 : ParseState} (h : Steps st st1) :
    Advances st (some (true, st1)) := by
  intro ok st' hr
  simp only [Option.some.injEq, Prod.mk.injEq] at hr
  rw [← hr.2]; exact h

theorem leaf_steps (builder : Builder) (st : ParseState) (code : Int) (range : Range)
    (required : Bool) : Steps st (leaf builder st code range required).2 := by
  obtain ⟨tree, ⟨i, rest⟩, errs⟩ := st
  cases rest with
  | nil => rw [leaf_nil]; exact ⟨[], [eofDiagnostic], rfl, rfl, rfl⟩
  | cons t rest =>
    rw [leaf_cons]
    by_cases hm : Mismatch builder.tables t code range
    · cases required with
      | false => simp only [hm, if_true, Bool.false_eq_true, if_false]; exact Steps.refl _
      | true => simp only [hm, if_true]; exact ⟨[], [_], rfl, rfl, rfl⟩
    · simp only [hm, if_false]
      exact ⟨[t], [], rfl, rfl, by simp⟩

theorem leaf_advances (builder : Builder) (st : ParseState) (code : Int) (range : Range)
    (required : Bool) : Advances st (some (leaf builder st code range required)) := by
  intro ok st' hr
  simp only [Option.some.injEq] at hr
  have := leaf_steps builder st code range required
  rw [hr] at this
  exact this

theorem identidier_advances (builder : Builder) (st : ParseState) :
    Advances st (identidier builder st) := by
  simp only [identidier, descend_tokens]
  cases hrest : st.tokens.rest with
  | nil => intro ok st' h; simp at h
  | cons t rest => exact advances_of_eq rfl rfl (leaf_advances _ _ _ _ _)

theorem unsignedInteger_advances (builder : Builder) (st : ParseState) :
    Advances st (unsignedInteger builder st) := by
  simp only [unsignedInteger, descend_tokens]
  cases hrest : st.tokens.rest with
  | nil => intro ok st' h; simp at h
  | cons t rest => exact advances_of_eq rfl rfl (leaf_advances _ _ _ _ _)

theorem procedureIdentifier_advances (builder : Builder) (st : ParseState) :
    Advances st (procedureIdentifier builder st) := by
  simp only [procedureIdentifier, andThen_done]
  exact advances_of_eq rfl rfl (identidier_advances _ _)

theorem declarationsList_advances (builder : Builder) (st : ParseState) :
    Advances st (declarationsList builder st) :=
  advances_done (Steps.of_eq rfl rfl)

theorem statementsList_advances (builder : Builder) (st : ParseState) :
    Advances st (statementsList builder st) :=
  advances_done (Steps.of_eq rfl rfl)

theorem optional_advances (b b2 : Builder) (st : ParseState) (code : Int) (range : Range)
    (k : ParseState → Option (Bool × ParseState)) (hk : ∀ st1, Advances st1 (k st1)) :
    Advances st (match leaf b st code range false with
      | (false, st1) => some (true, addEmpty b2 st1)
      | (true, st1) => k st1) := by
  have hs := leaf_steps b st code range false
  rcases hl : leaf b st code range false with ⟨ok, st1⟩
  rw [hl] at hs
  cases ok with
  | false => exact advances_done (hs.trans (Steps.of_eq rfl rfl))
  | true => exact fun ok st' h => hs.trans (hk st1 ok st' h)

theorem labelsListAux_advances :
    ∀ (fuel : Nat) (builder : Builder) (st : ParseState),
      Advances st (labelsListAux fuel builder st) := by
  intro fuel
  induction fuel with
  | zero => intro builder st ok st' h; simp [labelsListAux] at h
  | succ fuel ih =>
    intro builder st
    simp only [labelsListAux]
    refine advances_descend builder st .LabelsList _ ?_
    refine optional_advances _ _ _ _ _ _ ?_
    intro st1
    exact advances_andThen (unsignedInteger_advances _ _)
      (fun st2 => advances_andThen (ih _ _) (fun st3 => advances_done (Steps.refl _)))

theorem labelsList_advances (builder : Builder) (st : ParseState) :
    Advances st (labelsList builder st) :=
  labelsListAux_advances _ builder st

theorem labelDeclarations_advances (kw : KeywordCodes) (builder : Builder) (st : ParseState) :
    Advances st (labelDeclarations kw builder st) := by
  simp only [labelDeclarations]
  refine advances_descend builder st .LabelDeclarations _ ?_
  refine optional_advances _ _ _ _ _ _ ?_
  intro st1
  exact advances_andThen (unsignedInteger_advances _ _)
    (fun st2 => advances_andThen (labelsList_advances _ _)
      (fun st3 => advances_andThen (leaf_advances _ _ _ _ _)
        (fun st4 => advances_done (Steps.refl _))))

theorem declarations_advances (kw : KeywordCodes) (builder : Builder) (st : ParseState) :
    Advances st (declarations kw builder st) := by
  simp only [declarations, andThen_done]
  exact advances_of_eq rfl rfl (labelDeclarations_advances kw _ _)

theorem parametersList_advances (builder : Builder) (st : ParseState) :
    Advances st (parametersList builder st) := by
  simp only [parametersList]
  refine advances_descend builder st .ParametersList _ ?_
  refine optional_advances _ _ _ _ _ _ ?_
  intro st1
  exact advances_andThen (declarationsList_advances _ _)
    (fun st2 => advances_andThen (leaf_advances _ _ _ _ _)
      (fun st3 => advances_done (Steps.refl _)))

theorem block_advances (kw : KeywordCodes) (builder : Builder) (st : ParseState) :
    Advances st (block kw builder st) := by
  simp only [block]
  refine advances_descend builder st .Block _ ?_
  exact advances_andThen (declarations_advances kw _ _)
    (fun st1 => advances_andThen (leaf_advances _ _ _ _ _)
      (fun st2 => advances_andThen (statementsList_advances _ _)
        (fun st3 => advances_andThen (leaf_advances _ _ _ _ _)
          (fun st4 => advances_done (Steps.refl _)))))

theorem program_advances (kw : KeywordCodes) (builder : Builder) (st : ParseState) :
    Advances st (program kw builder st) := by
  simp only [program]
  refine advances_descend builder st .Program _ ?_
  have hs := leaf_steps (descend builder st .Program).1 (descend builder st .Program).2
    kw.PROGRAM_CODE .keywordsBegin false
  rcases hl : leaf (descend builder st .Program).1 (descend builder st .Program).2
    kw.PROGRAM_CODE .keywordsBegin false with ⟨ok, st1⟩
  rw [hl] at hs
  cases ok with
  | true =>
    intro ok st' h
    refine hs.trans (advances_andThen (procedureIdentifier_advances _ _)
      (fun st2 => advances_andThen (leaf_advances _ _ _ _ _)
        (fun st3 => advances_andThen (block_advances kw _ _)
          (fun st4 => advances_andThen (leaf_advances _ _ _ _ _)
            (fun st5 => advances_done (Steps.refl _))))) ok st' h)
  | false =>
    simp only []
    have hs2 := leaf_steps (descend builder st .Program).1 st1 kw.PROCEDURE_CODE
      .keywordsBegin true
    rcases hl2 : leaf (descend builder st .Program).1 st1 kw.PROCEDURE_CODE .keywordsBegin true
      with ⟨ok2, st2⟩
    rw [hl2] at hs2
    cases ok2 with
    | false =>
      intro ok st' h
      simp only [Option.some.injEq, Prod.mk.injEq] at h
      rw [← h.2]; exact hs.trans hs2
    | true =>
      intro ok st' h
      refine (hs.trans hs2).trans (advances_andThen (procedureIdentifier_advances _ _)
        (fun st3 => advances_andThen (parametersList_advances _ _)
          (fun st4 => advances_andThen (leaf_advances _ _ _ _ _)
            (fun st5 => advances_andThen (block_advances kw _ _)
              (fun st6 => advances_andThen (leaf_advances _ _ _ _ _)
                (fun st7 => advances_done (Steps.refl _)))))) ok st' h)

theorem signalProgram_advances (kw : KeywordCodes) (builder : Builder) (st : ParseState) :
    Advances st (signalProgram kw builder st) := by
  simp only [signalProgram, andThen_done]
  exact advances_of_eq rfl rfl (program_advances kw _ _)

theorem leaf_true_iff_of_cons (builder : Builder) (st : ParseState) (code : Int) (range : Range)
    (required : Bool) (token : Token) (rest : List Token)
    (hrest : st.tokens.rest = token :: rest) :
    (leaf builder st code range required).1 = true ↔
      ((range ≠ .zero → tokenRangeOf builder.tables token = range ∧ token.code = code) ∧
       (range = .zero → code = -1 ∨ token.code = code)) := by
  rw [← mismatch_iff]
  by_cases hm : Mismatch builder.tables token code range
  · have hfalse : (leaf builder st code range required).1 = false := by
      cases required with
      | false => rw [leaf_mismatch_optional builder st code range token rest hrest hm]
      | true => rw [leaf_mismatch_required builder st code range token rest hrest hm]
    rw [hfalse]
    simp [hm]
  · rw [leaf_match builder st code range required token rest hrest hm]
    simp [hm]

/-! ## Reading the current token at the end of the stream -/

/-- C11, on the code: `identidier` and `unsignedInteger` evaluate
`tokens.token->get()->code()` before `leaf` compares the cursor with the end of
the stream, so at the end of the stream they read a token that is not there:
the runs on `PROGRAM` alone and on `PROGRAM x ; LABEL` have no defined outcome,
and no EOF diagnostic is reached. -/
theorem identifier_read_at_end :
    identidier ⟨[], demoTables []⟩ ⟨freshTree, ⟨0, []⟩, []⟩ = none ∧
    unsignedInteger ⟨[], demoTables []⟩ ⟨freshTree, ⟨0, []⟩, []⟩ = none ∧
    analyze lab1Codes (demoTables [tokPROGRAM]) [] = none ∧
    analyze lab1Codes (demoTables [tokPROGRAM, tokX, tokSemi, tokLABEL]) [] = none :=
  ⟨rfl, rfl, rfl, rfl⟩

/-! ## Tokens the table does not know -/

/-- C15, as the code has it: for a token whose code has no entry in the table,
`leaf` takes the range to be none and goes on: without a range constraint it
succeeds exactly when the expected code is the wildcard -1 or is the token's
code, and with a range constraint it mismatches (it fails, and `Mismatch`
holds). -/
theorem leaf_unknown_code (builder : Builder) (st : ParseState) (token : Token)
    (rest : List Token) (code : Int) (required : Bool)
    (hrest : st.tokens.rest = token :: rest)
    (hunknown : builder.tables.getRange token.code = none) :
    tokenRangeOf builder.tables token = .zero ∧
    ((leaf builder st code .zero required).1 = true ↔ (code = -1 ∨ token.code = code)) ∧
    ∀ range, range ≠ .zero →
      Mismatch builder.tables token code range ∧
      (leaf builder st code range required).1 = false := by
  have hz : tokenRangeOf builder.tables token = .zero := by
    simp [tokenRangeOf, hunknown]
  refine ⟨hz, ?_, ?_⟩
  · rw [leaf_true_iff_of_cons builder st code .zero required token rest hrest]
    simp
  · intro range hr
    have hm : Mismatch builder.tables token code range :=
      Or.inl ⟨hr, Or.inl (by rw [hz]; exact fun h => hr h.symm)⟩
    refine ⟨hm, ?_⟩
    cases required with
    | false => rw [leaf_mismatch_optional builder st code range token rest hrest hm]
    | true => rw [leaf_mismatch_required builder st code range token rest hrest hm]

theorem leaf_unknown_code_witness :
    tokenRangeOf (demoTables []) tokSemi = .zero ∧
    ((leaf ⟨[], demoTables []⟩ ⟨freshTree, ⟨2, [tokSemi, tokBEGIN]⟩, []⟩ 59 .zero true).1 = true ↔
      ((59 : Int) = -1 ∨ tokSemi.code = 59)) ∧
    ∀ range, range ≠ .zero →
      Mismatch (demoTables []) tokSemi 59 range ∧
      (leaf ⟨[], demoTables []⟩ ⟨freshTree, ⟨2, [tokSemi, tokBEGIN]⟩, []⟩ 59 range true).1
        = false :=
  leaf_unknown_code ⟨[], demoTables []⟩ ⟨freshTree, ⟨2, [tokSemi, tokBEGIN]⟩, []⟩ tokSemi
    [tokBEGIN] 59 true rfl rfl

/-- C15, as stated, fails: with the wildcard -1 as expected code and no range
constraint, `leaf` succeeds on a token the table does not know although the
token's code, 59, is not -1. -/
theorem leaf_wildcard_on_unknown_code :
    (demoTables []).getRange tokSemi.code = none ∧
    (leaf ⟨[], demoTables []⟩ ⟨freshTree, ⟨2, [tokSemi, tokBEGIN]⟩, []⟩ (-1) .zero true).1 = true ∧
    tokSemi.code ≠ -1 := by
  decide

/-! ## The effect of `leaf` and of the one-token productions on the tree -/

theorem nodeAt_leafNode (l : Label) (j : Nat) (r : List Nat) :
    (Node.mk l []).nodeAt (j :: r) = none := by
  simp [Node.nodeAt]

theorem pushChild_frame (l : Label) :
    ∀ (p : List Nat) (T n : Node), T.nodeAt p = some n →
      ∀ q, q ≠ p → q ≠ p ++ [n.children.length] →
        ((T.modifyAt (Node.pushChild l) p).nodeAt q).map Node.shape
          = (T.nodeAt q).map Node.shape := by
  intro p
  induction p with
  | nil =>
    intro T n h q hq1 hq2
    simp only [Node.nodeAt, Option.some.injEq] at h
    subst h
    obtain ⟨lbl, cs⟩ := T
    cases q with
    | nil => exact absurd rfl hq1
    | cons j r =>
      simp only [Node.modifyAt, Node.pushChild, Node.label, Node.children, Node.nodeAt]
      rcases Nat.lt_trichotomy j cs.length with hj | hj | hj
      · rw [List.getElem?_append_left hj]
      · subst hj
        cases r with
        | nil => exact absurd rfl hq2
        | cons j' r' =>
          simp [Node.nodeAt]
      · rw [List.getElem?_eq_none (by simp; omega), List.getElem?_eq_none (by omega)]
  | cons i p ih =>
    intro T n h q hq1 hq2
    obtain ⟨lbl, cs⟩ := T
    simp only [Node.nodeAt] at h
    cases hc : cs[i]? with
    | none => simp [hc] at h
    | some c =>
      simp only [hc] at h
      have hi : i < cs.length := by
        by_contra hlt
        rw [List.getElem?_eq_none (by omega)] at hc
        exact absurd hc (by simp)
      simp only [Node.modifyAt, hc]
      cases q with
      | nil => simp [Node.nodeAt, Node.shape, Node.label, Node.children]
      | cons j r =>
        simp only [Node.nodeAt]
        by_cases hji : j = i
        · subst hji
          rw [List.getElem?_set_self hi, hc]
          simp only []
          refine ih c n h r ?_ ?_
          · intro hr; exact hq1 (by rw [hr])
          · intro hr; exact hq2 (by rw [hr]; rfl)
        · rw [List.getElem?_set_ne (Ne.symm hji)]

theorem nodeAt_modifyAt_self (f : Node → Node) (p : List Nat) (T n : Node)
    (h : T.nodeAt p = some n) : (T.modifyAt f p).nodeAt p = some (f n) := by
  have := nodeAt_append_modifyAt f [] p T n h
  simpa [Node.nodeAt] using this

theorem leaf_root (tables : Tables) (n : Node) (i : Nat) (t : Token) (rest : List Token)
    (errors : List String) (code : Int) (range : Range) (required : Bool)
    (hm : ¬ Mismatch tables t code range) :
    leaf ⟨[], tables⟩ ⟨n, ⟨i, t :: rest⟩, errors⟩ code range required
      = (true, ⟨.mk n.label (n.children ++ [.mk (.code t.code) []]), ⟨i + 1, rest⟩, errors⟩) := by
  rw [leaf_cons]
  simp [hm, addChild, Node.nodeAt, Node.modifyAt, Node.pushChild]

/-- C17: a successful `leaf`, called with the builder at a node `n` of the
tree, gives `n` exactly one new last child, a terminal with the code of the
matched token; every other node keeps its label and its number of children;
the cursor moves on by one token; the error sink is what it was. -/
theorem leaf_success_effect (builder : Builder) (st st' : ParseState) (code : Int)
    (range : Range) (required : Bool) (n : Node)
    (hn : st.tree.nodeAt builder.node = some n)
    (h : leaf builder st code range required = (true, st')) :
    ∃ token rest, st.tokens.rest = token :: rest ∧
      st'.tree.nodeAt builder.node
        = some (.mk n.label (n.children ++ [.mk (.code token.code) []])) ∧
      (∀ q, q ≠ builder.node → q ≠ builder.node ++ [n.children.length] →
        (st'.tree.nodeAt q).map Node.shape = (st.tree.nodeAt q).map Node.shape) ∧
      st'.tokens = ⟨st.tokens.index + 1, rest⟩ ∧
      st'.errors = st.errors := by
  obtain ⟨tree, ⟨i, rest⟩, errs⟩ := st
  cases rest with
  | nil => rw [leaf_nil] at h; simp at h
  | cons t rest =>
    rw [leaf_cons] at h
    by_cases hm : Mismatch builder.tables t code range
    · cases required <;> simp [hm] at h
    · simp only [hm, if_false, Prod.mk.injEq, true_and] at h
      subst h
      simp only at hn
      refine ⟨t, rest, rfl, ?_, ?_, rfl, rfl⟩
      · simp only [addChild, hn]
        rw [nodeAt_modifyAt_self _ _ _ n hn]
        rfl
      · intro q hq1 hq2
        simp only [addChild, hn]
        exact pushChild_frame _ builder.node tree n hn q hq1 hq2

theorem leaf_success_effect_witness :
    ∃ token rest, (⟨.mk (.tag .Block) [.mk (.tag .Declarations) []],
        ⟨3, [tokBEGIN, tokEND]⟩, []⟩ : ParseState).tokens.rest = token :: rest ∧
      (Node.mk (.tag .Block) [.mk (.tag .Declarations) [], .mk (.code 303) []]).nodeAt
          (⟨[], demoTables []⟩ : Builder).node
        = some (.mk (Node.mk (.tag .Block) [.mk (.tag .Declarations) []]).label
            ((Node.mk (.tag .Block) [.mk (.tag .Declarations) []]).children
              ++ [.mk (.code token.code) []])) ∧
      (∀ q, q ≠ (⟨[], demoTables []⟩ : Builder).node →
        q ≠ (⟨[], demoTables []⟩ : Builder).node
          ++ [(Node.mk (.tag .Block) [.mk (.tag .Declarations) []]).children.length] →
        ((Node.mk (.tag .Block) [.mk (.tag .Declarations) [], .mk (.code 303) []]).nodeAt q).map
            Node.shape
          = ((Node.mk (.tag .Block) [.mk (.tag .Declarations) []]).nodeAt q).map Node.shape) ∧
      (⟨4, [tokEND]⟩ : TokenIterator) = ⟨3 + 1, rest⟩ ∧
      ([] : List String) = [] :=
  leaf_success_effect ⟨[], demoTables []⟩
    ⟨.mk (.tag .Block) [.mk (.tag .Declarations) []], ⟨3, [tokBEGIN, tokEND]⟩, []⟩
    ⟨.mk (.tag .Block) [.mk (.tag .Declarations) [], .mk (.code 303) []], ⟨4, [tokEND]⟩, []⟩
    303 .keywordsBegin true (.mk (.tag .Block) [.mk (.tag .Declarations) []]) rfl rfl

theorem identidier_root (tables : Tables) (n : Node) (i : Nat) (t : Token) (rest : List Token)
    (errors : List String) (ht : tokenRangeOf tables t = .identifiersBegin) :
    identidier ⟨[], tables⟩ ⟨n, ⟨i, t :: rest⟩, errors⟩
      = some (true, ⟨.mk n.label (n.children ++
          [.mk (.tag .Identifier) [.mk (.code t.code) []]]), ⟨i + 1, rest⟩, errors⟩) := by
  obtain ⟨lbl, cs⟩ := n
  simp [identidier, descend, leaf_cons, Mismatch, ht, addChild, Node.nodeAt, Node.modifyAt,
    Node.pushChild, Node.children, Node.label, set_concat_length]

theorem unsignedInteger_root (tables : Tables) (n : Node) (i : Nat) (t : Token)
    (rest : List Token) (errors : List String)
    (ht : tokenRangeOf tables t = .constantsBegin) :
    unsignedInteger ⟨[], tables⟩ ⟨n, ⟨i, t :: rest⟩, errors⟩
      = some (true, ⟨.mk n.label (n.children ++
          [.mk (.tag .UnsignedInteger) [.mk (.code t.code) []]]), ⟨i + 1, rest⟩, errors⟩) := by
  obtain ⟨lbl, cs⟩ := n
  simp [unsignedInteger, descend, leaf_cons, Mismatch, ht, addChild, Node.nodeAt,
    Node.modifyAt, Node.pushChild, Node.children, Node.label, set_concat_length]

theorem identidier_at (builder : Builder) (tree n : Node) (i : Nat) (t : Token)
    (rest : List Token) (errors : List String) (hn : tree.nodeAt builder.node = some n)
    (ht : tokenRangeOf builder.tables t = .identifiersBegin) :
    identidier builder ⟨tree, ⟨i, t :: rest⟩, errors⟩
      = some (true, ⟨tree.modifyAt (fun _ => .mk n.label (n.children ++
          [.mk (.tag .Identifier) [.mk (.code t.code) []]])) builder.node,
          ⟨i + 1, rest⟩, errors⟩) := by
  have hsome : (tree.nodeAt builder.node).isSome = true := by rw [hn]; rfl
  have hloc := identidier_graft tree builder.node builder ⟨[], builder.tables⟩
    ⟨n, ⟨i, t :: rest⟩, errors⟩ (by simp) rfl hsome
  rw [graftState_self tree n builder.node _ _ hn, identidier_root builder.tables n i t rest
    errors ht] at hloc
  exact hloc

theorem unsignedInteger_at (builder : Builder) (tree n : Node) (i : Nat) (t : Token)
    (rest : List Token) (errors : List String) (hn : tree.nodeAt builder.node = some n)
    (ht : tokenRangeOf builder.tables t = .constantsBegin) :
    unsignedInteger builder ⟨tree, ⟨i, t :: rest⟩, errors⟩
      = some (true, ⟨tree.modifyAt (fun _ => .mk n.label (n.children ++
          [.mk (.tag .UnsignedInteger) [.mk (.code t.code) []]])) builder.node,
          ⟨i + 1, rest⟩, errors⟩) := by
  have hsome : (tree.nodeAt builder.node).isSome = true := by rw [hn]; rfl
  have hloc := unsignedInteger_graft tree builder.node builder ⟨[], builder.tables⟩
    ⟨n, ⟨i, t :: rest⟩, errors⟩ (by simp) rfl hsome
  rw [graftState_self tree n builder.node _ _ hn, unsignedInteger_root builder.tables n i t
    rest errors ht] at hloc
  exact hloc

theorem identidier_fails (builder : Builder) (st : ParseState) (t : Token) (rest : List Token)
    (hrest : st.tokens.rest = t :: rest)
    (ht : tokenRangeOf builder.tables t ≠ .identifiersBegin) :
    ∃ st', identidier builder st = some (false, st') := by
  simp only [identidier, descend_tokens, hrest]
  have hm : Mismatch (descend builder st .Identifier).1.tables t t.code .identifiersBegin :=
    Or.inl ⟨by decide, Or.inl ht⟩
  exact ⟨_, by rw [leaf_mismatch_required (descend builder st .Identifier).1
    (descend builder st .Identifier).2 t.code .identifiersBegin t rest hrest hm]⟩

theorem unsignedInteger_fails (builder : Builder) (st : ParseState) (t : Token)
    (rest : List Token) (hrest : st.tokens.rest = t :: rest)
    (ht : tokenRangeOf builder.tables t ≠ .constantsBegin) :
    ∃ st', unsignedInteger builder st = some (false, st') := by
  simp only [unsignedInteger, descend_tokens, hrest]
  have hm : Mismatch (descend builder st .UnsignedInteger).1.tables t t.code
      .constantsBegin := Or.inl ⟨by decide, Or.inl ht⟩
  exact ⟨_, by rw [leaf_mismatch_required (descend builder st .UnsignedInteger).1
    (descend builder st .UnsignedInteger).2 t.code .constantsBegin t rest hrest hm]⟩

/-- C16: on a stream that is not at its end, with the builder at a node `n` of
the tree, `identidier` succeeds exactly when the table puts the current token
in the identifier range, and `unsignedInteger` exactly when it puts it in the
constant range, whatever the code of the token is. On success `n` has one new
last child, labelled Identifier (resp. UnsignedInteger), whose only child is a
terminal with the code of that token, the cursor has moved on by one, and
nothing else has changed. -/
theorem identifier_and_integer (builder : Builder) (tree n : Node) (i : Nat) (t : Token)
    (rest : List Token) (errors : List String)
    (hn : tree.nodeAt builder.node = some n) :
    ((∃ st', identidier builder ⟨tree, ⟨i, t :: rest⟩, errors⟩ = some (true, st')) ↔
      tokenRangeOf builder.tables t = .identifiersBegin) ∧
    (∀ st', identidier builder ⟨tree, ⟨i, t :: rest⟩, errors⟩ = some (true, st') →
      st' = ⟨tree.modifyAt (fun _ => .mk n.label (n.children ++
          [.mk (.tag .Identifier) [.mk (.code t.code) []]])) builder.node,
        ⟨i + 1, rest⟩, errors⟩) ∧
    ((∃ st', unsignedInteger builder ⟨tree, ⟨i, t :: rest⟩, errors⟩ = some (true, st')) ↔
      tokenRangeOf builder.tables t = .constantsBegin) ∧
    (∀ st', unsignedInteger builder ⟨tree, ⟨i, t :: rest⟩, errors⟩ = some (true, st') →
      st' = ⟨tree.modifyAt (fun _ => .mk n.label (n.children ++
          [.mk (.tag .UnsignedInteger) [.mk (.code t.code) []]])) builder.node,
        ⟨i + 1, rest⟩, errors⟩) := by
  have hid : ∀ st', identidier builder ⟨tree, ⟨i, t :: rest⟩, errors⟩ = some (true, st') →
      tokenRangeOf builder.tables t = .identifiersBegin := by
    intro st' h
    by_contra hc
    obtain ⟨st2, h2⟩ := identidier_fails builder ⟨tree, ⟨i, t :: rest⟩, errors⟩ t rest rfl hc
    rw [h2] at h
    simp at h
  have hui : ∀ st', unsignedInteger builder ⟨tree, ⟨i, t :: rest⟩, errors⟩ = some (true, st') →
      tokenRangeOf builder.tables t = .constantsBegin := by
    intro st' h
    by_contra hc
    obtain ⟨st2, h2⟩ := unsignedInteger_fails builder ⟨tree, ⟨i, t :: rest⟩, errors⟩ t rest
      rfl hc
    rw [h2] at h
    simp at h
  refine ⟨⟨fun ⟨st', h⟩ => hid st' h, fun ht => ⟨_, identidier_at builder tree n i t rest
    errors hn ht⟩⟩, ?_, ⟨fun ⟨st', h⟩ => hui st' h, fun ht => ⟨_, unsignedInteger_at builder
    tree n i t rest errors hn ht⟩⟩, ?_⟩
  · intro st' h
    rw [identidier_at builder tree n i t rest errors hn (hid st' h)] at h
    simp only [Option.some.injEq, Prod.mk.injEq, true_and] at h
    exact h.symm
  · intro st' h
    rw [unsignedInteger_at builder tree n i t rest errors hn (hui st' h)] at h
    simp only [Option.some.injEq, Prod.mk.injEq, true_and] at h
    exact h.symm

theorem identifier_and_integer_witness :
    ((∃ st', identidier ⟨[], demoTables []⟩ ⟨freshTree, ⟨1, tokX :: [tokSemi]⟩, []⟩
        = some (true, st')) ↔
      tokenRangeOf (demoTables []) tokX = .identifiersBegin) ∧
    ((∃ st', unsignedInteger ⟨[], demoTables []⟩ ⟨freshTree, ⟨1, tokX :: [tokSemi]⟩, []⟩
        = some (true, st')) ↔
      tokenRangeOf (demoTables []) tokX = .constantsBegin) :=
  ⟨(identifier_and_integer ⟨[], demoTables []⟩ freshTree freshTree 1 tokX [tokSemi] [] rfl).1,
   (identifier_and_integer ⟨[], demoTables []⟩ freshTree freshTree 1 tokX [tokSemi] []
      rfl).2.2.1⟩

/-! ## Success and the error sink -/

/-- C19: when analysis starts with an empty error sink, `signalProgram` returns
true exactly when the sink is still empty afterwards: a run that fails has
written a diagnostic, and a run that has written one (be it through a `leaf`
that was not required, at the end of the stream) fails. -/
theorem success_iff_sink_empty (kw : KeywordCodes) (tables : Tables) (ok : Bool)
    (st : ParseState)
    (h : signalProgram kw ⟨[], tables⟩ (initialState tables []) = some (ok, st)) :
    ok = true ↔ st.errors = [] := by
  have hc := signalProgram_endsClean kw ⟨[], tables⟩ (initialState tables []) [] rfl ok st h
  constructor
  · exact hc.1
  · intro he
    cases ok with
    | true => rfl
    | false =>
      rcases hc.2 rfl with ⟨t, rest, x, _, hx⟩ | ⟨_, hx | hx⟩ <;>
        rw [he] at hx <;> simp at hx

theorem success_iff_sink_empty_witness :
    false = true ↔ [eofDiagnostic, eofDiagnostic] = ([] : List String) :=
  success_iff_sink_empty lab1Codes (demoTables []) false
    ⟨.mk (.tag .SignalProgram) [.mk (.tag .Program) []], ⟨0, []⟩,
      [eofDiagnostic, eofDiagnostic]⟩ rfl

/-! ## Termination -/

theorem labelsList_none_iff (tables : Tables) :
    ∀ (rest : List Token) (builder : Builder) (tree : Node) (i : Nat) (errors : List String),
      builder.tables = tables →
      (labelsList builder ⟨tree, ⟨i, rest⟩, errors⟩ = none ↔
        ∃ w c, LabelsTail tables w ∧ rest = w ++ [c] ∧ c.code = 44)
  | [], builder, tree, i, errors, _ => by
    rw [labelsList_unfold]
    simp [descend, leaf_nil]
  | [t], builder, tree, i, errors, htb => by
    rw [labelsList_unfold]
    simp only [descend, leaf_cons]
    by_cases hm : Mismatch builder.tables t 44 .zero
    · have hc : t.code ≠ 44 := fun hc => ((not_mismatch_char _ _ _ (by decide)).mpr hc) hm
      simp only [hm, if_true, Bool.false_eq_true, if_false]
      refine ⟨fun h => by simp at h, ?_⟩
      rintro ⟨w, c, hw, hrest, hcc⟩
      exfalso
      cases w with
      | nil =>
        simp only [List.nil_append, List.cons.injEq, and_true] at hrest
        exact hc (by rw [hrest]; exact hcc)
      | cons a w => simp at hrest
    · have hc : t.code = 44 := (not_mismatch_char _ _ _ (by decide)).mp hm
      simp only [hm, if_false, unsignedInteger, descend, andThen, true_iff]
      exact ⟨[], t, trivial, rfl, hc⟩
  | t :: n :: rest, builder, tree, i, errors, htb => by
    rw [labelsList_unfold]
    simp only [descend, leaf_cons]
    by_cases hm : Mismatch builder.tables t 44 .zero
    · have hc : t.code ≠ 44 := fun hc => ((not_mismatch_char _ _ _ (by decide)).mpr hc) hm
      simp only [hm, if_true, Bool.false_eq_true, if_false]
      refine ⟨fun h => by simp at h, ?_⟩
      rintro ⟨w, c, hw, hrest, hcc⟩
      exfalso
      match w, hw, hrest with
      | [], _, hrest => simp at hrest
      | [_], hw, _ => exact hw
      | a :: b :: w, hw, hrest =>
        simp only [List.cons_append, List.cons.injEq] at hrest
        exact hc (by rw [hrest.1]; exact hw.1)
    · have hc : t.code = 44 := (not_mismatch_char _ _ _ (by decide)).mp hm
      simp only [hm, if_false, unsignedInteger, descend, leaf_cons]
      by_cases hm2 : Mismatch builder.tables n n.code .constantsBegin
      · have hn : ¬ IsConstant tables n := by
          rw [← htb]
          exact fun hn => ((not_mismatch_constant _ _).mpr hn) hm2
        simp only [hm2, if_true, andThen]
        refine ⟨fun h => by simp at h, ?_⟩
        rintro ⟨w, c, hw, hrest, hcc⟩
        exfalso
        match w, hw, hrest with
        | [], _, hrest => simp at hrest
        | [_], hw, _ => exact hw
        | a :: b :: w, hw, hrest =>
          simp only [List.cons_append, List.cons.injEq] at hrest
          exact hn (by rw [hrest.2.1]; exact hw.2.1)
      · have hn : IsConstant tables n := by
          rw [← htb]
          exact (not_mismatch_constant _ _).mp hm2
        simp only [hm2, if_false, andThen_done]
        refine Iff.trans (labelsList_none_iff tables rest _ _ _ _ htb) ?_
        constructor
        · rintro ⟨w, c, hw, hrest, hcc⟩
          exact ⟨t :: n :: w, c, ⟨hc, hn, hw⟩, by rw [hrest]; rfl, hcc⟩
        · rintro ⟨w, c, hw, hrest, hcc⟩
          match w, hw, hrest with
          | [], _, hrest => simp at hrest
          | [_], hw, _ => exact absurd hw (by simp [LabelsTail])
          | a :: b :: w, hw, hrest =>
            simp only [List.cons_append, List.cons.injEq] at hrest
            exact ⟨w, c, hw.2.2, hrest.2.2, hcc⟩

/-- C13: `labelsList`, the only production that calls itself, is defined on
every state: it obeys the recursion equation of lines 191-209, any fuel above
the number of remaining tokens gives the same outcome, and it is without a
defined outcome only when the stream ends right after a `,` (where
`unsignedInteger` reads a token that is not there). The recursive call is
reached only after `leaf` has passed a `,` and `unsignedInteger` a further
token, so two tokens fewer remain at it. Every other production is a finite
composition of these, so analysis ends on every token sequence. -/
theorem labelsList_terminates (builder : Builder) (st : ParseState) :
    (labelsList builder st =
      (let d := descend builder st .LabelsList
       match leaf d.1 d.2 44 .zero false with
       | (false, st) => some (true, addEmpty d.1 st)
       | (true, st) =>
         andThen (unsignedInteger d.1 st) fun st =>
         andThen (labelsList d.1 st) fun st =>
         some (true, st))) ∧
    (∀ fuel, st.tokens.rest.length < fuel →
      labelsListAux fuel builder st = labelsList builder st) ∧
    (∀ st1 st2,
      leaf (descend builder st .LabelsList).1 (descend builder st .LabelsList).2 44 .zero false
        = (true, st1) →
      unsignedInteger (descend builder st .LabelsList).1 st1 = some (true, st2) →
      st2.tokens.rest.length + 2 = st.tokens.rest.length) ∧
    (labelsList builder st = none ↔
      ∃ w c, LabelsTail builder.tables w ∧ st.tokens.rest = w ++ [c] ∧ c.code = 44) := by
  refine ⟨labelsList_unfold builder st, ?_, ?_, ?_⟩
  · intro fuel hfuel
    exact labelsListAux_fuel st.tokens.rest.length fuel (st.tokens.rest.length + 1) builder st
      (Nat.le_refl _) hfuel (Nat.lt_succ_self _)
  · intro st1 st2 h1 h2
    obtain ⟨t, ht, _⟩ := leaf_true_inv _ _ _ _ _ _ h1
    obtain ⟨n, hn, _⟩ := unsignedInteger_sound _ _ _ h2
    rw [descend_tokens] at ht
    rw [ht, hn]
    simp
  · obtain ⟨tree, ⟨i, rest⟩, errors⟩ := st
    exact labelsList_none_iff builder.tables rest builder tree i errors rfl

/-- The analysis of a finite token sequence ends with an outcome whenever no
token is read at the end of the stream: on `LABEL 10 , 20 ;` the run of
`labelsList` from the `,` on returns. -/
theorem labelsList_returns_sample :
    (labelsList ⟨[], demoTables []⟩
      ⟨freshTree, ⟨5, [tokComma, tok20, tokSemi2, tokBEGIN, tokEND]⟩, []⟩).isSome = true := by
  rfl

/-! ## The tree along a run -/

theorem terminalsOfList_append (as bs : List Node) :
    terminalsOfList (as ++ bs) = terminalsOfList as ++ terminalsOfList bs := by
  induction as with
  | nil => simp [terminalsOfList]
  | cons a as ih => simp [terminalsOfList, ih]

theorem modifyAt_modifyAt_const (g : Node → Node) (N T : Node) (p : List Nat) :
    (T.modifyAt (fun _ => N) p).modifyAt g p = T.modifyAt (fun _ => g N) p := by
  have := modifyAt_append_modifyAt g [] N p T
  simpa [Node.modifyAt] using this

theorem GrownNode.toGrown {p : List Nat} {t : Tags} {st st' : ParseState}
    (h : GrownNode p t st st') : Grown p st st' := by
  obtain ⟨cs, consumed, hg, ht⟩ := h
  refine ⟨_, consumed, hg, ?_⟩
  simp [terminalsOfList, Node.terminals, ht]

theorem Grown.same {p : List Nat} {st : ParseState} (h : (st.tree.nodeAt p).isSome = true) :
    Grown p st st := by
  obtain ⟨n, hn⟩ := Option.isSome_iff_exists.mp h
  refine ⟨[], [], ⟨n, hn, ?_, rfl, rfl⟩, rfl⟩
  obtain ⟨l, cs⟩ := n
  simp only [Node.label, Node.children, List.append_nil]
  exact (modifyAt_self p st.tree _ hn).symm

theorem Grown.of_same {p : List Nat} {st st' : ParseState}
    (h : (st.tree.nodeAt p).isSome = true) (htree : st'.tree = st.tree)
    (htok : st'.tokens = st.tokens) : Grown p st st' := by
  obtain ⟨new, consumed, ⟨n, hn, h1, h2, h3⟩, h4⟩ := Grown.same h
  exact ⟨new, consumed, ⟨n, hn, by rw [htree]; exact h1, by rw [htok]; exact h2,
    by rw [htok]; exact h3⟩, h4⟩

theorem Grown.valid {p : List Nat} {st st' : ParseState} (h : Grown p st st') :
    (st'.tree.nodeAt p).isSome = true := by
  obtain ⟨new, consumed, ⟨n, hn, h1, _, _⟩, _⟩ := h
  rw [h1, nodeAt_modifyAt_self _ p st.tree n hn]
  rfl

theorem Grown.andThen {p : List Nat} {a b c : ParseState} (h1 : Grown p a b)
    (h2 : Grown p b c) : Grown p a c := by
  obtain ⟨new1, c1, ⟨n, hn, ht1, hr1, hi1⟩, hc1⟩ := h1
  obtain ⟨new2, c2, ⟨n1, hn1, ht2, hr2, hi2⟩, hc2⟩ := h2
  rw [ht1, nodeAt_modifyAt_self _ p a.tree n hn] at hn1
  simp only [Option.some.injEq] at hn1
  subst hn1
  refine ⟨new1 ++ new2, c1 ++ c2, ⟨n, hn, ?_, ?_, ?_⟩, ?_⟩
  · rw [ht2, ht1, modifyAt_modifyAt_const]
    simp [Node.label, Node.children, List.append_assoc]
  · rw [hr1, hr2, List.append_assoc]
  · rw [hi2, hi1, List.length_append, Nat.add_assoc]
  · rw [terminalsOfList_append, hc1, hc2, List.map_append]

theorem leaf_grown (builder : Builder) (st : ParseState) (code : Int) (range : Range)
    (required : Bool) (h : (st.tree.nodeAt builder.node).isSome = true) :
    Grown builder.node st (leaf builder st code range required).2 := by
  obtain ⟨tree, ⟨i, rest⟩, errs⟩ := st
  cases rest with
  | nil => rw [leaf_nil]; exact Grown.of_same h rfl rfl
  | cons t rest =>
    rw [leaf_cons]
    by_cases hm : Mismatch builder.tables t code range
    · cases required with
      | false =>
        simp only [hm, if_true, Bool.false_eq_true, if_false]
        exact Grown.of_same h rfl rfl
      | true =>
        simp only [hm, if_true]
        exact Grown.of_same h rfl rfl
    · simp only [hm, if_false]
      obtain ⟨n, hn⟩ := Option.isSome_iff_exists.mp h
      simp only at hn
      refine ⟨[.mk (.code t.code) []], [t], ⟨n, hn, ?_, rfl, rfl⟩, ?_⟩
      · simp only [addChild, hn]
        exact modifyAt_congr_at _ builder.node tree n hn
      · simp [terminalsOfList, Node.terminals]

theorem addEmpty_grown (builder : Builder) (st : ParseState)
    (h : (st.tree.nodeAt builder.node).isSome = true) :
    Grown builder.node st (addEmpty builder st) := by
  obtain ⟨n, hn⟩ := Option.isSome_iff_exists.mp h
  refine ⟨[.mk (.tag .Empty) []], [], ⟨n, hn, ?_, rfl, rfl⟩, ?_⟩
  · simp only [addEmpty, addChild, hn]
    exact modifyAt_congr_at _ builder.node st.tree n hn
  · simp [terminalsOfList, Node.terminals]

theorem descend_valid (builder : Builder) (st : ParseState) (t : Tags)
    (h : (st.tree.nodeAt builder.node).isSome = true) :
    ((descend builder st t).2.tree.nodeAt (descend builder st t).1.node).isSome = true := by
  obtain ⟨n, hn⟩ := Option.isSome_iff_exists.mp h
  simp only [descend, addChild, hn]
  rw [nodeAt_append_modifyAt _ _ builder.node st.tree n hn]
  obtain ⟨l, cs⟩ := n
  simp [Node.pushChild, Node.nodeAt, Node.children]

theorem grownNode_of_descend (builder : Builder) (st st' : ParseState) (t : Tags)
    (h : (st.tree.nodeAt builder.node).isSome = true)
    (hg : Grown (descend builder st t).1.node (descend builder st t).2 st') :
    GrownNode builder.node t st st' := by
  obtain ⟨n, hn⟩ := Option.isSome_iff_exists.mp h
  obtain ⟨new, consumed, ⟨m, hm, ht, hr, hi⟩, hc⟩ := hg
  have hd1 : (descend builder st t).1.node = builder.node ++ [n.children.length] := by
    simp [descend, addChild, hn]
  have hd2 : (descend builder st t).2.tree
      = st.tree.modifyAt (fun _ => .mk n.label (n.children ++ [.mk (.tag t) []]))
          builder.node := by
    simp only [descend, addChild, hn]
    exact modifyAt_congr_at _ builder.node st.tree n hn
  rw [hd1, hd2] at hm ht
  rw [nodeAt_append_modifyAt _ _ builder.node st.tree n hn] at hm
  simp only [Node.nodeAt, List.getElem?_concat_length] at hm
  simp only [Option.some.injEq] at hm
  subst hm
  rw [modifyAt_append_modifyAt] at ht
  refine ⟨new, consumed, ⟨n, hn, ?_, hr, hi⟩, hc⟩
  rw [ht]
  simp [Node.modifyAt, Node.label, Node.children, set_concat_length]

theorem grows_andThen {p : List Nat} {st : ParseState} {r : Option (Bool × ParseState)}
    {k : ParseState → Option (Bool × ParseState)} (hr : Grows p st r)
    (hk : ∀ st1, Grows p st1 (k st1)) : Grows p st (andThen r k) := by
  intro hv ok st' h
  rcases andThen_eq_some r k ok st' h with ⟨h1, _⟩ | ⟨st1, h1, h2⟩
  · exact hr hv false st' h1
  · have hg := hr hv true st1 h1
    exact hg.andThen (hk st1 hg.valid ok st' h2)

theorem grows_done {p : List Nat} {st : ParseState} : Grows p st (some (true, st)) := by
  intro hv ok st' hr
  simp only [Option.some.injEq, Prod.mk.injEq] at hr
  rw [← hr.2]; exact Grown.same hv

theorem leaf_grows (builder : Builder) (st : ParseState) (code : Int) (range : Range)
    (required : Bool) :
    Grows builder.node st (some (leaf builder st code range required)) := by
  intro hv ok st' hr
  simp only [Option.some.injEq] at hr
  have := leaf_grown builder st code range required hv
  rw [hr] at this
  exact this

theorem GrowsNode.toGrows {p : List Nat} {t : Tags} {st : ParseState}
    {r : Option (Bool × ParseState)} (h : GrowsNode p t st r) : Grows p st r :=
  fun hv ok st' hr => (h hv ok st' hr).toGrown

theorem growsNode_of_descend (builder : Builder) (st : ParseState) (t : Tags)
    (r : Option (Bool × ParseState))
    (h : Grows (descend builder st t).1.node (descend builder st t).2 r) :
    GrowsNode builder.node t st r :=
  fun hv ok st' hr =>
    grownNode_of_descend builder st st' t hv (h (descend_valid builder st t hv) ok st' hr)

theorem optional_grows (b : Builder) (st : ParseState) (code : Int) (range : Range)
    (k : ParseState → Option (Bool × ParseState)) (hk : ∀ st1, Grows b.node st1 (k st1)) :
    Grows b.node st (match leaf b st code range false with
      | (false, st1) => some (true, addEmpty b st1)
      | (true, st1) => k st1) := by
  intro hv
  have hs := leaf_grown b st code range false hv
  rcases hl : leaf b st code range false with ⟨ok, st1⟩
  rw [hl] at hs
  cases ok with
  | false =>
    intro ok st' h
    simp only [Option.some.injEq, Prod.mk.injEq] at h
    rw [← h.2]
    exact hs.andThen (addEmpty_grown b st1 hs.valid)
  | true => exact fun ok st' h => hs.andThen (hk st1 hs.valid ok st' h)

theorem identidier_growsNode (builder : Builder) (st : ParseState) :
    GrowsNode builder.node .Identifier st (identidier builder st) := by
  simp only [identidier]
  refine growsNode_of_descend builder st .Identifier _ ?_
  rw [descend_tokens]
  cases hrest : st.tokens.rest with
  | nil => intro _ ok st' h; simp at h
  | cons t rest => exact leaf_grows _ _ _ _ _

theorem unsignedInteger_growsNode (builder : Builder) (st : ParseState) :
    GrowsNode builder.node .UnsignedInteger st (unsignedInteger builder st) := by
  simp only [unsignedInteger]
  refine growsNode_of_descend builder st .UnsignedInteger _ ?_
  rw [descend_tokens]
  cases hrest : st.tokens.rest with
  | nil => intro _ ok st' h; simp at h
  | cons t rest => exact leaf_grows _ _ _ _ _

theorem procedureIdentifier_growsNode (builder : Builder) (st : ParseState) :
    GrowsNode builder.node .ProcedureIdentifier st (procedureIdentifier builder st) := by
  simp only [procedureIdentifier, andThen_done]
  exact growsNode_of_descend builder st .ProcedureIdentifier _
    (identidier_growsNode _ _).toGrows

theorem declarationsList_growsNode (builder : Builder) (st : ParseState) :
    GrowsNode builder.node .DeclarationsList st (declarationsList builder st) := by
  simp only [declarationsList]
  refine growsNode_of_descend builder st .DeclarationsList _ ?_
  intro hv ok st' h
  simp only [Option.some.injEq, Prod.mk.injEq] at h
  rw [← h.2]
  exact addEmpty_grown _ _ hv

theorem statementsList_growsNode (builder : Builder) (st : ParseState) :
    GrowsNode builder.node .StatementsList st (statementsList builder st) := by
  simp only [statementsList]
  refine growsNode_of_descend builder st .StatementsList _ ?_
  intro hv ok st' h
  simp only [Option.some.injEq, Prod.mk.injEq] at h
  rw [← h.2]
  exact addEmpty_grown _ _ hv

theorem labelsListAux_growsNode :
    ∀ (fuel : Nat) (builder : Builder) (st : ParseState),
      GrowsNode builder.node .LabelsList st (labelsListAux fuel builder st) := by
  intro fuel
  induction fuel with
  | zero => intro builder st _ ok st' h; simp [labelsListAux] at h
  | succ fuel ih =>
    intro builder st
    simp only [labelsListAux]
    refine growsNode_of_descend builder st .LabelsList _ ?_
    refine optional_grows _ _ _ _ _ ?_
    intro st1
    exact grows_andThen (unsignedInteger_growsNode _ _).toGrows
      (fun st2 => grows_andThen (ih _ _).toGrows (fun st3 => grows_done))

theorem labelsList_growsNode (builder : Builder) (st : ParseState) :
    GrowsNode builder.node .LabelsList st (labelsList builder st) :=
  labelsListAux_growsNode _ builder st

theorem labelDeclarations_growsNode (kw : KeywordCodes) (builder : Builder)
    (st : ParseState) :
    GrowsNode builder.node .LabelDeclarations st (labelDeclarations kw builder st) := by
  simp only [labelDeclarations]
  refine growsNode_of_descend builder st .LabelDeclarations _ ?_
  refine optional_grows _ _ _ _ _ ?_
  intro st1
  exact grows_andThen (unsignedInteger_growsNode _ _).toGrows
    (fun st2 => grows_andThen (labelsList_growsNode _ _).toGrows
      (fun st3 => grows_andThen (leaf_grows _ _ _ _ _) (fun st4 => grows_done)))

theorem declarations_growsNode (kw : KeywordCodes) (builder : Builder) (st : ParseState) :
    GrowsNode builder.node .Declarations st (declarations kw builder st) := by
  simp only [declarations, andThen_done]
  exact growsNode_of_descend builder st .Declarations _
    (labelDeclarations_growsNode kw _ _).toGrows

theorem parametersList_growsNode (builder : Builder) (st : ParseState) :
    GrowsNode builder.node .ParametersList st (parametersList builder st) := by
  simp only [parametersList]
  refine growsNode_of_descend builder st .ParametersList _ ?_
  refine optional_grows _ _ _ _ _ ?_
  intro st1
  exact grows_andThen (declarationsList_growsNode _ _).toGrows
    (fun st2 => grows_andThen (leaf_grows _ _ _ _ _) (fun st3 => grows_done))

theorem block_growsNode (kw : KeywordCodes) (builder : Builder) (st : ParseState) :
    GrowsNode builder.node .Block st (block kw builder st) := by
  simp only [block]
  refine growsNode_of_descend builder st .Block _ ?_
  exact grows_andThen (declarations_growsNode kw _ _).toGrows
    (fun st1 => grows_andThen (leaf_grows _ _ _ _ _)
      (fun st2 => grows_andThen (statementsList_growsNode _ _).toGrows
        (fun st3 => grows_andThen (leaf_grows _ _ _ _ _) (fun st4 => grows_done))))

theorem program_growsNode (kw : KeywordCodes) (builder : Builder) (st : ParseState) :
    GrowsNode builder.node .Program st (program kw builder st) := by
  simp only [program]
  refine growsNode_of_descend builder st .Program _ ?_
  intro hv
  have hs := leaf_grown (descend builder st .Program).1 (descend builder st .Program).2
    kw.PROGRAM_CODE .keywordsBegin false hv
  rcases hl : leaf (descend builder st .Program).1 (descend builder st .Program).2
    kw.PROGRAM_CODE .keywordsBegin false with ⟨ok, st1⟩
  rw [hl] at hs
  cases ok with
  | true =>
    intro ok st' h
    refine hs.andThen (grows_andThen (procedureIdentifier_growsNode _ _).toGrows
      (fun st2 => grows_andThen (leaf_grows _ _ _ _ _)
        (fun st3 => grows_andThen (block_growsNode kw _ _).toGrows
          (fun st4 => grows_andThen (leaf_grows _ _ _ _ _)
            (fun st5 => grows_done)))) hs.valid ok st' h)
  | false =>
    simp only []
    have hs2 := leaf_grown (descend builder st .Program).1 st1 kw.PROCEDURE_CODE
      .keywordsBegin true hs.valid
    rcases hl2 : leaf (descend builder st .Program).1 st1 kw.PROCEDURE_CODE .keywordsBegin true
      with ⟨ok2, st2⟩
    rw [hl2] at hs2
    cases ok2 with
    | false =>
      intro ok st' h
      simp only [Option.some.injEq, Prod.mk.injEq] at h
      rw [← h.2]; exact hs.andThen hs2
    | true =>
      intro ok st' h
      refine (hs.andThen hs2).andThen (grows_andThen (procedureIdentifier_growsNode _ _).toGrows
        (fun st3 => grows_andThen (parametersList_growsNode _ _).toGrows
          (fun st4 => grows_andThen (leaf_grows _ _ _ _ _)
            (fun st5 => grows_andThen (block_growsNode kw _ _).toGrows
              (fun st6 => grows_andThen (leaf_grows _ _ _ _ _)
                (fun st7 => grows_done))))) (hs.andThen hs2).valid ok st' h)

/-- The run of `analyze` on an empty sink: the root is labelled SignalProgram,
its only child is labelled Program, and the terminals below that child are the
codes of the tokens passed. -/
theorem analyze_ran (kw : KeywordCodes) (tables : Tables) (a : Analysis)
    (h : analyze kw tables [] = some a) :
    ∃ cs, a.tree = .mk (.tag .SignalProgram) [.mk (.tag .Program) cs] ∧
      terminalsOfList cs = (tables.tokens.take a.consumed).map Token.code := by
  simp only [analyze, List.isEmpty_nil, Bool.not_true, Bool.false_eq_true, if_false,
    signalProgram, andThen_done] at h
  cases hp : program kw ⟨[], tables⟩
      { initialState tables [] with
        tree := (initialState tables []).tree.modifyAt (Node.setLabel (.tag .SignalProgram)) [] }
    with
  | none => rw [hp] at h; simp at h
  | some r =>
    obtain ⟨ok, st⟩ := r
    rw [hp] at h
    simp only [Option.some.injEq] at h
    subst h
    obtain ⟨cs, consumed, ⟨n, hn, ht, hr, hi⟩, hc⟩ :=
      program_growsNode kw ⟨[], tables⟩ _ rfl ok st hp
    simp only [Node.nodeAt, Option.some.injEq] at hn
    subst hn
    refine ⟨cs, ?_, ?_⟩
    · rw [ht]; rfl
    · simp only [initialState] at hr hi
      rw [hc, hr, hi]
      simp

/-- C18: whether analysis started with an empty sink succeeds or fails, the
terminals of the returned tree, read in depth-first order from left to right
(the placeholders `Empty` and the other tagged nodes carry no code), are the
codes of the tokens passed, that is of the tokens before the final cursor, in
the same order. -/
theorem terminals_are_passed_tokens (kw : KeywordCodes) (tables : Tables) (a : Analysis)
    (h : analyze kw tables [] = some a) :
    a.tree.terminals = (tables.tokens.take a.consumed).map Token.code := by
  obtain ⟨cs, ht, hc⟩ := analyze_ran kw tables a h
  rw [ht]
  simp [Node.terminals, terminalsOfList, hc]

theorem terminals_are_passed_tokens_witness :
    (Node.mk (.tag .SignalProgram) [.mk (.tag .Program) [.mk (.code 301) [],
        .mk (.tag .ProcedureIdentifier) [.mk (.tag .Identifier) [.mk (.code 1001) []]]]]).terminals
      = ((demoTables [tokPROGRAM, tokX, tokBEGIN, tokEND, tokDot]).tokens.take 2).map
          Token.code :=
  terminals_are_passed_tokens lab1Codes (demoTables [tokPROGRAM, tokX, tokBEGIN, tokEND, tokDot])
    ⟨.mk (.tag .SignalProgram) [.mk (.tag .Program) [.mk (.code 301) [],
        .mk (.tag .ProcedureIdentifier) [.mk (.tag .Identifier) [.mk (.code 1001) []]]]],
      [mismatchDiagnostic tokBEGIN "';'"], 2⟩
    rfl

/-! ## Monotonic consumption -/

theorem Steps.index_of_rest {st st' : ParseState} (w : List Token) (h : Steps st st')
    (hw : st.tokens.rest = w ++ st'.tokens.rest) :
    st'.tokens.index = st.tokens.index + w.length := by
  obtain ⟨c, m, hr, hi, _⟩ := h
  rw [hr] at hw
  have := List.append_cancel_right hw
  rw [hi, this]

theorem blockSentence_length (kw : KeywordCodes) (tables : Tables) (w : List Token)
    (h : BlockSentence kw tables w) : 0 < w.length := by
  obtain ⟨decl, b, e, hw, _⟩ := h
  rw [hw]; simp

theorem sentence_length (kw : KeywordCodes) (tables : Tables) (w : List Token)
    (h : Sentence kw tables w) : 0 < w.length := by
  rcases h with ⟨p, x, s, blk, d, hw, _⟩ | ⟨p, x, par, s, blk, s2, hw, _⟩ <;>
    rw [hw] <;> simp

theorem optional_empty (b : Builder) (st st' : ParseState) (code : Int) (range : Range)
    (k : ParseState → Option (Bool × ParseState)) (hk : ∀ st1, Advances st1 (k st1))
    (h : (match leaf b st code range false with
      | (false, st1) => some (true, addEmpty b st1)
      | (true, st1) => k st1) = some (true, st'))
    (hi : st'.tokens.index = st.tokens.index) :
    (leaf b st code range false).1 = false ∧
      st' = addEmpty b (leaf b st code range false).2 := by
  rcases hl : leaf b st code range false with ⟨ok, st1⟩
  rw [hl] at h
  cases ok with
  | false =>
    simp only [Option.some.injEq, Prod.mk.injEq, true_and] at h
    exact ⟨rfl, h.symm⟩
  | true =>
    obtain ⟨_, _, _, hi1, _⟩ := leaf_true_inv _ _ _ _ _ _ hl
    have := (hk st1 true st' h).index_le
    omega

/-- C12: no production moves the cursor back, whatever it returns. A production
that succeeds leaves the cursor where it was only through an alternative that
matches nothing: `leaf`, `identidier`, `unsignedInteger`,
`procedureIdentifier`, `block`, `program` and `signalProgram` move it forward
when they succeed, and when `parametersList`, `labelDeclarations`,
`declarations` or `labelsList` succeeds with the cursor where it was, its `leaf`
that is not required has failed and the outcome is the state with the
placeholder `Empty` added; `declarationsList` and `statementsList` are such
placeholders always. -/
theorem cursor_moves_forward (kw : KeywordCodes) (builder : Builder) (st : ParseState) :
    ((∀ code range required,
        st.tokens.index ≤ (leaf builder st code range required).2.tokens.index) ∧
      ∀ ok st',
        (identidier builder st = some (ok, st') ∨ unsignedInteger builder st = some (ok, st') ∨
         procedureIdentifier builder st = some (ok, st') ∨
         declarationsList builder st = some (ok, st') ∨
         statementsList builder st = some (ok, st') ∨ labelsList builder st = some (ok, st') ∨
         labelDeclarations kw builder st = some (ok, st') ∨
         declarations kw builder st = some (ok, st') ∨
         parametersList builder st = some (ok, st') ∨ block kw builder st = some (ok, st') ∨
         program kw builder st = some (ok, st') ∨
         signalProgram kw builder st = some (ok, st')) →
        st.tokens.index ≤ st'.tokens.index) ∧
    ((∀ code range required st', leaf builder st code range required = (true, st') →
        st'.tokens.index = st.tokens.index + 1) ∧
      ∀ st',
        (identidier builder st = some (true, st') ∨
         unsignedInteger builder st = some (true, st') ∨
         procedureIdentifier builder st = some (true, st') ∨
         block kw builder st = some (true, st') ∨ program kw builder st = some (true, st') ∨
         signalProgram kw builder st = some (true, st')) →
        st.tokens.index < st'.tokens.index) ∧
    (∀ st', st'.tokens.index = st.tokens.index →
      (parametersList builder st = some (true, st') →
        (leaf (descend builder st .ParametersList).1 (descend builder st .ParametersList).2
            40 .zero false).1 = false ∧
        st' = addEmpty (descend builder st .ParametersList).1
          (leaf (descend builder st .ParametersList).1 (descend builder st .ParametersList).2
            40 .zero false).2) ∧
      (labelDeclarations kw builder st = some (true, st') →
        (leaf (descend builder st .LabelDeclarations).1
            (descend builder st .LabelDeclarations).2 kw.LABEL_CODE .keywordsBegin false).1
          = false ∧
        st' = addEmpty (descend builder st .LabelDeclarations).1
          (leaf (descend builder st .LabelDeclarations).1
            (descend builder st .LabelDeclarations).2 kw.LABEL_CODE .keywordsBegin false).2) ∧
      (declarations kw builder st = some (true, st') →
        (leaf (descend (descend builder st .Declarations).1 (descend builder st .Declarations).2
              .LabelDeclarations).1
            (descend (descend builder st .Declarations).1 (descend builder st .Declarations).2
              .LabelDeclarations).2 kw.LABEL_CODE .keywordsBegin false).1 = false ∧
        st' = addEmpty
          (descend (descend builder st .Declarations).1 (descend builder st .Declarations).2
            .LabelDeclarations).1
          (leaf (descend (descend builder st .Declarations).1 (descend builder st .Declarations).2
              .LabelDeclarations).1
            (descend (descend builder st .Declarations).1 (descend builder st .Declarations).2
              .LabelDeclarations).2 kw.LABEL_CODE .keywordsBegin false).2) ∧
      (labelsList builder st = some (true, st') →
        (leaf (descend builder st .LabelsList).1 (descend builder st .LabelsList).2
            44 .zero false).1 = false ∧
        st' = addEmpty (descend builder st .LabelsList).1
          (leaf (descend builder st .LabelsList).1 (descend builder st .LabelsList).2
            44 .zero false).2)) ∧
    (∀ ok st',
      (declarationsList builder st = some (ok, st') →
        ok = true ∧ st' = addEmpty (descend builder st .DeclarationsList).1
          (descend builder st .DeclarationsList).2) ∧
      (statementsList builder st = some (ok, st') →
        ok = true ∧ st' = addEmpty (descend builder st .StatementsList).1
          (descend builder st .StatementsList).2)) := by
  have hlabdecl : ∀ (b : Builder) (s s' : ParseState), s'.tokens.index = s.tokens.index →
      labelDeclarations kw b s = some (true, s') →
      (leaf (descend b s .LabelDeclarations).1 (descend b s .LabelDeclarations).2
          kw.LABEL_CODE .keywordsBegin false).1 = false ∧
      s' = addEmpty (descend b s .LabelDeclarations).1
        (leaf (descend b s .LabelDeclarations).1 (descend b s .LabelDeclarations).2
          kw.LABEL_CODE .keywordsBegin false).2 := by
    intro b s s' hi h
    simp only [labelDeclarations] at h
    refine optional_empty _ _ _ _ _ _ ?_ h hi
    intro st1
    exact advances_andThen (unsignedInteger_advances _ _)
      (fun st2 => advances_andThen (labelsList_advances _ _)
        (fun st3 => advances_andThen (leaf_advances _ _ _ _ _)
          (fun st4 => advances_done (Steps.refl _))))
  refine ⟨⟨?_, ?_⟩, ⟨?_, ?_⟩, ?_, ?_⟩
  · intro code range required
    exact (leaf_steps builder st code range required).index_le
  · intro ok st' h
    rcases h with h | h | h | h | h | h | h | h | h | h | h | h
    · exact (identidier_advances _ _ ok st' h).index_le
    · exact (unsignedInteger_advances _ _ ok st' h).index_le
    · exact (procedureIdentifier_advances _ _ ok st' h).index_le
    · exact (declarationsList_advances _ _ ok st' h).index_le
    · exact (statementsList_advances _ _ ok st' h).index_le
    · exact (labelsList_advances _ _ ok st' h).index_le
    · exact (labelDeclarations_advances kw _ _ ok st' h).index_le
    · exact (declarations_advances kw _ _ ok st' h).index_le
    · exact (parametersList_advances _ _ ok st' h).index_le
    · exact (block_advances kw _ _ ok st' h).index_le
    · exact (program_advances kw _ _ ok st' h).index_le
    · exact (signalProgram_advances kw _ _ ok st' h).index_le
  · intro code range required st' h
    obtain ⟨_, _, _, hi, _⟩ := leaf_true_inv _ _ _ _ _ _ h
    exact hi
  · intro st' h
    rcases h with h | h | h | h | h | h
    · obtain ⟨t, ht, _⟩ := identidier_sound _ _ _ h
      have := (identidier_advances _ _ true st' h).index_of_rest [t] ht
      simp only [List.length_singleton] at this
      omega
    · obtain ⟨t, ht, _⟩ := unsignedInteger_sound _ _ _ h
      have := (unsignedInteger_advances _ _ true st' h).index_of_rest [t] ht
      simp only [List.length_singleton] at this
      omega
    · obtain ⟨t, ht, _⟩ := procedureIdentifier_sound _ _ _ h
      have := (procedureIdentifier_advances _ _ true st' h).index_of_rest [t] ht
      simp only [List.length_singleton] at this
      omega
    · obtain ⟨w, hw, ht⟩ := block_sound kw _ _ _ h
      have := (block_advances kw _ _ true st' h).index_of_rest w ht
      have := blockSentence_length kw _ w hw
      omega
    · obtain ⟨w, hw, ht⟩ := program_sound kw _ _ _ h
      have := (program_advances kw _ _ true st' h).index_of_rest w ht
      have := sentence_length kw _ w hw
      omega
    · have hadv := signalProgram_advances kw _ _ true st' h
      simp only [signalProgram, andThen_done] at h
      obtain ⟨w, hw, ht⟩ := program_sound kw _ _ _ h
      have := hadv.index_of_rest w ht
      have := sentence_length kw _ w hw
      omega
  · intro st' hi
    refine ⟨?_, hlabdecl builder st st' hi, ?_, ?_⟩
    · intro h
      simp only [parametersList] at h
      refine optional_empty _ _ _ _ _ _ ?_ h hi
      intro st1
      exact advances_andThen (declarationsList_advances _ _)
        (fun st2 => advances_andThen (leaf_advances _ _ _ _ _)
          (fun st3 => advances_done (Steps.refl _)))
    · intro h
      simp only [declarations, andThen_done] at h
      exact hlabdecl _ _ st' hi h
    · intro h
      rw [labelsList_unfold] at h
      refine optional_empty _ _ _ _ _ _ ?_ h hi
      intro st1
      exact advances_andThen (unsignedInteger_advances _ _)
        (fun st2 => advances_andThen (labelsList_advances _ _)
          (fun st3 => advances_done (Steps.refl _)))
  · intro ok st'
    constructor
    · intro h
      simp only [declarationsList, Option.some.injEq, Prod.mk.injEq] at h
      exact ⟨h.1.symm, h.2.symm⟩
    · intro h
      simp only [statementsList, Option.some.injEq, Prod.mk.injEq] at h
      exact ⟨h.1.symm, h.2.symm⟩

/-! ## Tokens after a complete program -/

theorem leaf_extend (s : List Token) (builder : Builder) (st st' : ParseState) (code : Int)
    (range : Range) (required ok : Bool)
    (h : leaf builder st code range required = (ok, st')) (he : st'.errors = st.errors) :
    leaf builder (extend s st) code range required = (ok, extend s st') := by
  obtain ⟨tree, ⟨i, rest⟩, errs⟩ := st
  cases rest with
  | nil =>
    rw [leaf_nil] at h
    simp only [Prod.mk.injEq] at h
    rw [← h.2] at he
    simp at he
  | cons t rest =>
    simp only [extend, List.cons_append]
    rw [leaf_cons] at h ⊢
    by_cases hm : Mismatch builder.tables t code range
    · cases required with
      | false =>
        simp only [hm, if_true, Bool.false_eq_true, if_false, Prod.mk.injEq] at h ⊢
        obtain ⟨h1, h2⟩ := h
        subst h1 h2
        exact ⟨rfl, rfl⟩
      | true =>
        simp only [hm, if_true, Prod.mk.injEq] at h
        rw [← h.2] at he
        simp at he
    · simp only [hm, if_false, Prod.mk.injEq] at h ⊢
      obtain ⟨h1, h2⟩ := h
      subst h1 h2
      exact ⟨rfl, rfl⟩

theorem extends_leaf (s : List Token) (builder : Builder) (st : ParseState) (code : Int)
    (range : Range) (required : Bool) :
    Extends s st.errors (some (leaf builder st code range required))
      (some (leaf builder (extend s st) code range required)) := by
  intro ok st' h he
  simp only [Option.some.injEq] at h
  rw [leaf_extend s builder st st' code range required ok h he]

theorem extends_andThen {s : List Token} {errors : List String} {st : ParseState}
    {r r' : Option (Bool × ParseState)} {k k' : ParseState → Option (Bool × ParseState)}
    (hE : st.errors = errors) (hadv : Advances st r) (hr : Extends s errors r r')
    (hkadv : ∀ st1, Advances st1 (k st1))
    (hk : ∀ st1, st1.errors = errors → Extends s errors (k st1) (k' (extend s st1))) :
    Extends s errors (andThen r k) (andThen r' k') := by
  intro ok st' h he
  rcases andThen_eq_some r k ok st' h with ⟨h1, h2⟩ | ⟨st1, h1, h2⟩
  · subst h2
    rw [hr false st' h1 he]; rfl
  · have he1 : st1.errors = errors := by
      rw [← hE]
      exact Steps.errors_eq (hadv true st1 h1) (hkadv st1 ok st' h2) (by rw [he, hE])
    rw [hr true st1 h1 he1]
    exact hk st1 he1 ok st' h2 he

theorem extends_done {s : List Token} {errors : List String} (st : ParseState) :
    Extends s errors (some (true, st)) (some (true, extend s st)) := by
  intro ok st' h _
  simp only [Option.some.injEq, Prod.mk.injEq] at h
  rw [← h.1, ← h.2]

theorem extends_optional {s : List Token} {errors : List String} (b : Builder)
    (st : ParseState) (code : Int) (range : Range)
    {k k' : ParseState → Option (Bool × ParseState)} (hE : st.errors = errors)
    (hk : ∀ st1, st1.errors = errors → Extends s errors (k st1) (k' (extend s st1))) :
    Extends s errors
      (match leaf b st code range false with
        | (false, st1) => some (true, addEmpty b st1)
        | (true, st1) => k st1)
      (match leaf b (extend s st) code range false with
        | (false, st1) => some (true, addEmpty b st1)
        | (true, st1) => k' st1) := by
  intro ok st' h he
  rcases hl : leaf b st code range false with ⟨ok1, st1⟩
  rw [hl] at h
  cases ok1 with
  | false =>
    simp only [Option.some.injEq, Prod.mk.injEq] at h
    obtain ⟨h1, h2⟩ := h
    subst h1 h2
    rw [leaf_extend s b st st1 code range false false hl (by rw [hE]; exact he)]
    rfl
  | true =>
    have he1 : st1.errors = st.errors := by
      obtain ⟨_, _, _, _, h4⟩ := leaf_true_inv _ _ _ _ _ _ hl
      exact h4
    rw [leaf_extend s b st st1 code range false true hl he1]
    exact hk st1 (by rw [he1, hE]) ok st' h he

theorem extends_leaf' (s : List Token) (builder : Builder) (st : ParseState) (code : Int)
    (range : Range) (required : Bool) (errors : List String) (hE : st.errors = errors) :
    Extends s errors (some (leaf builder st code range required))
      (some (leaf builder (extend s st) code range required)) := by
  subst hE
  exact extends_leaf s builder st code range required

theorem descend_extend (s : List Token) (builder : Builder) (st : ParseState) (t : Tags) :
    descend builder (extend s st) t
      = ((descend builder st t).1, extend s (descend builder st t).2) := rfl

theorem addEmpty_extend (s : List Token) (builder : Builder) (st : ParseState) :
    addEmpty builder (extend s st) = extend s (addEmpty builder st) := rfl

theorem identidier_extends (s : List Token) (builder : Builder) (st : ParseState)
    (errors : List String) (hE : st.errors = errors) :
    Extends s errors (identidier builder st) (identidier builder (extend s st)) := by
  simp only [identidier, descend_extend]
  show Extends s errors
    (match st.tokens.rest with
      | [] => none
      | token :: _ => some (leaf (descend builder st .Identifier).1
          (descend builder st .Identifier).2 token.code .identifiersBegin true))
    (match st.tokens.rest ++ s with
      | [] => none
      | token :: _ => some (leaf (descend builder st .Identifier).1
          (extend s (descend builder st .Identifier).2) token.code .identifiersBegin true))
  cases hrest : st.tokens.rest with
  | nil => intro ok st' h; simp at h
  | cons t rest => exact extends_leaf' s _ _ _ _ _ _ hE

theorem unsignedInteger_extends (s : List Token) (builder : Builder) (st : ParseState)
    (errors : List String) (hE : st.errors = errors) :
    Extends s errors (unsignedInteger builder st) (unsignedInteger builder (extend s st)) := by
  simp only [unsignedInteger, descend_extend]
  show Extends s errors
    (match st.tokens.rest with
      | [] => none
      | token :: _ => some (leaf (descend builder st .UnsignedInteger).1
          (descend builder st .UnsignedInteger).2 token.code .constantsBegin true))
    (match st.tokens.rest ++ s with
      | [] => none
      | token :: _ => some (leaf (descend builder st .UnsignedInteger).1
          (extend s (descend builder st .UnsignedInteger).2) token.code .constantsBegin true))
  cases hrest : st.tokens.rest with
  | nil => intro ok st' h; simp at h
  | cons t rest => exact extends_leaf' s _ _ _ _ _ _ hE

theorem procedureIdentifier_extends (s : List Token) (builder : Builder) (st : ParseState)
    (errors : List String) (hE : st.errors = errors) :
    Extends s errors (procedureIdentifier builder st)
      (procedureIdentifier builder (extend s st)) := by
  simp only [procedureIdentifier, andThen_done, descend_extend]
  exact identidier_extends s _ _ _ hE

theorem declarationsList_extends (s : List Token) (builder : Builder) (st : ParseState)
    (errors : List String) :
    Extends s errors (declarationsList builder st)
      (declarationsList builder (extend s st)) := by
  simp only [declarationsList, descend_extend, addEmpty_extend]
  exact extends_done _

theorem statementsList_extends (s : List Token) (builder : Builder) (st : ParseState)
    (errors : List String) :
    Extends s errors (statementsList builder st)
      (statementsList builder (extend s st)) := by
  simp only [statementsList, descend_extend, addEmpty_extend]
  exact extends_done _

theorem labelsListAux_extends (s : List Token) (errors : List String) :
    ∀ (fuel fuel' : Nat) (builder : Builder) (st : ParseState), fuel ≤ fuel' →
      st.errors = errors →
      Extends s errors (labelsListAux fuel builder st)
        (labelsListAux fuel' builder (extend s st)) := by
  intro fuel
  induction fuel with
  | zero => intro fuel' builder st _ _ ok st' h; simp [labelsListAux] at h
  | succ fuel ih =>
    intro fuel' builder st hle hE
    cases fuel' with
    | zero => exact absurd hle (by omega)
    | succ fuel' =>
      simp only [labelsListAux, descend_extend]
      refine extends_optional _ _ _ _ hE ?_
      intro st1 he1
      refine extends_andThen he1 (unsignedInteger_advances _ _)
        (unsignedInteger_extends s _ _ _ he1) ?_ ?_
      · intro st2
        exact advances_andThen (labelsListAux_advances _ _ _)
          (fun st3 => advances_done (Steps.refl _))
      · intro st2 he2
        simp only [andThen_done]
        exact ih fuel' _ st2 (by omega) he2

theorem labelsList_extends (s : List Token) (builder : Builder) (st : ParseState)
    (errors : List String) (hE : st.errors = errors) :
    Extends s errors (labelsList builder st) (labelsList builder (extend s st)) := by
  simp only [labelsList]
  exact labelsListAux_extends s errors _ _ builder st (by simp [extend]) hE

theorem labelDeclarations_extends (kw : KeywordCodes) (s : List Token) (builder : Builder)
    (st : ParseState) (errors : List String) (hE : st.errors = errors) :
    Extends s errors (labelDeclarations kw builder st)
      (labelDeclarations kw builder (extend s st)) := by
  simp only [labelDeclarations, descend_extend]
  refine extends_optional _ _ _ _ hE ?_
  intro st1 he1
  refine extends_andThen he1 (unsignedInteger_advances _ _)
    (unsignedInteger_extends s _ _ _ he1) ?_ ?_
  · intro st2
    exact advances_andThen (labelsList_advances _ _)
      (fun st3 => advances_andThen (leaf_advances _ _ _ _ _)
        (fun st4 => advances_done (Steps.refl _)))
  · intro st2 he2
    refine extends_andThen he2 (labelsList_advances _ _) (labelsList_extends s _ _ _ he2) ?_ ?_
    · intro st3
      exact advances_andThen (leaf_advances _ _ _ _ _)
        (fun st4 => advances_done (Steps.refl _))
    · intro st3 he3
      simp only [andThen_done]
      exact extends_leaf' s _ _ _ _ _ _ he3

theorem declarations_extends (kw : KeywordCodes) (s : List Token) (builder : Builder)
    (st : ParseState) (errors : List String) (hE : st.errors = errors) :
    Extends s errors (declarations kw builder st)
      (declarations kw builder (extend s st)) := by
  simp only [declarations, andThen_done, descend_extend]
  exact labelDeclarations_extends kw s _ _ _ hE

theorem parametersList_extends (s : List Token) (builder : Builder) (st : ParseState)
    (errors : List String) (hE : st.errors = errors) :
    Extends s errors (parametersList builder st)
      (parametersList builder (extend s st)) := by
  simp only [parametersList, descend_extend]
  refine extends_optional _ _ _ _ hE ?_
  intro st1 he1
  refine extends_andThen he1 (declarationsList_advances _ _)
    (declarationsList_extends s _ _ _) ?_ ?_
  · intro st2
    exact advances_andThen (leaf_advances _ _ _ _ _)
      (fun st3 => advances_done (Steps.refl _))
  · intro st2 he2
    simp only [andThen_done]
    exact extends_leaf' s _ _ _ _ _ _ he2

theorem block_extends (kw : KeywordCodes) (s : List Token) (builder : Builder)
    (st : ParseState) (errors : List String) (hE : st.errors = errors) :
    Extends s errors (block kw builder st) (block kw builder (extend s st)) := by
  simp only [block, descend_extend]
  have hd : (descend builder st .Block).2.errors = errors := hE
  refine extends_andThen hd (declarations_advances kw _ _)
    (declarations_extends kw s _ _ _ hd) ?_ ?_
  · intro st1
    exact advances_andThen (leaf_advances _ _ _ _ _)
      (fun st2 => advances_andThen (statementsList_advances _ _)
        (fun st3 => advances_andThen (leaf_advances _ _ _ _ _)
          (fun st4 => advances_done (Steps.refl _))))
  · intro st1 he1
    refine extends_andThen he1 (leaf_advances _ _ _ _ _)
      (extends_leaf' s _ _ _ _ _ _ he1) ?_ ?_
    · intro st2
      exact advances_andThen (statementsList_advances _ _)
        (fun st3 => advances_andThen (leaf_advances _ _ _ _ _)
          (fun st4 => advances_done (Steps.refl _)))
    · intro st2 he2
      refine extends_andThen he2 (statementsList_advances _ _)
        (statementsList_extends s _ _ _) ?_ ?_
      · intro st3
        exact advances_andThen (leaf_advances _ _ _ _ _)
          (fun st4 => advances_done (Steps.refl _))
      · intro st3 he3
        simp only [andThen_done]
        exact extends_leaf' s _ _ _ _ _ _ he3

theorem program_extends (kw : KeywordCodes) (s : List Token) (builder : Builder)
    (st : ParseState) (errors : List String) (hE : st.errors = errors) :
    Extends s errors (program kw builder st) (program kw builder (extend s st)) := by
  simp only [program, descend_extend]
  intro ok st' h he
  have hs1 := leaf_steps (descend builder st .Program).1 (descend builder st .Program).2
    kw.PROGRAM_CODE .keywordsBegin false
  rcases hl : leaf (descend builder st .Program).1 (descend builder st .Program).2
    kw.PROGRAM_CODE .keywordsBegin false with ⟨ok1, st1⟩
  rw [hl] at h hs1
  cases ok1 with
  | true =>
    have he1 : st1.errors = errors := by
      obtain ⟨_, _, _, _, h4⟩ := leaf_true_inv _ _ _ _ _ _ hl
      rw [h4]; exact hE
    rw [leaf_extend s _ _ st1 _ _ false true hl (by rw [he1]; exact hE.symm)]
    refine extends_andThen he1 (procedureIdentifier_advances _ _)
      (procedureIdentifier_extends s _ _ _ he1) ?_ ?_ ok st' h he
    · intro st2
      exact advances_andThen (leaf_advances _ _ _ _ _)
        (fun st3 => advances_andThen (block_advances kw _ _)
          (fun st4 => advances_andThen (leaf_advances _ _ _ _ _)
            (fun st5 => advances_done (Steps.refl _))))
    · intro st2 he2
      refine extends_andThen he2 (leaf_advances _ _ _ _ _)
        (extends_leaf' s _ _ _ _ _ _ he2) ?_ ?_
      · intro st3
        exact advances_andThen (block_advances kw _ _)
          (fun st4 => advances_andThen (leaf_advances _ _ _ _ _)
            (fun st5 => advances_done (Steps.refl _)))
      · intro st3 he3
        refine extends_andThen he3 (block_advances kw _ _) (block_extends kw s _ _ _ he3) ?_ ?_
        · intro st4
          exact advances_andThen (leaf_advances _ _ _ _ _)
            (fun st5 => advances_done (Steps.refl _))
        · intro st4 he4
          simp only [andThen_done]
          exact extends_leaf' s _ _ _ _ _ _ he4
  | false =>
    simp only [] at h
    have hs2 := leaf_steps (descend builder st .Program).1 st1 kw.PROCEDURE_CODE
      .keywordsBegin true
    rcases hl2 : leaf (descend builder st .Program).1 st1 kw.PROCEDURE_CODE .keywordsBegin true
      with ⟨ok2, st2⟩
    rw [hl2] at h hs2
    have hchain : ∀ st2, Advances st2
        (andThen (procedureIdentifier (descend builder st .Program).1 st2) fun s3 =>
          andThen (parametersList (descend builder st .Program).1 s3) fun s4 =>
          andThen (some (leaf (descend builder st .Program).1 s4 59 .zero true)) fun s5 =>
          andThen (block kw (descend builder st .Program).1 s5) fun s6 =>
          andThen (some (leaf (descend builder st .Program).1 s6 59 .zero true)) fun s7 =>
          some (true, s7)) := by
      intro st2
      exact advances_andThen (procedureIdentifier_advances _ _)
        (fun st3 => advances_andThen (parametersList_advances _ _)
          (fun st4 => advances_andThen (leaf_advances _ _ _ _ _)
            (fun st5 => advances_andThen (block_advances kw _ _)
              (fun st6 => advances_andThen (leaf_advances _ _ _ _ _)
                (fun st7 => advances_done (Steps.refl _))))))
    have hs3 : Steps st2 st' := by
      cases ok2 with
      | false =>
        simp only [Option.some.injEq, Prod.mk.injEq] at h
        rw [← h.2]; exact Steps.refl _
      | true =>
        simp only [] at h
        exact hchain st2 ok st' h
    have hd : (descend builder st .Program).2.errors = errors := hE
    have he2 : st2.errors = errors := by
      rw [← hd]
      exact Steps.errors_eq (hs1.trans hs2) hs3 (by rw [he, hd])
    have he1 : st1.errors = errors := by
      rw [← hd]
      exact Steps.errors_eq hs1 (hs2.trans hs3) (by rw [he, hd])
    rw [leaf_extend s _ _ st1 _ _ false false hl (by rw [he1, hd])]
    simp only []
    rw [leaf_extend s _ _ st2 _ _ true ok2 hl2 (by rw [he2, he1])]
    cases ok2 with
    | false =>
      simp only [Option.some.injEq, Prod.mk.injEq] at h ⊢
      exact ⟨h.1, by rw [h.2]⟩
    | true =>
      simp only [] at h ⊢
      refine extends_andThen he2 (procedureIdentifier_advances _ _)
        (procedureIdentifier_extends s _ _ _ he2) ?_ ?_ ok st' h he
      · intro st3
        exact advances_andThen (parametersList_advances _ _)
          (fun st4 => advances_andThen (leaf_advances _ _ _ _ _)
            (fun st5 => advances_andThen (block_advances kw _ _)
              (fun st6 => advances_andThen (leaf_advances _ _ _ _ _)
                (fun st7 => advances_done (Steps.refl _)))))
      · intro st3 he3
        refine extends_andThen he3 (parametersList_advances _ _)
          (parametersList_extends s _ _ _ he3) ?_ ?_
        · intro st4
          exact advances_andThen (leaf_advances _ _ _ _ _)
            (fun st5 => advances_andThen (block_advances kw _ _)
              (fun st6 => advances_andThen (leaf_advances _ _ _ _ _)
                (fun st7 => advances_done (Steps.refl _))))
        · intro st4 he4
          refine extends_andThen he4 (leaf_advances _ _ _ _ _)
            (extends_leaf' s _ _ _ _ _ _ he4) ?_ ?_
          · intro st5
            exact advances_andThen (block_advances kw _ _)
              (fun st6 => advances_andThen (leaf_advances _ _ _ _ _)
                (fun st7 => advances_done (Steps.refl _)))
          · intro st5 he5
            refine extends_andThen he5 (block_advances kw _ _)
              (block_extends kw s _ _ _ he5) ?_ ?_
            · intro st6
              exact advances_andThen (leaf_advances _ _ _ _ _)
                (fun st7 => advances_done (Steps.refl _))
            · intro st6 he6
              simp only [andThen_done]
              exact extends_leaf' s _ _ _ _ _ _ he6

theorem signalProgram_extends (kw : KeywordCodes) (s : List Token) (builder : Builder)
    (st : ParseState) (errors : List String) (hE : st.errors = errors) :
    Extends s errors (signalProgram kw builder st) (signalProgram kw builder (extend s st)) := by
  simp only [signalProgram, andThen_done]
  exact program_extends kw s builder _ _ hE

theorem leaf_congr {b b' : Builder} (h : SameTables b b') : leaf b = leaf b' := by
  obtain ⟨node, tables⟩ := b
  obtain ⟨node', tables'⟩ := b'
  obtain ⟨h1, h2, h3⟩ := h
  simp only at h1 h2 h3
  subst h1
  funext st code range required
  simp only [leaf, tokenRangeOf, expectedBuff, h2, h3]

theorem descend_congr {b b' : Builder} (h : SameTables b b') (st : ParseState) (t : Tags) :
    (descend b st t).2 = (descend b' st t).2 ∧
      SameTables (descend b st t).1 (descend b' st t).1 := by
  obtain ⟨h1, h2, h3⟩ := h
  refine ⟨by simp only [descend, h1], ?_⟩
  exact ⟨by simp only [descend, h1], h2, h3⟩

theorem addEmpty_congr {b b' : Builder} (h : SameTables b b') : addEmpty b = addEmpty b' := by
  funext st
  simp only [addEmpty, h.1]

theorem identidier_congr {b b' : Builder} (h : SameTables b b') :
    identidier b = identidier b' := by
  funext st
  obtain ⟨hd, hs⟩ := descend_congr h st .Identifier
  simp only [identidier, hd, leaf_congr hs]

theorem unsignedInteger_congr {b b' : Builder} (h : SameTables b b') :
    unsignedInteger b = unsignedInteger b' := by
  funext st
  obtain ⟨hd, hs⟩ := descend_congr h st .UnsignedInteger
  simp only [unsignedInteger, hd, leaf_congr hs]

theorem procedureIdentifier_congr {b b' : Builder} (h : SameTables b b') :
    procedureIdentifier b = procedureIdentifier b' := by
  funext st
  obtain ⟨hd, hs⟩ := descend_congr h st .ProcedureIdentifier
  simp only [procedureIdentifier, hd, identidier_congr hs]

theorem declarationsList_congr {b b' : Builder} (h : SameTables b b') :
    declarationsList b = declarationsList b' := by
  funext st
  obtain ⟨hd, hs⟩ := descend_congr h st .DeclarationsList
  simp only [declarationsList, hd, addEmpty_congr hs]

theorem statementsList_congr {b b' : Builder} (h : SameTables b b') :
    statementsList b = statementsList b' := by
  funext st
  obtain ⟨hd, hs⟩ := descend_congr h st .StatementsList
  simp only [statementsList, hd, addEmpty_congr hs]

theorem labelsListAux_congr (fuel : Nat) :
    ∀ {b b' : Builder}, SameTables b b' → labelsListAux fuel b = labelsListAux fuel b' := by
  induction fuel with
  | zero => intro b b' _; funext st; rfl
  | succ fuel ih =>
    intro b b' h
    funext st
    obtain ⟨hd, hs⟩ := descend_congr h st .LabelsList
    simp only [labelsListAux, hd, leaf_congr hs, addEmpty_congr hs, unsignedInteger_congr hs,
      ih hs]

theorem labelsList_congr {b b' : Builder} (h : SameTables b b') :
    labelsList b = labelsList b' := by
  funext st
  simp only [labelsList, labelsListAux_congr _ h]

theorem labelDeclarations_congr (kw : KeywordCodes) {b b' : Builder} (h : SameTables b b') :
    labelDeclarations kw b = labelDeclarations kw b' := by
  funext st
  obtain ⟨hd, hs⟩ := descend_congr h st .LabelDeclarations
  simp only [labelDeclarations, hd, leaf_congr hs, addEmpty_congr hs, unsignedInteger_congr hs,
    labelsList_congr hs]

theorem declarations_congr (kw : KeywordCodes) {b b' : Builder} (h : SameTables b b') :
    declarations kw b = declarations kw b' := by
  funext st
  obtain ⟨hd, hs⟩ := descend_congr h st .Declarations
  simp only [declarations, hd, labelDeclarations_congr kw hs]

theorem parametersList_congr {b b' : Builder} (h : SameTables b b') :
    parametersList b = parametersList b' := by
  funext st
  obtain ⟨hd, hs⟩ := descend_congr h st .ParametersList
  simp only [parametersList, hd, leaf_congr hs, addEmpty_congr hs, declarationsList_congr hs]

theorem block_congr (kw : KeywordCodes) {b b' : Builder} (h : SameTables b b') :
    block kw b = block kw b' := by
  funext st
  obtain ⟨hd, hs⟩ := descend_congr h st .Block
  simp only [block, hd, leaf_congr hs, declarations_congr kw hs, statementsList_congr hs]

theorem program_congr (kw : KeywordCodes) {b b' : Builder} (h : SameTables b b') :
    program kw b = program kw b' := by
  funext st
  obtain ⟨hd, hs⟩ := descend_congr h st .Program
  simp only [program, hd, leaf_congr hs, procedureIdentifier_congr hs, parametersList_congr hs,
    block_congr kw hs]

theorem signalProgram_congr (kw : KeywordCodes) {b b' : Builder} (h : SameTables b b') :
    signalProgram kw b = signalProgram kw b' := by
  funext st
  simp only [signalProgram, h.1, program_congr kw h]

/-- C20: tokens after a complete program are ignored. When analysis of the
tokens of `tables` succeeds, analysis of these tokens followed by any tokens
`s` succeeds as well, with the same tree, the same final cursor and an empty
error sink, so that `analyze` returns the same for both. -/
theorem trailing_tokens_ignored (kw : KeywordCodes) (tables : Tables) (s : List Token)
    (st : ParseState)
    (h : signalProgram kw ⟨[], tables⟩ (initialState tables []) = some (true, st)) :
    st.errors = [] ∧
    (∃ st', signalProgram kw ⟨[], { tables with tokens := tables.tokens ++ s }⟩
        (initialState { tables with tokens := tables.tokens ++ s } []) = some (true, st') ∧
      st'.tree = st.tree ∧ st'.tokens.index = st.tokens.index ∧ st'.errors = []) ∧
    analyze kw { tables with tokens := tables.tokens ++ s } [] = analyze kw tables [] := by
  have he : st.errors = [] :=
    (signalProgram_endsClean kw ⟨[], tables⟩ (initialState tables []) [] rfl true st h).1 rfl
  have hext := signalProgram_extends kw s ⟨[], tables⟩ (initialState tables []) [] rfl true st
    h he
  have hsame : SameTables ⟨[], { tables with tokens := tables.tokens ++ s }⟩ ⟨[], tables⟩ :=
    ⟨rfl, rfl, rfl⟩
  have hrun : signalProgram kw ⟨[], { tables with tokens := tables.tokens ++ s }⟩
      (initialState { tables with tokens := tables.tokens ++ s } []) = some (true, extend s st) := by
    rw [signalProgram_congr kw hsame]
    exact hext
  refine ⟨he, ⟨extend s st, hrun, rfl, rfl, he⟩, ?_⟩
  simp only [analyze, List.isEmpty_nil, Bool.not_true, Bool.false_eq_true, if_false, hrun, h]
  rfl

theorem trailing_tokens_ignored_witness :
    analyze lab1Codes
        { demoTables [tokPROGRAM, tokX, tokSemi, tokBEGIN, tokEND, tokDot] with
          tokens := (demoTables [tokPROGRAM, tokX, tokSemi, tokBEGIN, tokEND, tokDot]).tokens
            ++ [tokX, tokSemi] } []
      = analyze lab1Codes (demoTables [tokPROGRAM, tokX, tokSemi, tokBEGIN, tokEND, tokDot]) [] :=
  (trailing_tokens_ignored lab1Codes
    (demoTables [tokPROGRAM, tokX, tokSemi, tokBEGIN, tokEND, tokDot]) [tokX, tokSemi]
    ⟨programTree lab1Codes tokX, ⟨6, []⟩, []⟩ rfl).2.2

end Signal
